import Mathlib

/-!
# BigInteger: a shallow embedding of `biginteger.h`

The class `BigInteger` stores a magnitude as a `std::vector<long long>` of
radix-1000 limbs, least significant first, together with a sign flag.  The
vector is modelled by a `List Int`; every element access `digits[i]` is
checked against the current length, and an access outside the vector (which
is undefined behaviour in C++) makes the operation return `none`.
Loops are written as recursive functions over an explicit iteration bound.

Two readings of the opposite-sign branch of `operator+=` are kept apart.  Its scan calls
`pop_back`, which lowers `size()` and leaves the popped limb in the storage of the vector,
and the loop after it indexes up to `x.digits.size()`.  In the strict reading an access
`digits[i]` with `i >= size()` has no result: `operator_add_assign`, `operator_sub_assign`,
`div_mod`, `gcd`, `Rational.reduce` and `Rational.asDecimal` follow it, and the statements
about which accesses stay inside the vector are made for them.  The definitions whose names
end in `_kept` make the storage explicit: an access with `size() <= i` below the length of
the storage reads and writes the popped slot.  The statements about the values that the
operations return are made for these; both readings agree wherever the strict one has a
result.
-/

/-- The class `BigInteger`: the limb vector `digits` and the flag `is_negative`. -/
structure BigInteger where
  digits : List Int
  is_negative : Bool
deriving DecidableEq

namespace BigInteger

/-- The constant `REAL_BASE = 1e3`. -/
def REAL_BASE : Int := 1000

/-- The constant `USER_BASE = 10`. -/
def USER_BASE : Int := 10

/-- The constant `DIGIT_SIZE = 3`. -/
def DIGIT_SIZE : Nat := 3

/-- The default constructor `BigInteger()`: `digits(1)`, `is_negative(false)`. -/
def zero : BigInteger := ⟨[0], false⟩

/-- The conversion `explicit operator bool`: `digits.size() != 1 || digits[0] != 0`. -/
def operator_bool (a : BigInteger) : Bool :=
  match a.digits with
  | [d] => d != 0
  | _ => true

/-- The loop of `deleteZeroes`,
`while (digits.size() > 1 && digits.back() == 0) digits.pop_back()`, with `k` iterations left. -/
def stripZeroes : Nat → List Int → List Int
  | 0, d => d
  | k + 1, d =>
    if 1 < d.length ∧ d.getLast? = some 0 then stripZeroes k d.dropLast else d

/-- The method `deleteZeroes`. -/
def deleteZeroes (a : BigInteger) : BigInteger :=
  let d := stripZeroes a.digits.length a.digits
  if operator_bool ⟨d, a.is_negative⟩ then ⟨d, a.is_negative⟩ else ⟨d, false⟩

/-- The loop of `toCarry` over the limbs, threading `carry`; `/` and `%` of C++ truncate. -/
def toCarryLoop : List Int → Int → List Int × Int
  | [], carry => ([], carry)
  | d :: ds, carry =>
    let v := d + carry
    let r := toCarryLoop ds (v.tdiv REAL_BASE)
    (v.tmod REAL_BASE :: r.1, r.2)

/-- The method `toCarry` on the limb vector. -/
def toCarry (d : List Int) : List Int :=
  let r := toCarryLoop d 0
  if r.2 != 0 then r.1 ++ [r.2] else r.1

/-- The method `multiply(long long x)`. -/
def multiply (a : BigInteger) (x : Int) : BigInteger :=
  deleteZeroes ⟨toCarry (a.digits.map (fun digit => digit * x)), false⟩

/-- The method `changeSign`. -/
def changeSign (a : BigInteger) : BigInteger :=
  if operator_bool a then ⟨a.digits, !a.is_negative⟩ else a

/-- The unary `operator-`. -/
def operator_neg (a : BigInteger) : BigInteger := changeSign a

/-- The call `digits.resize(n)`: truncate, or extend with zero limbs. -/
def resize (d : List Int) (n : Nat) : List Int :=
  d.take n ++ List.replicate (n - d.length) 0

/-- The first loop of the same-sign branch of `operator+=`:
`for (i = 0; i < x.digits.size(); ++i)`, with `k` iterations left. -/
def addLoop (xd : List Int) : Nat → Nat → List Int → Int → Option (List Int × Int)
  | 0, _, d, carry => some (d, carry)
  | k + 1, i, d, carry =>
    match d[i]?, xd[i]? with
    | some di, some xi =>
      let v := di + (xi + carry)
      if v ≥ REAL_BASE then addLoop xd k (i + 1) (d.set i (v - REAL_BASE)) 1
      else addLoop xd k (i + 1) (d.set i v) 0
    | _, _ => none

/-- The loop `while (i < digits.size() && digits[i] + 1 == REAL_BASE)` of `operator+=`;
it returns the final `i` and the limbs. -/
def carryRipple : Nat → Nat → List Int → Nat × List Int
  | 0, i, d => (i, d)
  | k + 1, i, d =>
    match d[i]? with
    | some di => if di + 1 = REAL_BASE then carryRipple k (i + 1) (d.set i 0) else (i, d)
    | none => (i, d)

/-- The scan `for (; i > 0 && digits[i] == x.digits[i]; --i) digits.pop_back()` of
`operator+=`; it returns the final `i` and the limbs. -/
def popEqual (xd : List Int) : Nat → List Int → Option (Nat × List Int)
  | 0, d => some (0, d)
  | i + 1, d =>
    match d[i + 1]?, xd[i + 1]? with
    | some di, some xi => if di = xi then popEqual xd i d.dropLast else some (i + 1, d)
    | _, _ => none

/-- The subtraction loop of the opposite-sign branch of `operator+=`:
`for (i = 0; i < x.digits.size(); ++i)`, with `k` iterations left. -/
def subLoop (xd : List Int) (sign : Int) : Nat → Nat → List Int → Int → Option (List Int × Int)
  | 0, _, d, carry => some (d, carry)
  | k + 1, i, d, carry =>
    match d[i]?, xd[i]? with
    | some di, some xi =>
      let v := sign * (di - xi) - carry
      if v < 0 then subLoop xd sign k (i + 1) (d.set i (v + REAL_BASE)) 1
      else subLoop xd sign k (i + 1) (d.set i v) 0
    | _, _ => none

/-- The loop `while (digits[i] == 0)` of `operator+=` (no bound test in the source);
it returns the final `i` and the limbs. -/
def borrowRipple : Nat → Nat → List Int → Option (Nat × List Int)
  | 0, _, _ => none
  | k + 1, i, d =>
    match d[i]? with
    | some di => if di = 0 then borrowRipple k (i + 1) (d.set i (REAL_BASE - 1)) else some (i, d)
    | none => none

/-- The magnitude comparison that opens the opposite-sign branch of `operator+=`
(`if (x.digits.size() >= digits.size())`): the limbs and the sign flag after it. -/
def alignSign (a x : BigInteger) : Option (List Int × Bool) :=
  if x.digits.length ≥ a.digits.length then
    if x.digits.length = 0 then none
    else
      match popEqual x.digits (x.digits.length - 1) (resize a.digits x.digits.length) with
      | some (i, d) =>
        match d[i]?, x.digits[i]? with
        | some di, some xi => some (d, xor a.is_negative (decide (di < xi)))
        | _, _ => none
      | none => none
  else some (a.digits, a.is_negative)

/-- The carry block of `operator+=` (`if (carry) { size_t i = x.digits.size(); ... ++digits[i]; }`),
entered with `i = x.digits.size()`. -/
def carryOut (i : Nat) (d : List Int) : Option (List Int) :=
  let r := carryRipple (d.length + 1) i d
  let d3 := if r.1 = r.2.length then r.2 ++ [0] else r.2
  match d3[r.1]? with
  | some v => some (d3.set r.1 (v + 1))
  | none => none

/-- The borrow block of `operator+=` (`if (carry) { size_t i = x.digits.size(); ... --digits[i]; }`),
entered with `i = x.digits.size()`. -/
def borrowOut (i : Nat) (d : List Int) : Option (List Int) :=
  match borrowRipple (d.length + 1) i d with
  | some (j, d2) =>
    match d2[j]? with
    | some v => some (d2.set j (v - 1))
    | none => none
  | none => none

/-- The same-sign branch of `operator+=`. -/
def addSameSign (a x : BigInteger) : Option BigInteger :=
  let d0 := if x.digits.length > a.digits.length then resize a.digits x.digits.length else a.digits
  match addLoop x.digits x.digits.length 0 d0 0 with
  | some (d1, carry) =>
    if carry ≠ 0 then
      match carryOut x.digits.length d1 with
      | some d2 => some ⟨d2, a.is_negative⟩
      | none => none
    else some ⟨d1, a.is_negative⟩
  | none => none

/-- The opposite-sign branch of `operator+=`. -/
def addOppositeSign (a x : BigInteger) : Option BigInteger :=
  match alignSign a x with
  | some (d0, neg) =>
    let sign : Int := 1 - 2 * (if neg = x.is_negative then 1 else 0)
    match subLoop x.digits sign x.digits.length 0 d0 0 with
    | some (d1, carry) =>
      if carry ≠ 0 then
        match borrowOut x.digits.length d1 with
        | some d2 => some (deleteZeroes ⟨d2, neg⟩)
        | none => none
      else some (deleteZeroes ⟨d1, neg⟩)
    | none => none
  | none => none

/-- The compound assignment `operator+=`; `none` when a limb access leaves the vector. -/
def operator_add_assign (a x : BigInteger) : Option BigInteger :=
  if x.is_negative = a.is_negative then addSameSign a x else addOppositeSign a x

/-- The compound assignment `operator-=`: `changeSign(); *this += x; changeSign()`, for an
argument `x` that is not the receiver itself (the call `a -= a` is
`operator_sub_assign_self`). -/
def operator_sub_assign (a x : BigInteger) : Option BigInteger :=
  match operator_add_assign (changeSign a) x with
  | some r => some (changeSign r)
  | none => none

/-- The downward scan of `operator<=>`:
`while (i < x.digits.size() && x.digits[i] == y.digits[i]) --i`, started at `size - 1`,
with `k = i + 1`; `none` when `i` wrapped below zero, else the index of the first
differing limb.  Both vectors have the same size here, so each access is in range. -/
def scanDown (xd yd : List Int) : Nat → Option Nat
  | 0 => none
  | k + 1 => if xd.getD k 0 = yd.getD k 0 then scanDown xd yd k else some k

/-- The three-way comparison `operator<=>`. -/
def operator_cmp (x y : BigInteger) : Ordering :=
  if x.is_negative && !y.is_negative then Ordering.lt
  else if !x.is_negative && y.is_negative then Ordering.gt
  else
    let less := if x.is_negative then Ordering.gt else Ordering.lt
    let greater := if x.is_negative then Ordering.lt else Ordering.gt
    if x.digits.length < y.digits.length then less
    else if x.digits.length > y.digits.length then greater
    else
      match scanDown x.digits y.digits x.digits.length with
      | none => Ordering.eq
      | some i => if x.digits.getD i 0 < y.digits.getD i 0 then less else greater

/-- The defaulted `operator==`: member-wise equality. -/
def operator_eq (x y : BigInteger) : Bool := decide (x = y)

/-- The free function `::multiply(BigInteger ans, long long x)`. -/
def multiply_copy (ans : BigInteger) (x : Int) : BigInteger := multiply ans x

/-- The binary search of `div_mod`: `while (left + 1 < right)`, with `k` iterations left.
The gap `right - left` starts at 1000 and shrinks in every iteration, so a bound of 1000
iterations is never exhausted. -/
def searchDigit (x mod : BigInteger) : Nat → Int → Int → Int
  | 0, left, _ => left
  | k + 1, left, right =>
    if left + 1 < right then
      let md := (left + right).tdiv 2
      if operator_cmp (multiply_copy x md) mod ≠ Ordering.gt then searchDigit x mod k md right
      else searchDigit x mod k left md
    else left

/-- One iteration of the `for` loop of `div_mod` on the dividend limb `di`; the state is
`div.digits` and `mod`.  The limb pushed on `div.digits` is the final value of the
reference `left` (0 when the search is skipped). -/
def div_mod_step (x : BigInteger) (divd : List Int) (mod : BigInteger) (di : Int) :
    Option (List Int × BigInteger) :=
  match mod.digits.getLast? with
  | none => none
  | some b =>
    let mod1 : BigInteger :=
      if b ≠ 0 then ⟨di :: mod.digits, mod.is_negative⟩ else ⟨mod.digits.set 0 di, mod.is_negative⟩
    if operator_cmp mod1 x ≠ Ordering.lt then
      let left := searchDigit x mod1 1000 0 REAL_BASE
      match operator_sub_assign mod1 (multiply_copy x left) with
      | some mod2 => some (divd ++ [left], mod2)
      | none => none
    else some (divd ++ [0], mod1)

/-- The `for` loop of `div_mod`, over the dividend limbs from the most significant down. -/
def div_mod_loop (x : BigInteger) : List Int → List Int → BigInteger → Option (List Int × BigInteger)
  | [], divd, mod => some (divd, mod)
  | di :: rest, divd, mod =>
    match div_mod_step x divd mod di with
    | some st => div_mod_loop x rest st.1 st.2
    | none => none

/-- The method `div_mod`; `none` when a limb access leaves the vector. -/
def div_mod (a x : BigInteger) : Option (BigInteger × BigInteger) :=
  match div_mod_loop x a.digits.reverse [0] zero with
  | some (divd, mod) =>
    some (deleteZeroes ⟨divd.reverse, xor a.is_negative x.is_negative⟩,
          ⟨mod.digits, operator_bool mod && a.is_negative⟩)
  | none => none

/-- The first character of `std::to_string(v)` for `|v| < 10`. -/
def to_string_head (v : Int) : Char :=
  if v < 0 then '-' else Char.ofNat (48 + v.toNat)

/-- The inner loop of `toString`: the `k` characters written for one limb `t`. -/
def limbChars : Nat → Int → List Char
  | 0, _ => []
  | k + 1, t => to_string_head (t.tmod USER_BASE) :: limbChars k (t.tdiv USER_BASE)

/-- The outer loop of `toString`: the buffer `s` once every limb is written. -/
def fillChars : List Int → List Char
  | [] => []
  | t :: ts => limbChars DIGIT_SIZE t ++ fillChars ts

/-- The loop `while (s.size() > 1 && s.back() == '0') s.pop_back()` of `toString`, with `k`
iterations left. -/
def stripChars : Nat → List Char → List Char
  | 0, s => s
  | k + 1, s =>
    if 1 < s.length ∧ s.getLast? = some '0' then stripChars k s.dropLast else s

/-- The method `toString`. -/
def toString (a : BigInteger) : List Char :=
  let s := fillChars a.digits
  let s1 := stripChars s.length s
  let s2 := if a.is_negative then s1 ++ ['-'] else s1
  s2.reverse

/-- The loop `while (s.size() % DIGIT_SIZE) s.push_back('0')` of `operator>>`, with `k`
iterations left; it runs at most `DIGIT_SIZE - 1` times. -/
def padChars : Nat → List Char → List Char
  | 0, s => s
  | k + 1, s => if s.length % DIGIT_SIZE ≠ 0 then padChars k (s ++ ['0']) else s

/-- The inner loop of `operator>>` for limb `i`:
`for (j = DIGIT_SIZE * (i + 1); j > DIGIT_SIZE * i; --j)`, with `k` iterations left
(`j - 1 = DIGIT_SIZE * i + k - 1`).  The padded string has `DIGIT_SIZE` characters per
limb, so each `s[j - 1]` is in range; `s[j - 1] - '0'` is the character code minus 48.
The token is a sequence of ASCII characters (codes below 128), on which the `char`
arithmetic of the source and the character codes agree. -/
def readLimb (s : List Char) (i : Nat) : Nat → Int → Int
  | 0, acc => acc
  | k + 1, acc =>
    readLimb s i k (USER_BASE * acc + (((s.getD (DIGIT_SIZE * i + k) '0').toNat : Int) - 48))

/-- The extraction `operator>>` applied to the token `s` read from the stream;
`none` when `s.back()` is taken of an empty string. -/
def operator_read (s : List Char) : Option BigInteger :=
  let r := s.reverse
  match r.getLast? with
  | none => none
  | some c =>
    let neg := decide (c = '-')
    let r1 := if c = '-' then r.dropLast else r
    let r2 := padChars DIGIT_SIZE r1
    let n := r2.length / DIGIT_SIZE
    some (deleteZeroes ⟨(List.range n).map (fun i => readLimb r2 i DIGIT_SIZE 0), neg⟩)

/-- The integer denoted by a limb vector: the sum of `digits[i] * 1000 ^ i`. -/
def magnitude : List Int → Int
  | [] => 0
  | d :: ds => d + REAL_BASE * magnitude ds

/-- The integer denoted by a value. -/
def toInt (a : BigInteger) : Int :=
  if a.is_negative then -magnitude a.digits else magnitude a.digits

/-- The canonical form: a non-empty limb vector, every limb in `[0, 1000)`, no
most-significant zero limb except for the single limb `0`, and no negative zero. -/
def canonical (a : BigInteger) : Prop :=
  a.digits ≠ [] ∧ (∀ d ∈ a.digits, 0 ≤ d ∧ d < REAL_BASE) ∧
  (a.digits.getLast? ≠ some 0 ∨ a.digits = [0]) ∧
  (a.digits = [0] → a.is_negative = false)

instance (a : BigInteger) : Decidable (canonical a) := by
  unfold canonical; infer_instance

/-- The loop `while (x) { digits.push_back(x % REAL_BASE); x /= REAL_BASE; }` of the
constructor, with `k` iterations left; `x` is positive here and shrinks in every iteration,
so a bound of `x` iterations is never exhausted. -/
def constructLoop : Nat → Int → List Int
  | 0, _ => []
  | k + 1, x => if x ≠ 0 then x.tmod REAL_BASE :: constructLoop k (x.tdiv REAL_BASE) else []

/-- The largest value of `long long`. -/
def LLONG_MAX : Int := 9223372036854775807

/-- The smallest value of `long long`. -/
def LLONG_MIN : Int := -9223372036854775808

/-- The constructor `BigInteger(long long x)`, for `LLONG_MIN ≤ x ≤ LLONG_MAX`; `none` when
the negation `x = -x` overflows (undefined behaviour). -/
def from_long_long (x : Int) : Option BigInteger :=
  if x = 0 then some ⟨[0], false⟩
  else if x < 0 then
    if -x > LLONG_MAX then none else some ⟨constructLoop (-x).toNat (-x), true⟩
  else some ⟨constructLoop x.toNat x, false⟩

/-- The method `applyAbs`. -/
def applyAbs (a : BigInteger) : BigInteger := ⟨a.digits, false⟩

/-- The loop `while (--q) x *= USER_BASE` of `multiply_pow10`, entered with `q` equal to 1
or 2 (the first argument is `q` before the decrement). -/
def pow10Loop : Nat → Int → Int
  | 0, x => x
  | q + 1, x => if q ≠ 0 then pow10Loop q (x * USER_BASE) else x

/-- The method `multiply_pow10(size_t q)`. -/
def multiply_pow10 (a : BigInteger) (q : Nat) : BigInteger :=
  if operator_bool a then
    let a1 : BigInteger := ⟨List.replicate (q / DIGIT_SIZE) 0 ++ a.digits, a.is_negative⟩
    if q % DIGIT_SIZE ≠ 0 then multiply a1 (pow10Loop (q % DIGIT_SIZE) USER_BASE) else a1
  else a

/-- The assignment `operator/=`: `*this = div_mod(x).first`. -/
def operator_div_assign (a x : BigInteger) : Option BigInteger :=
  match div_mod a x with
  | some r => some r.1
  | none => none

/-- The assignment `operator%=`: `*this = div_mod(x).second`. -/
def operator_mod_assign (a x : BigInteger) : Option BigInteger :=
  match div_mod a x with
  | some r => some r.2
  | none => none

/-- The loop `while (b) { a %= b; a.swap(b); }` of `gcd`, with `k` iterations left. -/
def gcdLoop : Nat → BigInteger → BigInteger → Option BigInteger
  | 0, _, _ => none
  | k + 1, a, b =>
    if operator_bool b then
      match operator_mod_assign a b with
      | some r => gcdLoop k b r
      | none => none
    else some a

/-- The free function `gcd(BigInteger a, BigInteger b)`.  Every remainder is smaller than
its divisor, so the bound of `|b| + 1` iterations is not the reason the loop stops. -/
def gcd (a b : BigInteger) : Option BigInteger :=
  gcdLoop ((magnitude b.digits).toNat + 1) (applyAbs a) (applyAbs b)

/-- The prefix `operator++()`: `return *this += 1`; the pair is the receiver afterwards and
the returned value. -/
def operator_pre_inc (a : BigInteger) : Option (BigInteger × BigInteger) :=
  match from_long_long 1 with
  | some one =>
    match operator_add_assign a one with
    | some r => some (r, r)
    | none => none
  | none => none

/-- The postfix `operator++(int)`: `tmp = *this; ++*this; return tmp`; the pair is the
receiver afterwards and the returned value. -/
def operator_post_inc (a : BigInteger) : Option (BigInteger × BigInteger) :=
  match operator_pre_inc a with
  | some r => some (r.1, a)
  | none => none

/-- The prefix `operator--()`: `return *this += -1`; the pair is the receiver afterwards and
the returned value. -/
def operator_pre_dec (a : BigInteger) : Option (BigInteger × BigInteger) :=
  match from_long_long (-1) with
  | some minus_one =>
    match operator_add_assign a minus_one with
    | some r => some (r, r)
    | none => none
  | none => none

/-- The postfix `operator--(int)`: `tmp = *this; --*this; return tmp`; the pair is the
receiver afterwards and the returned value. -/
def operator_post_dec (a : BigInteger) : Option (BigInteger × BigInteger) :=
  match operator_pre_dec a with
  | some r => some (r.1, a)
  | none => none

/-- The loop `for (i = 0; i < x.digits.size(); ++i)` of `operator>>` on the limbs of the
destination, with `k` iterations left: limb `i` is set to zero and then to the number read
from the three characters of its group. -/
def fillLimbs (s : List Char) : Nat → Nat → List Int → List Int
  | 0, _, d => d
  | k + 1, i, d => fillLimbs s k (i + 1) (d.set i (readLimb s i DIGIT_SIZE 0))

/-- The extraction `operator>>(std::istream& in, BigInteger& x)`: the destination `x` after
the call, for the token `s` that `in >> s` reads.  The sign flag is assigned, the limb
vector of `x` is resized and every limb of it is written; `none` when `s.back()` is taken
of an empty string. -/
def operator_extract (x : BigInteger) (s : List Char) : Option BigInteger :=
  let r := s.reverse
  match r.getLast? with
  | none => none
  | some c =>
    let neg := decide (c = '-')
    let r1 := if c = '-' then r.dropLast else r
    let r2 := padChars DIGIT_SIZE r1
    let n := r2.length / DIGIT_SIZE
    some (deleteZeroes ⟨fillLimbs r2 n 0 (resize x.digits n), neg⟩)

/-- The textual format of the interface: an optional leading `-` followed by one or more
decimal digits. -/
def validToken (s : List Char) : Prop :=
  if s.head? = some '-' then s.tail ≠ [] ∧ ∀ c ∈ s.tail, c.isDigit = true
  else s ≠ [] ∧ ∀ c ∈ s, c.isDigit = true

instance (s : List Char) : Decidable (validToken s) := by
  unfold validToken; infer_instance

/-- The number written by a run of decimal digits, most significant digit first. -/
def digitsValue (ds : List Char) : Int :=
  ds.foldl (fun acc c => 10 * acc + ((c.toNat : Int) - 48)) 0

/-- The integer that a token of the textual format denotes. -/
def tokenValue (s : List Char) : Int :=
  if s.head? = some '-' then -digitsValue s.tail else digitsValue s

/-- The standard decimal rendering of an integer `z`: a minus sign exactly when `z` is
negative, then the digits of `|z|` with no leading zero except for the text `0`. -/
def decimalText (s : List Char) (z : Int) : Prop :=
  ∃ ds : List Char, s = (if z < 0 then ['-'] else []) ++ ds ∧ ds ≠ [] ∧
    (∀ c ∈ ds, c.isDigit = true) ∧ (ds.head? = some '0' → ds = ['0']) ∧
    digitsValue ds = |z|

/-- The opposite-sign branch of `operator+=` with the storage of the vector made explicit.
`pop_back` lowers `size()` and leaves the popped limb in the storage, so the loop
`for (i = 0; i < x.digits.size(); ++i)` reads and writes, for `i >= size()`, the slots that
the scan has popped.  `store` is the storage (the limbs after `resize`), `d0.length` is
`size()` after the scan, and `deleteZeroes` sees the first `size()` limbs.  `none` when an
index reaches beyond the storage. -/
def addOppositeSignKept (a x : BigInteger) : Option BigInteger :=
  match alignSign a x with
  | some (d0, neg) =>
    let store : List Int :=
      if x.digits.length ≥ a.digits.length then resize a.digits x.digits.length else a.digits
    let sign : Int := 1 - 2 * (if neg = x.is_negative then 1 else 0)
    match subLoop x.digits sign x.digits.length 0 store 0 with
    | some (d1, carry) =>
      if carry ≠ 0 then
        match borrowOut x.digits.length d1 with
        | some d2 => some (deleteZeroes ⟨d2.take d0.length, neg⟩)
        | none => none
      else some (deleteZeroes ⟨d1.take d0.length, neg⟩)
    | none => none
  | none => none

/-- The compound assignment `operator+=`, with popped limbs kept in the storage. -/
def operator_add_assign_kept (a x : BigInteger) : Option BigInteger :=
  if x.is_negative = a.is_negative then addSameSign a x else addOppositeSignKept a x

/-- The compound assignment `operator-=` on an argument that is not the receiver itself:
`changeSign(); *this += x; changeSign()`, with popped limbs kept in the storage. -/
def operator_sub_assign_kept (a x : BigInteger) : Option BigInteger :=
  match operator_add_assign_kept (changeSign a) x with
  | some r => some (changeSign r)
  | none => none

/-- The call `a -= a`.  The parameter `x` is a reference to the receiver, so `changeSign()`
flips the sign that `*this += x` then reads through `x`; the addition therefore runs in the
same-sign branch, in which each `x.digits[i]` is read before `digits[i]` is written. -/
def operator_sub_assign_self (a : BigInteger) : Option BigInteger :=
  match operator_add_assign (changeSign a) (changeSign a) with
  | some r => some (changeSign r)
  | none => none

/-- One iteration of the loop of `div_mod`, in which `mod -= ::multiply(x, left)` keeps
popped limbs in the storage. -/
def div_mod_step_kept (x : BigInteger) (divd : List Int) (mod : BigInteger) (di : Int) :
    Option (List Int × BigInteger) :=
  match mod.digits.getLast? with
  | none => none
  | some b =>
    let mod1 : BigInteger :=
      if b ≠ 0 then ⟨di :: mod.digits, mod.is_negative⟩ else ⟨mod.digits.set 0 di, mod.is_negative⟩
    if operator_cmp mod1 x ≠ Ordering.lt then
      let left := searchDigit x mod1 1000 0 REAL_BASE
      match operator_sub_assign_kept mod1 (multiply_copy x left) with
      | some mod2 => some (divd ++ [left], mod2)
      | none => none
    else some (divd ++ [0], mod1)

/-- The `for` loop of `div_mod`, over the dividend limbs from the most significant down,
with popped limbs kept in the storage. -/
def div_mod_loop_kept (x : BigInteger) :
    List Int → List Int → BigInteger → Option (List Int × BigInteger)
  | [], divd, mod => some (divd, mod)
  | di :: rest, divd, mod =>
    match div_mod_step_kept x divd mod di with
    | some (divd1, mod1) => div_mod_loop_kept x rest divd1 mod1
    | none => none

/-- The method `div_mod`, with popped limbs kept in the storage. -/
def div_mod_kept (a x : BigInteger) : Option (BigInteger × BigInteger) :=
  match div_mod_loop_kept x a.digits.reverse [0] zero with
  | some (divd, mod) =>
    some (deleteZeroes ⟨divd.reverse, xor a.is_negative x.is_negative⟩,
          ⟨mod.digits, operator_bool mod && a.is_negative⟩)
  | none => none

/-- The assignment `operator/=`, `*this = div_mod(x).first`, with popped limbs kept in the
storage. -/
def operator_div_assign_kept (a x : BigInteger) : Option BigInteger :=
  match div_mod_kept a x with
  | some r => some r.1
  | none => none

/-- The assignment `operator%=`, `*this = div_mod(x).second`, with popped limbs kept in the
storage. -/
def operator_mod_assign_kept (a x : BigInteger) : Option BigInteger :=
  match div_mod_kept a x with
  | some r => some r.2
  | none => none

/-- The loop `while (b) { a %= b; a.swap(b); }` of `gcd`, with `k` iterations left and
popped limbs kept in the storage. -/
def gcdLoop_kept : Nat → BigInteger → BigInteger → Option BigInteger
  | 0, _, _ => none
  | k + 1, a, b =>
    if operator_bool b then
      match operator_mod_assign_kept a b with
      | some r => gcdLoop_kept k b r
      | none => none
    else some a

/-- The free function `gcd(BigInteger a, BigInteger b)`, with popped limbs kept in the
storage; the loop is given `|b| + 1` iterations. -/
def gcd_kept (a b : BigInteger) : Option BigInteger :=
  gcdLoop_kept ((magnitude b.digits).toNat + 1) (applyAbs a) (applyAbs b)

/-- The product of two `std::complex<long double>` values whose real and imaginary parts
are integers: `(p.re * q.re - p.im * q.im, p.re * q.im + p.im * q.re)`. -/
def complexMul (p q : Int × Int) : Int × Int :=
  (p.1 * q.1 - p.2 * q.2, p.1 * q.2 + p.2 * q.1)

/-- The function `fft` on a vector of two entries `d0`, `d1`, each a pair of the real and
the imaginary part.  The bit-reversal loop swaps nothing (`i = 1`, `j = 1`); the only
butterfly (`len = 2`, `i = 0`, `j = 0`) uses `w = 1`, the factor `w_len` being multiplied
into `w` after its last use; with `invert` each entry is divided by `n = 2`, which is
exact on the even integers that `operator*=` passes. -/
def fft_two (d0 d1 : Int × Int) (invert : Bool) : (Int × Int) × (Int × Int) :=
  let u := d0
  let v := complexMul d1 (1, 0)
  let e0 : Int × Int := (u.1 + v.1, u.2 + v.2)
  let e1 : Int × Int := (u.1 - v.1, u.2 - v.2)
  if invert then ((e0.1 / 2, e0.2 / 2), (e1.1 / 2, e1.2 / 2)) else (e0, e1)

/-- The assignment `operator*=` on operands of one limb each.  Then
`n = to_pow2(1 + 1) = 2`, the vectors are `fa = (a0, 0)` and `fb = (x0, 0)`, and for limbs
in `[0, 1000)` every value in the three transforms is an integer below `2 * 10^6` in
magnitude, which `long double` holds, adds, multiplies and halves without rounding, and
which `roundl` returns unchanged.  Longer operands go through factors `cosl(ang)`,
`sinl(ang)` that are not integers; they are outside this definition, which gives `none`
for them. -/
def operator_mul_assign (a x : BigInteger) : Option BigInteger :=
  match a.digits, x.digits with
  | [a0], [x0] =>
    let fa := fft_two (a0, 0) (0, 0) false
    let fb := fft_two (x0, 0) (0, 0) false
    let fc := fft_two (complexMul fa.1 fb.1) (complexMul fa.2 fb.2) true
    some (deleteZeroes ⟨toCarry [fc.1.1, fc.2.1], xor a.is_negative x.is_negative⟩)
  | _, _ => none

end BigInteger

/-- The class `Rational`: the numerator `x` and the denominator `y`. -/
structure Rational where
  x : BigInteger
  y : BigInteger
deriving DecidableEq

namespace Rational

open BigInteger

/-- The method `reduce`; the literal `0` of `y < 0` is `BigInteger(0)`.  `none` when a limb
access inside `gcd`, `/=` leaves a vector. -/
def reduce (r : Rational) : Option Rational :=
  let r1 : Rational :=
    if operator_cmp r.y zero = Ordering.lt then ⟨changeSign r.x, changeSign r.y⟩ else r
  match BigInteger.gcd r1.x r1.y with
  | some g =>
    match operator_div_assign r1.x g, operator_div_assign r1.y g with
    | some x, some y => some ⟨x, y⟩
    | _, _ => none
  | none => none

/-- The constructor `Rational(const BigInteger& x, const BigInteger& y)`. -/
def construct (x y : BigInteger) : Option Rational := reduce ⟨x, y⟩

/-- The method `reduce`, with popped limbs kept in the storage of the big integers. -/
def reduce_kept (r : Rational) : Option Rational :=
  let r1 : Rational :=
    if operator_cmp r.y zero = Ordering.lt then ⟨changeSign r.x, changeSign r.y⟩ else r
  match BigInteger.gcd_kept r1.x r1.y with
  | some g =>
    match operator_div_assign_kept r1.x g, operator_div_assign_kept r1.y g with
    | some x, some y => some ⟨x, y⟩
    | _, _ => none
  | none => none

/-- The constructor `Rational(const BigInteger& x, const BigInteger& y)`, with popped limbs
kept in the storage. -/
def construct_kept (x y : BigInteger) : Option Rational := reduce_kept ⟨x, y⟩

/-- The assignment `operator/=`: `x *= t.y; y *= t.x; reduce()`, for an argument `t` that is
not the receiver itself and for numerators and denominators of one limb each, on which
`operator*=` is `operator_mul_assign`. -/
def operator_div_assign (p t : Rational) : Option Rational :=
  match operator_mul_assign p.x t.y, operator_mul_assign p.y t.x with
  | some x1, some y1 => reduce_kept ⟨x1, y1⟩
  | _, _ => none

/-- The method `asDecimal(size_t precision)`; `precision - s.size()` is computed in
`size_t`.  `none` when a limb access inside `div_mod` leaves a vector. -/
def asDecimal (r : Rational) (precision : Nat) : Option (List Char) :=
  match div_mod r.x r.y with
  | some (div, mod) =>
    let integer := BigInteger.toString div
    if precision = 0 then some integer
    else
      match BigInteger.operator_div_assign (multiply_pow10 (applyAbs mod) precision) r.y with
      | some mod3 =>
        let s := BigInteger.toString mod3
        let integer2 :=
          if integer = ['0'] ∧ operator_cmp r.x zero = Ordering.lt ∧ operator_bool mod3 = true
          then ['-', '0'] else integer
        some (integer2 ++ ['.'] ++
          List.replicate ((precision + 2 ^ 64 - s.length) % 2 ^ 64) '0' ++ s)
      | none => none
  | none => none

/-- The method `asDecimal(size_t precision)`, with popped limbs kept in the storage;
`precision - s.size()` is computed in `size_t`. -/
def asDecimal_kept (r : Rational) (precision : Nat) : Option (List Char) :=
  match div_mod_kept r.x r.y with
  | some (div, mod) =>
    let integer := BigInteger.toString div
    if precision = 0 then some integer
    else
      match BigInteger.operator_div_assign_kept (multiply_pow10 (applyAbs mod) precision)
          r.y with
      | some mod3 =>
        let s := BigInteger.toString mod3
        let integer2 :=
          if integer = ['0'] ∧ operator_cmp r.x zero = Ordering.lt ∧ operator_bool mod3 = true
          then ['-', '0'] else integer
        some (integer2 ++ ['.'] ++
          List.replicate ((precision + 2 ^ 64 - s.length) % 2 ^ 64) '0' ++ s)
      | none => none
  | none => none

end Rational

namespace BigInteger

/-! ## Limb vectors and the integers they denote -/

theorem REAL_BASE_eq : REAL_BASE = 1000 := rfl

/-- Limbs in range: every limb lies in `[0, 1000)`. -/
theorem magnitude_nonneg (ds : List Int) (h : ∀ d ∈ ds, 0 ≤ d ∧ d < REAL_BASE) :
    0 ≤ magnitude ds := by
  induction ds with
  | nil => simp [magnitude]
  | cons d ds ih =>
    have h1 := h d (List.mem_cons_self _ _)
    have h2 := ih (fun e he => h e (List.mem_cons_of_mem _ he))
    simp only [magnitude, REAL_BASE_eq] at *
    omega

theorem magnitude_lt_pow (ds : List Int) (h : ∀ d ∈ ds, 0 ≤ d ∧ d < REAL_BASE) :
    magnitude ds < 1000 ^ ds.length := by
  induction ds with
  | nil => simp [magnitude]
  | cons d ds ih =>
    have h1 := h d (List.mem_cons_self _ _)
    have h2 := ih (fun e he => h e (List.mem_cons_of_mem _ he))
    simp only [magnitude, REAL_BASE_eq, List.length_cons, pow_succ] at *
    omega

theorem pow_le_magnitude (ds : List Int) (h : ∀ d ∈ ds, 0 ≤ d ∧ d < REAL_BASE)
    (hne : ds ≠ []) (hlast : ds.getLast? ≠ some 0) :
    (1000 : Int) ^ (ds.length - 1) ≤ magnitude ds := by
  induction ds with
  | nil => exact absurd rfl hne
  | cons d ds ih =>
    have h1 := h d (List.mem_cons_self _ _)
    cases ds with
    | nil =>
      simp only [List.getLast?_singleton, ne_eq, Option.some.injEq] at hlast
      simp only [magnitude, REAL_BASE_eq, List.length_cons, List.length_nil] at *
      omega
    | cons e es =>
      have h2 := ih (fun e he => h e (List.mem_cons_of_mem _ he)) (by simp)
        (by simpa [List.getLast?_cons_cons] using hlast)
      simp only [magnitude, REAL_BASE_eq, List.length_cons, Nat.add_sub_cancel, pow_succ] at *
      omega

theorem eq_of_getD_eq (xd yd : List Int) (hlen : xd.length = yd.length)
    (h : ∀ j, j < xd.length → xd.getD j 0 = yd.getD j 0) : xd = yd := by
  induction xd generalizing yd with
  | nil =>
    cases yd with
    | nil => rfl
    | cons y ys => simp at hlen
  | cons x xs ih =>
    cases yd with
    | nil => simp at hlen
    | cons y ys =>
      have h0 := h 0 (by simp)
      simp only [List.getD_cons_zero] at h0
      have hs : xs = ys := by
        apply ih ys (by simpa using hlen)
        intro j hj
        have := h (j + 1) (by simpa using hj)
        simpa [List.getD_cons_succ] using this
      rw [h0, hs]

theorem magnitude_lt_of_limb_lt (xd yd : List Int) (i : Nat)
    (hx : ∀ d ∈ xd, 0 ≤ d ∧ d < REAL_BASE) (hy : ∀ d ∈ yd, 0 ≤ d ∧ d < REAL_BASE)
    (hlen : xd.length = yd.length) (hi : i < xd.length)
    (hlt : xd.getD i 0 < yd.getD i 0)
    (heq : ∀ j, i < j → j < xd.length → xd.getD j 0 = yd.getD j 0) :
    magnitude xd < magnitude yd := by
  induction xd generalizing yd i with
  | nil => simp at hi
  | cons x xs ih =>
    cases yd with
    | nil => simp at hlen
    | cons y ys =>
      have hx0 := hx x (List.mem_cons_self _ _)
      have hy0 := hy y (List.mem_cons_self _ _)
      have hxs : ∀ d ∈ xs, 0 ≤ d ∧ d < REAL_BASE := fun e he => hx e (List.mem_cons_of_mem _ he)
      have hys : ∀ d ∈ ys, 0 ≤ d ∧ d < REAL_BASE := fun e he => hy e (List.mem_cons_of_mem _ he)
      have hl : xs.length = ys.length := by simpa using hlen
      cases i with
      | zero =>
        have hs : xs = ys := by
          apply eq_of_getD_eq xs ys hl
          intro j hj
          have := heq (j + 1) (by omega) (by simpa using hj)
          simpa [List.getD_cons_succ] using this
        simp only [List.getD_cons_zero] at hlt
        simp only [magnitude, hs, REAL_BASE_eq]
        omega
      | succ i =>
        have hm : magnitude xs < magnitude ys := by
          apply ih ys i hxs hys hl (by simpa using hi)
          · simpa [List.getD_cons_succ] using hlt
          · intro j hij hj
            have := heq (j + 1) (by omega) (by simpa using hj)
            simpa [List.getD_cons_succ] using this
        simp only [magnitude, REAL_BASE_eq] at *
        omega

theorem magnitude_lt_of_length_lt (xd yd : List Int)
    (hx : ∀ d ∈ xd, 0 ≤ d ∧ d < REAL_BASE) (hy : ∀ d ∈ yd, 0 ≤ d ∧ d < REAL_BASE)
    (hlast : yd.getLast? ≠ some 0) (hlen : xd.length < yd.length) :
    magnitude xd < magnitude yd := by
  have hne : yd ≠ [] := by
    intro h; rw [h] at hlen; simp at hlen
  have h1 := magnitude_lt_pow xd hx
  have h2 := pow_le_magnitude yd hy hne hlast
  have h3 : (1000 : Int) ^ xd.length ≤ 1000 ^ (yd.length - 1) :=
    pow_le_pow_right₀ (by norm_num) (by omega)
  omega

theorem canonical_last (a : BigInteger) (h : canonical a) (h2 : a.digits ≠ [0]) :
    a.digits.getLast? ≠ some 0 := by
  rcases h.2.2.1 with h3 | h3
  · exact h3
  · exact absurd h3 h2

theorem canonical_last_of_length (a : BigInteger) (h : canonical a) (h2 : 1 < a.digits.length) :
    a.digits.getLast? ≠ some 0 := by
  apply canonical_last a h
  intro h3; rw [h3] at h2; simp at h2

theorem canonical_neg_pos (a : BigInteger) (h : canonical a) (hn : a.is_negative = true) :
    0 < magnitude a.digits := by
  have h2 : a.digits ≠ [0] := by
    intro h3
    have := h.2.2.2 h3
    rw [hn] at this; cases this
  have h4 := pow_le_magnitude a.digits h.2.1 h.1 (canonical_last a h h2)
  have h5 : (0 : Int) < 1000 ^ (a.digits.length - 1) := by positivity
  omega

theorem magnitude_append (xs ys : List Int) :
    magnitude (xs ++ ys) = magnitude xs + 1000 ^ xs.length * magnitude ys := by
  induction xs with
  | nil => simp [magnitude]
  | cons x xs ih =>
    rw [List.cons_append]
    simp only [magnitude, ih, List.length_cons, pow_succ, REAL_BASE_eq]
    ring

theorem magnitude_replicate_zero (n : Nat) : magnitude (List.replicate n 0) = 0 := by
  induction n with
  | zero => rfl
  | succ n ih => simp [List.replicate_succ, magnitude, ih]

theorem magnitude_replicate_999 (n : Nat) :
    magnitude (List.replicate n 999) = 1000 ^ n - 1 := by
  induction n with
  | zero => rfl
  | succ n ih =>
    simp only [List.replicate_succ, magnitude, ih, REAL_BASE_eq, pow_succ]
    ring

theorem magnitude_take_drop (d : List Int) (k : Nat) (h : k ≤ d.length) :
    magnitude (d.take k) + 1000 ^ k * magnitude (d.drop k) = magnitude d := by
  have := magnitude_append (d.take k) (d.drop k)
  rw [List.take_append_drop, List.length_take, min_eq_left h] at this
  rw [this]

theorem last_ne_zero_of_magnitude (d : List Int) (hr : ∀ t ∈ d, 0 ≤ t ∧ t < REAL_BASE)
    (hne : d ≠ []) (hm : (1000 : Int) ^ (d.length - 1) ≤ magnitude d) :
    d.getLast? ≠ some 0 := by
  rcases List.eq_nil_or_concat d with h | ⟨L, b, h⟩
  · exact absurd h hne
  rw [List.concat_eq_append] at h
  subst h
  rw [List.getLast?_concat]
  intro hb
  simp only [Option.some.injEq] at hb
  subst hb
  have h1 := magnitude_lt_pow L (fun t ht => hr t (List.mem_append_left _ ht))
  rw [magnitude_append] at hm
  simp only [magnitude, List.length_append, List.length_cons, List.length_nil,
    Nat.add_sub_cancel, REAL_BASE_eq] at hm
  omega

theorem canonical_of_magnitude (d : List Int) (s : Bool) (hne : d ≠ [])
    (hr : ∀ t ∈ d, 0 ≤ t ∧ t < REAL_BASE)
    (htop : 2 ≤ d.length → (1000 : Int) ^ (d.length - 1) ≤ magnitude d)
    (hz : magnitude d = 0 → s = false) : canonical ⟨d, s⟩ := by
  refine ⟨hne, hr, ?_, ?_⟩
  · by_cases h2 : 2 ≤ d.length
    · left; exact last_ne_zero_of_magnitude d hr hne (htop h2)
    · cases d with
      | nil => exact absurd rfl hne
      | cons v vs =>
        cases vs with
        | nil =>
          by_cases hv : v = 0
          · right; rw [hv]
          · left; simpa using hv
        | cons w ws => simp at h2
  · intro h0
    simp only at h0
    apply hz
    rw [h0]; rfl

theorem canonical_pow_le (a : BigInteger) (h : canonical a) (h2 : 2 ≤ a.digits.length) :
    (1000 : Int) ^ (a.digits.length - 1) ≤ magnitude a.digits :=
  pow_le_magnitude a.digits h.2.1 h.1 (canonical_last_of_length a h (by omega))

theorem mem_range_append (xs ys : List Int) (hx : ∀ t ∈ xs, 0 ≤ t ∧ t < REAL_BASE)
    (hy : ∀ t ∈ ys, 0 ≤ t ∧ t < REAL_BASE) : ∀ t ∈ xs ++ ys, 0 ≤ t ∧ t < REAL_BASE := by
  intro t ht
  rcases List.mem_append.mp ht with h | h
  · exact hx t h
  · exact hy t h

theorem getLast?_some_of_ne_nil (d : List Int) (h : d ≠ []) : ∃ t, d.getLast? = some t := by
  cases hg : d.getLast? with
  | none => rw [List.getLast?_eq_none_iff] at hg; exact absurd hg h
  | some t => exact ⟨t, rfl⟩

theorem getD_last (xs : List Int) (t : Int) (h : xs.getLast? = some t) :
    xs.getD (xs.length - 1) 0 = t := by
  rw [List.getLast?_eq_getElem?] at h
  rw [List.getD_eq_getElem?_getD, h]; rfl

theorem magnitude_lt_of_top_lt (xs ys : List Int) (tx ty : Int)
    (hx : ∀ d ∈ xs, 0 ≤ d ∧ d < REAL_BASE) (hy : ∀ d ∈ ys, 0 ≤ d ∧ d < REAL_BASE)
    (hlen : xs.length = ys.length) (hxt : xs.getLast? = some tx) (hyt : ys.getLast? = some ty)
    (hlt : tx < ty) : magnitude xs < magnitude ys := by
  have hpos : 0 < xs.length := by
    apply List.length_pos.mpr
    intro h0; rw [h0] at hxt; simp at hxt
  apply magnitude_lt_of_limb_lt xs ys (xs.length - 1) hx hy hlen (by omega)
  · rw [getD_last xs tx hxt, hlen, getD_last ys ty hyt]; exact hlt
  · intro j h1 h2; omega

theorem magnitude_of_length_one (xs : List Int) (t : Int) (hlen : xs.length = 1)
    (hxt : xs.getLast? = some t) : magnitude xs = t := by
  cases xs with
  | nil => simp at hlen
  | cons v vs =>
    cases vs with
    | nil =>
      simp only [List.getLast?_singleton, Option.some.injEq] at hxt
      simp [magnitude, hxt]
    | cons w ws => simp at hlen

theorem getElem?_append_length (pre : List Int) (t : Int) (rest : List Int) :
    (pre ++ t :: rest)[pre.length]? = some t := by
  induction pre with
  | nil => simp
  | cons p pre ih => simpa using ih

theorem set_append_length (pre : List Int) (t v : Int) (rest : List Int) :
    (pre ++ t :: rest).set pre.length v = pre ++ v :: rest := by
  induction pre with
  | nil => rfl
  | cons p pre ih => simp [List.set, ih]

theorem set_zero_head (t : Int) (rest : List Int) : (t :: rest).set 0 t = t :: rest := rfl

/-! ## The comparison `operator<=>` and the equality `operator==` -/

theorem scanDown_none (xd yd : List Int) (k : Nat) (h : scanDown xd yd k = none) :
    ∀ j, j < k → xd.getD j 0 = yd.getD j 0 := by
  induction k with
  | zero => intro j hj; omega
  | succ k ih =>
    intro j hj
    simp only [scanDown] at h
    split at h
    · rename_i he
      rcases Nat.lt_succ_iff_lt_or_eq.mp hj with h1 | h1
      · exact ih h j h1
      · rw [h1]; exact he
    · simp at h

theorem scanDown_some (xd yd : List Int) (k i : Nat) (h : scanDown xd yd k = some i) :
    i < k ∧ xd.getD i 0 ≠ yd.getD i 0 ∧ ∀ j, i < j → j < k → xd.getD j 0 = yd.getD j 0 := by
  induction k with
  | zero => simp [scanDown] at h
  | succ k ih =>
    simp only [scanDown] at h
    split at h
    · rename_i he
      obtain ⟨h1, h2, h3⟩ := ih h
      refine ⟨by omega, h2, ?_⟩
      intro j hij hj
      rcases Nat.lt_succ_iff_lt_or_eq.mp hj with h4 | h4
      · exact h3 j hij h4
      · rw [h4]; exact he
    · rename_i he
      simp only [Option.some.injEq] at h
      subst h
      exact ⟨by omega, he, fun j hij hj => by omega⟩

theorem scanDown_self (xd : List Int) (k : Nat) : scanDown xd xd k = none := by
  induction k with
  | zero => rfl
  | succ k ih => simp [scanDown, ih]

/-- The size test and limb scan of `operator<=>`, for any pair of outcomes. -/
theorem cmp_limbs (xd yd : List Int) (less greater : Ordering)
    (hx : ∀ d ∈ xd, 0 ≤ d ∧ d < REAL_BASE) (hy : ∀ d ∈ yd, 0 ≤ d ∧ d < REAL_BASE)
    (hxl : 1 < xd.length → xd.getLast? ≠ some 0) (hyl : 1 < yd.length → yd.getLast? ≠ some 0)
    (hxn : xd ≠ []) (hyn : yd ≠ []) :
    (if xd.length < yd.length then less
     else if xd.length > yd.length then greater
     else
      match scanDown xd yd xd.length with
      | none => Ordering.eq
      | some i => if xd.getD i 0 < yd.getD i 0 then less else greater)
    = (if magnitude xd < magnitude yd then less
       else if magnitude xd = magnitude yd then Ordering.eq else greater) := by
  have hxlen : 0 < xd.length := List.length_pos.mpr hxn
  have hylen : 0 < yd.length := List.length_pos.mpr hyn
  by_cases h1 : xd.length < yd.length
  · have := magnitude_lt_of_length_lt xd yd hx hy (hyl (by omega)) h1
    simp [h1, this]
  · by_cases h2 : xd.length > yd.length
    · have := magnitude_lt_of_length_lt yd xd hy hx (hxl (by omega)) h2
      have h3 : ¬ magnitude xd < magnitude yd := by omega
      have h4 : ¬ magnitude xd = magnitude yd := by omega
      simp [h1, h2, h3, h4]
    · have hlen : xd.length = yd.length := by omega
      simp only [h1, h2, if_false]
      cases hs : scanDown xd yd xd.length with
      | none =>
        have := eq_of_getD_eq xd yd hlen (scanDown_none xd yd _ hs)
        simp [this]
      | some i =>
        obtain ⟨hi, hne, heq⟩ := scanDown_some xd yd _ i hs
        by_cases h5 : xd.getD i 0 < yd.getD i 0
        · have := magnitude_lt_of_limb_lt xd yd i hx hy hlen hi h5 heq
          simp only [h5, this, if_true]
        · have h6 : yd.getD i 0 < xd.getD i 0 := by omega
          have := magnitude_lt_of_limb_lt yd xd i hy hx hlen.symm (by omega) h6
            (fun j hij hj => (heq j hij (by omega)).symm)
          have h3 : ¬ magnitude xd < magnitude yd := by omega
          have h4 : ¬ magnitude xd = magnitude yd := by omega
          simp only [h5, h3, h4, if_false]

theorem compare_int (m n : Int) :
    compare m n = (if m < n then Ordering.lt else if m = n then Ordering.eq else Ordering.gt) := by
  by_cases h1 : m < n
  · simp [h1, compare_lt_iff_lt.mpr h1]
  · by_cases h2 : m = n
    · simp [h1, h2, compare_eq_iff_eq.mpr]
    · have : n < m := by omega
      simp [h1, h2, compare_gt_iff_gt.mpr this]

/-- The comparison `operator<=>` orders canonical values as the integers they denote. -/
theorem cmp_toInt (a b : BigInteger) (ha : canonical a) (hb : canonical b) :
    operator_cmp a b = compare (toInt a) (toInt b) := by
  have hl := cmp_limbs a.digits b.digits
  have hxl := canonical_last_of_length a ha
  have hyl := canonical_last_of_length b hb
  rw [compare_int]
  unfold operator_cmp toInt
  cases hna : a.is_negative <;> cases hnb : b.is_negative
  · simp only [Bool.false_and, Bool.not_false, Bool.and_false, Bool.false_eq_true, if_false]
    exact hl _ _ ha.2.1 hb.2.1 hxl hyl ha.1 hb.1
  · have h1 := canonical_neg_pos b hb hnb
    have h2 := magnitude_nonneg a.digits ha.2.1
    have h3 : ¬ magnitude a.digits < -magnitude b.digits := by omega
    have h4 : ¬ magnitude a.digits = -magnitude b.digits := by omega
    simp [h3, h4]
  · have h1 := canonical_neg_pos a ha hna
    have h2 := magnitude_nonneg b.digits hb.2.1
    have h3 : -magnitude a.digits < magnitude b.digits := by omega
    simp [h3]
  · simp only [Bool.not_true, Bool.and_false, Bool.false_eq_true, if_false, if_true,
      Bool.and_true]
    rw [hl _ _ ha.2.1 hb.2.1 hxl hyl ha.1 hb.1]
    by_cases h1 : magnitude a.digits < magnitude b.digits
    · have h3 : ¬ -magnitude a.digits < -magnitude b.digits := by omega
      have h4 : ¬ -magnitude a.digits = -magnitude b.digits := by omega
      simp [h1, h3, h4]
    · by_cases h2 : magnitude a.digits = magnitude b.digits
      · simp [h2]
      · have h3 : -magnitude a.digits < -magnitude b.digits := by omega
        simp [h1, h2, h3]

theorem cmp_eq_structural (a b : BigInteger) (h : operator_cmp a b = Ordering.eq) : a = b := by
  unfold operator_cmp at h
  cases a with
  | mk xd xn =>
  cases b with
  | mk yd yn =>
  simp only at h
  cases xn <;> cases yn <;>
    simp only [Bool.false_and, Bool.not_false, Bool.and_false, Bool.false_eq_true, if_false,
      Bool.not_true, Bool.and_true, Bool.true_and, if_true] at h
  · split at h
    · cases h
    · split at h
      · cases h
      · rename_i h1 h2
        split at h
        · rename_i hs
          have := eq_of_getD_eq xd yd (by omega) (scanDown_none xd yd _ hs)
          rw [this]
        · split at h <;> cases h
  · cases h
  · cases h
  · split at h
    · cases h
    · split at h
      · cases h
      · rename_i h1 h2
        split at h
        · rename_i hs
          have := eq_of_getD_eq xd yd (by omega) (scanDown_none xd yd _ hs)
          rw [this]
        · split at h <;> cases h

theorem cmp_self (a : BigInteger) : operator_cmp a a = Ordering.eq := by
  unfold operator_cmp
  cases a.is_negative <;> simp [scanDown_self]

theorem toInt_injective (a b : BigInteger) (ha : canonical a) (hb : canonical b)
    (h : toInt a = toInt b) : a = b := by
  apply cmp_eq_structural
  rw [cmp_toInt a b ha hb, h]
  exact compare_eq_iff_eq.mpr rfl

/-- C8: on canonical values `operator<=>` returns less, equal or greater exactly as the
denoted integers compare, so it is transitive and antisymmetric. -/
theorem operator_cmp_matches_integers (a b c : BigInteger)
    (ha : canonical a) (hb : canonical b) (hc : canonical c) :
    (operator_cmp a b = Ordering.lt ↔ toInt a < toInt b) ∧
    (operator_cmp a b = Ordering.eq ↔ toInt a = toInt b) ∧
    (operator_cmp a b = Ordering.gt ↔ toInt b < toInt a) ∧
    (operator_cmp a b = Ordering.lt → operator_cmp b c = Ordering.lt →
      operator_cmp a c = Ordering.lt) ∧
    (operator_cmp a b ≠ Ordering.gt → operator_cmp b a ≠ Ordering.gt → a = b) := by
  have hab := cmp_toInt a b ha hb
  have hba := cmp_toInt b a hb ha
  have hbc := cmp_toInt b c hb hc
  have hac := cmp_toInt a c ha hc
  rw [hab, hba, hbc, hac]
  refine ⟨compare_lt_iff_lt, compare_eq_iff_eq, compare_gt_iff_gt, ?_, ?_⟩
  · intro h1 h2
    exact compare_lt_iff_lt.mpr (lt_trans (compare_lt_iff_lt.mp h1) (compare_lt_iff_lt.mp h2))
  · intro h1 h2
    apply toInt_injective a b ha hb
    have h3 : ¬ toInt b < toInt a := fun h => h1 (compare_gt_iff_gt.mpr h)
    have h4 : ¬ toInt a < toInt b := fun h => h2 (compare_gt_iff_gt.mpr h)
    omega

/-- The comparison theorem applied to `-1005`, `1003` and `2000007`. -/
theorem operator_cmp_matches_integers_witness :
    canonical ⟨[5, 1], true⟩ ∧ canonical ⟨[3, 1], false⟩ ∧ canonical ⟨[7, 0, 2], false⟩ ∧
    operator_cmp ⟨[5, 1], true⟩ ⟨[3, 1], false⟩ = Ordering.lt ∧
    operator_cmp ⟨[5, 1], true⟩ ⟨[7, 0, 2], false⟩ = Ordering.lt :=
  ⟨by decide, by decide, by decide, by decide,
    (operator_cmp_matches_integers ⟨[5, 1], true⟩ ⟨[3, 1], false⟩ ⟨[7, 0, 2], false⟩
      (by decide) (by decide) (by decide)).2.2.2.1 (by decide) (by decide)⟩

/-- C9: on canonical values the defaulted `operator==` holds exactly when `operator<=>`
returns equal, and exactly when both values denote the same integer. -/
theorem operator_eq_iff_cmp_iff_toInt (a b : BigInteger) (ha : canonical a) (hb : canonical b) :
    (operator_eq a b = true ↔ operator_cmp a b = Ordering.eq) ∧
    (operator_eq a b = true ↔ toInt a = toInt b) := by
  unfold operator_eq
  simp only [decide_eq_true_eq]
  refine ⟨⟨fun h => by rw [h]; exact cmp_self b, cmp_eq_structural a b⟩,
    ⟨fun h => by rw [h], toInt_injective a b ha hb⟩⟩

/-- The equality theorem applied to `-1005` and `1005`. -/
theorem operator_eq_iff_cmp_iff_toInt_witness :
    canonical ⟨[5, 1], true⟩ ∧ canonical ⟨[5, 1], false⟩ ∧
    (operator_eq ⟨[5, 1], true⟩ ⟨[5, 1], false⟩ = true ↔
      toInt ⟨[5, 1], true⟩ = toInt ⟨[5, 1], false⟩) :=
  ⟨by decide, by decide,
    (operator_eq_iff_cmp_iff_toInt ⟨[5, 1], true⟩ ⟨[5, 1], false⟩ (by decide) (by decide)).2⟩

/-! ## The normalisation `deleteZeroes` and the sign flip `changeSign` -/

theorem stripZeroes_stop (k : Nat) (d : List Int) (h : 1 < d.length → d.getLast? ≠ some 0) :
    stripZeroes k d = d := by
  cases k with
  | zero => rfl
  | succ k =>
    simp only [stripZeroes]
    rw [if_neg]
    intro h2
    exact h h2.1 h2.2

theorem operator_bool_false (d : List Int) (n : Bool)
    (h : operator_bool ⟨d, n⟩ = false) : d = [0] := by
  cases d with
  | nil => simp [operator_bool] at h
  | cons x xs =>
    cases xs with
    | nil =>
      simp only [operator_bool, bne_eq_false_iff_eq] at h
      rw [h]
    | cons y ys => simp [operator_bool] at h

theorem deleteZeroes_canonical (a : BigInteger) (h : canonical a) : deleteZeroes a = a := by
  cases a with
  | mk d n =>
  have hs : stripZeroes d.length d = d :=
    stripZeroes_stop _ d (canonical_last_of_length ⟨d, n⟩ h)
  simp only [deleteZeroes, hs]
  split
  · rfl
  · rename_i hb
    have hd : d = [0] := operator_bool_false d n (by simpa using hb)
    have := h.2.2.2 hd
    simp only at this
    rw [this]

theorem stripZeroes_spec :
    ∀ (k : Nat) (d : List Int), d.length ≤ k → d ≠ [] →
      (∀ t ∈ d, 0 ≤ t ∧ t < REAL_BASE) →
      stripZeroes k d ≠ [] ∧ (∀ t ∈ stripZeroes k d, 0 ≤ t ∧ t < REAL_BASE) ∧
      magnitude (stripZeroes k d) = magnitude d ∧
      (1 < (stripZeroes k d).length → (stripZeroes k d).getLast? ≠ some 0) := by
  intro k
  induction k with
  | zero =>
    intro d hk hne _
    have := List.length_pos.mpr hne
    omega
  | succ k ih =>
    intro d hk hne hr
    simp only [stripZeroes]
    by_cases hc : 1 < d.length ∧ d.getLast? = some 0
    · rw [if_pos hc]
      rcases List.eq_nil_or_concat d with h | ⟨L, b, h⟩
      · exact absurd h hne
      rw [List.concat_eq_append] at h
      subst h
      have hb : b = 0 := by
        have := hc.2
        rw [List.getLast?_concat] at this
        simpa using this
      subst hb
      rw [List.dropLast_concat]
      have hL : L ≠ [] := by
        intro h0; subst h0; simp at hc
      obtain ⟨g1, g2, g3, g4⟩ := ih L (by simpa using hk) hL
        (fun t ht => hr t (List.mem_append_left _ ht))
      refine ⟨g1, g2, ?_, g4⟩
      rw [g3, magnitude_append]
      simp [magnitude]
    · rw [if_neg hc]
      exact ⟨hne, hr, rfl, fun h1 h2 => hc ⟨h1, h2⟩⟩

/-- The method `deleteZeroes` on a non-empty vector of limbs in range returns the canonical
value that denotes the same integer. -/
theorem deleteZeroes_spec (d : List Int) (s : Bool) (hne : d ≠ [])
    (hr : ∀ t ∈ d, 0 ≤ t ∧ t < REAL_BASE) :
    canonical (deleteZeroes ⟨d, s⟩) ∧ toInt (deleteZeroes ⟨d, s⟩) = toInt ⟨d, s⟩ := by
  obtain ⟨g1, g2, g3, g4⟩ := stripZeroes_spec d.length d (le_refl _) hne hr
  unfold deleteZeroes
  simp only []
  generalize stripZeroes d.length d = e at *
  cases hb : operator_bool ⟨e, s⟩
  · have he := operator_bool_false e s hb
    subst he
    simp only [Bool.false_eq_true, if_false]
    refine ⟨by decide, ?_⟩
    have hz : magnitude d = 0 := by rw [← g3]; rfl
    simp only [toInt, hz]
    simp [magnitude]
  · simp only [if_true]
    refine ⟨⟨g1, g2, ?_, ?_⟩, ?_⟩
    · by_cases h1 : 1 < e.length
      · left; exact g4 h1
      · cases e with
        | nil => exact absurd rfl g1
        | cons v vs =>
          cases vs with
          | nil =>
            by_cases hv : v = 0
            · right; rw [hv]
            · left; simpa using hv
          | cons w ws => simp at h1
    · intro h0
      simp only at h0
      subst h0
      simp [operator_bool] at hb
    · simp only [toInt, g3]

theorem canonical_zero : canonical zero := by decide

theorem changeSign_canonical (a : BigInteger) (h : canonical a) : canonical (changeSign a) := by
  unfold changeSign
  cases hb : operator_bool a
  · simpa using h
  · simp only [if_true]
    refine ⟨h.1, h.2.1, h.2.2.1, ?_⟩
    intro h0
    simp only at h0
    have : operator_bool a = false := by
      cases a with
      | mk d n => simp only at h0; subst h0; rfl
    rw [this] at hb; cases hb

theorem changeSign_digits (a : BigInteger) : (changeSign a).digits = a.digits := by
  unfold changeSign; split <;> rfl

theorem changeSign_toInt (a : BigInteger) : toInt (changeSign a) = -toInt a := by
  unfold changeSign
  cases hb : operator_bool a
  · have := operator_bool_false a.digits a.is_negative hb
    simp only [Bool.false_eq_true, if_false, toInt, this]
    cases a.is_negative <;> simp [magnitude]
  · simp only [if_true, toInt]
    cases a.is_negative <;> simp

theorem changeSign_flag (a : BigInteger) (h2 : 2 ≤ a.digits.length) :
    (changeSign a).is_negative = !a.is_negative := by
  have hb : operator_bool a = true := by
    cases a with
    | mk d n =>
      cases d with
      | nil => simp at h2
      | cons v vs =>
        cases vs with
        | nil => simp at h2
        | cons w ws => rfl
  simp [changeSign, hb]

/-! ## Formatting with `toString` and parsing with `operator>>` -/

theorem to_string_head_digit (v : Int) (h0 : 0 ≤ v) (h1 : v < 10) :
    ((to_string_head v).toNat : Int) - 48 = v ∧ to_string_head v ≠ '-' ∧
    (to_string_head v = '0' ↔ v = 0) := by
  have : v = 0 ∨ v = 1 ∨ v = 2 ∨ v = 3 ∨ v = 4 ∨ v = 5 ∨ v = 6 ∨ v = 7 ∨ v = 8 ∨ v = 9 := by
    omega
  rcases this with rfl | rfl | rfl | rfl | rfl | rfl | rfl | rfl | rfl | rfl <;> decide

theorem to_string_head_isDigit (v : Int) (h0 : 0 ≤ v) (h1 : v < 10) :
    (to_string_head v).isDigit = true := by
  have : v = 0 ∨ v = 1 ∨ v = 2 ∨ v = 3 ∨ v = 4 ∨ v = 5 ∨ v = 6 ∨ v = 7 ∨ v = 8 ∨ v = 9 := by
    omega
  rcases this with rfl | rfl | rfl | rfl | rfl | rfl | rfl | rfl | rfl | rfl <;> decide

theorem limbChars_three (b : Int) (h : 0 ≤ b) :
    limbChars DIGIT_SIZE b =
      [to_string_head (b % 10), to_string_head (b / 10 % 10), to_string_head (b / 100 % 10)] := by
  have e1 : b.tdiv 10 = b / 10 := Int.tdiv_eq_ediv h (by norm_num)
  have e2 : (b / 10).tdiv 10 = b / 100 := by
    rw [Int.tdiv_eq_ediv (by omega) (by norm_num)]; omega
  have e3 : b.tmod 10 = b % 10 := Int.tmod_eq_emod h (by norm_num)
  have e4 : (b / 10).tmod 10 = b / 10 % 10 := Int.tmod_eq_emod (by omega) (by norm_num)
  have e5 : (b / 100).tmod 10 = b / 100 % 10 := Int.tmod_eq_emod (by omega) (by norm_num)
  simp only [limbChars, DIGIT_SIZE, USER_BASE, e1, e2, e3, e4, e5]

theorem fillChars_append (xs ys : List Int) :
    fillChars (xs ++ ys) = fillChars xs ++ fillChars ys := by
  induction xs with
  | nil => rfl
  | cons x xs ih => simp [fillChars, ih]

theorem limbChars_length (k : Nat) (t : Int) : (limbChars k t).length = k := by
  induction k generalizing t with
  | zero => rfl
  | succ k ih => simp [limbChars, ih]

theorem fillChars_length (ds : List Int) : (fillChars ds).length = DIGIT_SIZE * ds.length := by
  induction ds with
  | nil => rfl
  | cons d ds ih => simp [fillChars, limbChars_length, ih, DIGIT_SIZE]; omega

theorem fillChars_isDigit (ds : List Int) (h : ∀ d ∈ ds, 0 ≤ d ∧ d < REAL_BASE) :
    ∀ c ∈ fillChars ds, c.isDigit = true := by
  induction ds with
  | nil => intro c hc; simp [fillChars] at hc
  | cons d ds ih =>
    have hd := h d (List.mem_cons_self _ _)
    rw [REAL_BASE_eq] at hd
    intro c hc
    simp only [fillChars, limbChars_three d hd.1, List.cons_append, List.nil_append,
      List.mem_cons] at hc
    rcases hc with hc | hc | hc | hc
    · rw [hc]; exact to_string_head_isDigit _ (by omega) (by omega)
    · rw [hc]; exact to_string_head_isDigit _ (by omega) (by omega)
    · rw [hc]; exact to_string_head_isDigit _ (by omega) (by omega)
    · exact ih (fun e he => h e (List.mem_cons_of_mem _ he)) c hc

theorem readLimb_shift (c0 c1 c2 : Char) (rest : List Char) (i k : Nat) (acc : Int) :
    readLimb (c0 :: c1 :: c2 :: rest) (i + 1) k acc = readLimb rest i k acc := by
  induction k generalizing acc with
  | zero => rfl
  | succ k ih =>
    simp only [readLimb]
    have : DIGIT_SIZE * (i + 1) + k = (DIGIT_SIZE * i + k) + 3 := by simp [DIGIT_SIZE]; omega
    rw [this, ih]
    simp only [List.getD_cons_succ]

theorem readAll_cons (c0 c1 c2 : Char) (rest : List Char) (n : Nat) :
    (List.range (n + 1)).map (fun i => readLimb (c0 :: c1 :: c2 :: rest) i DIGIT_SIZE 0) =
      readLimb (c0 :: c1 :: c2 :: rest) 0 DIGIT_SIZE 0 ::
        (List.range n).map (fun i => readLimb rest i DIGIT_SIZE 0) := by
  rw [List.range_succ_eq_map]
  simp only [List.map_cons, List.map_map]
  congr 1

theorem readAll_fillChars (ds : List Int) (h : ∀ d ∈ ds, 0 ≤ d ∧ d < REAL_BASE) :
    (List.range ds.length).map (fun i => readLimb (fillChars ds) i DIGIT_SIZE 0) = ds := by
  induction ds with
  | nil => rfl
  | cons d ds ih =>
    have hd := h d (List.mem_cons_self _ _)
    rw [REAL_BASE] at hd
    have ih2 := ih (fun e he => h e (List.mem_cons_of_mem _ he))
    simp only [fillChars, limbChars_three d hd.1, List.length_cons, List.cons_append,
      List.nil_append]
    rw [readAll_cons, ih2]
    congr 1
    have a0 := (to_string_head_digit (d % 10) (by omega) (by omega)).1
    have a1 := (to_string_head_digit (d / 10 % 10) (by omega) (by omega)).1
    have a2 := (to_string_head_digit (d / 100 % 10) (by omega) (by omega)).1
    simp only [readLimb, DIGIT_SIZE, USER_BASE, Nat.mul_zero, Nat.zero_add, List.getD_cons_zero,
      List.getD_cons_succ]
    omega

theorem stripChars_stop (k : Nat) (s : List Char) (h : s.getLast? ≠ some '0') :
    stripChars k s = s := by
  cases k with
  | zero => rfl
  | succ k => simp [stripChars, h]

theorem stripChars_zero (k : Nat) (s : List Char) (h : s ≠ []) :
    stripChars (k + 1) (s ++ ['0']) = stripChars k s := by
  have hl : 0 < s.length := List.length_pos.mpr h
  simp only [stripChars, List.getLast?_concat, List.dropLast_concat, List.length_append,
    List.length_cons, List.length_nil]
  rw [if_pos ⟨by omega, trivial⟩]

theorem stripChars_subset : ∀ (k : Nat) (s : List Char) (c : Char), c ∈ stripChars k s → c ∈ s := by
  intro k
  induction k with
  | zero => intro s c hc; exact hc
  | succ k ih =>
    intro s c hc
    simp only [stripChars] at hc
    split at hc
    · exact List.mem_of_mem_dropLast (ih _ c hc)
    · exact hc

theorem padChars_stop (k : Nat) (s : List Char) (h : s.length % 3 = 0) : padChars k s = s := by
  cases k with
  | zero => rfl
  | succ k => simp [padChars, DIGIT_SIZE, h]

theorem padChars_push (k : Nat) (s : List Char) (h : s.length % 3 ≠ 0) :
    padChars (k + 1) s = padChars k (s ++ ['0']) := by
  simp [padChars, DIGIT_SIZE, h]

/-- The text buffer of `toString` after the zero-stripping loop, for canonical limbs: its
last character is not a minus sign, and padding restores the full buffer. -/
theorem strip_pad (ds : List Int) (hne : ds ≠ []) (hr : ∀ d ∈ ds, 0 ≤ d ∧ d < REAL_BASE)
    (hl : ds.getLast? ≠ some 0 ∨ ds = [0]) :
    (∃ c, (stripChars (fillChars ds).length (fillChars ds)).getLast? = some c ∧ c ≠ '-') ∧
    padChars DIGIT_SIZE (stripChars (fillChars ds).length (fillChars ds)) = fillChars ds := by
  rcases hl with hl | hl
  swap
  · subst hl; decide
  rcases List.eq_nil_or_concat ds with h | ⟨L, b, h⟩
  · exact absurd h hne
  rw [List.concat_eq_append] at h
  subst h
  have hb := hr b (by simp)
  rw [REAL_BASE] at hb
  have hb0 : b ≠ 0 := by
    intro h; apply hl; simp [h]
  have hlen : (fillChars (L ++ [b])).length = 3 * L.length + 3 := by
    rw [fillChars_length]; simp [DIGIT_SIZE]; omega
  have hP : (fillChars L).length = 3 * L.length := by
    rw [fillChars_length]; simp [DIGIT_SIZE]
  rw [hlen]
  have hf : fillChars (L ++ [b]) = fillChars L ++
      [to_string_head (b % 10), to_string_head (b / 10 % 10), to_string_head (b / 100 % 10)] := by
    rw [fillChars_append]; simp [fillChars, limbChars_three b hb.1]
  rw [hf]
  obtain ⟨-, n0, z0⟩ := to_string_head_digit (b % 10) (by omega) (by omega)
  obtain ⟨-, n1, z1⟩ := to_string_head_digit (b / 10 % 10) (by omega) (by omega)
  obtain ⟨-, n2, z2⟩ := to_string_head_digit (b / 100 % 10) (by omega) (by omega)
  have hnz : ¬ (b % 10 = 0 ∧ b / 10 % 10 = 0 ∧ b / 100 % 10 = 0) := by omega
  rw [← z0, ← z1, ← z2] at hnz
  clear z0 z1 z2 hf
  generalize to_string_head (b % 10) = c0 at *
  generalize to_string_head (b / 10 % 10) = c1 at *
  generalize to_string_head (b / 100 % 10) = c2 at *
  generalize fillChars L = P at *
  have a3 : P ++ [c0, c1, c2] = (P ++ [c0, c1]) ++ [c2] := by simp
  have a2 : P ++ [c0, c1] = (P ++ [c0]) ++ [c1] := by simp
  have l3 : (P ++ [c0, c1, c2]).getLast? = some c2 := by rw [a3, List.getLast?_concat]
  have l2 : (P ++ [c0, c1]).getLast? = some c1 := by rw [a2, List.getLast?_concat]
  have l1 : (P ++ [c0]).getLast? = some c0 := List.getLast?_concat _
  have p1 : (P ++ [c0]).length % 3 ≠ 0 := by simp [hP]; omega
  have p2 : (P ++ [c0, c1]).length % 3 ≠ 0 := by simp [hP]; omega
  have p3 : (P ++ [c0, c1, c2]).length % 3 = 0 := by simp [hP]
  by_cases h2 : c2 = '0'
  · by_cases h1 : c1 = '0'
    · have h0 : c0 ≠ '0' := fun h0 => hnz ⟨h0, h1, h2⟩
      have e : stripChars (3 * L.length + 3) (P ++ [c0, c1, c2]) = P ++ [c0] := by
        rw [a3, h2, stripChars_zero _ _ (by simp), a2, h1, stripChars_zero _ _ (by simp)]
        exact stripChars_stop _ _ (by rw [l1]; simpa using h0)
      rw [e]
      refine ⟨⟨c0, l1, n0⟩, ?_⟩
      rw [DIGIT_SIZE, padChars_push _ _ p1, ← h1, ← a2, padChars_push _ _ p2]
      rw [padChars_stop _ _ (by rw [← h2, ← a3]; exact p3), ← h2, ← a3]
    · have e : stripChars (3 * L.length + 3) (P ++ [c0, c1, c2]) = P ++ [c0, c1] := by
        rw [a3, h2, stripChars_zero _ _ (by simp)]
        exact stripChars_stop _ _ (by rw [l2]; simpa using h1)
      rw [e]
      refine ⟨⟨c1, l2, n1⟩, ?_⟩
      rw [DIGIT_SIZE, padChars_push _ _ p2]
      rw [padChars_stop _ _ (by rw [← h2, ← a3]; exact p3), ← h2, ← a3]
  · have e : stripChars (3 * L.length + 3) (P ++ [c0, c1, c2]) = P ++ [c0, c1, c2] :=
      stripChars_stop _ _ (by rw [l3]; simpa using h2)
    rw [e]
    exact ⟨⟨c2, l3, n2⟩, padChars_stop _ _ p3⟩

/-- The text of a canonical value holds decimal digits and at most a minus sign, so the
stream extraction `in >> s` reads it back as one token. -/
theorem toString_chars (a : BigInteger) (h : canonical a) :
    ∀ c ∈ toString a, c = '-' ∨ c.isDigit = true := by
  intro c hc
  unfold toString at hc
  simp only [List.mem_reverse] at hc
  have hs : ∀ e ∈ stripChars (fillChars a.digits).length (fillChars a.digits), e.isDigit = true :=
    fun e he => fillChars_isDigit a.digits h.2.1 e (stripChars_subset _ _ e he)
  split at hc
  · rcases List.mem_append.mp hc with h1 | h1
    · exact Or.inr (hs c h1)
    · left; simpa using h1
  · exact Or.inr (hs c hc)

theorem operator_read_toString (a : BigInteger) (h : canonical a) :
    operator_read (toString a) = some a := by
  cases a with
  | mk ds n =>
  obtain ⟨⟨c, hc, hcm⟩, hpad⟩ := strip_pad ds h.1 h.2.1 h.2.2.1
  have hlen : (fillChars ds).length / DIGIT_SIZE = ds.length := by
    rw [fillChars_length]; simp [DIGIT_SIZE]
  have hdz := deleteZeroes_canonical ⟨ds, n⟩ h
  unfold operator_read toString
  simp only [List.reverse_reverse]
  cases n with
  | false =>
    simp only [Bool.false_eq_true, if_false, hc, hcm, hpad, hlen,
      readAll_fillChars ds h.2.1, decide_False]
    rw [hdz]
  | true =>
    simp only [if_true, List.getLast?_concat, List.dropLast_concat, hpad, hlen,
      readAll_fillChars ds h.2.1, decide_True]
    rw [hdz]

/-- C10: parsing the text that `toString` produces for a canonical value gives back that
value, so formatting the parsed value reproduces the text. -/
theorem toString_read_roundtrip (a : BigInteger) (h : canonical a) :
    operator_read (toString a) = some a ∧
    (operator_read (toString a)).map toString = some (toString a) := by
  rw [operator_read_toString a h]
  exact ⟨rfl, rfl⟩

/-- The round trip applied to `-1000010`, whose text is `-1000010`. -/
theorem toString_read_roundtrip_witness :
    canonical ⟨[10, 0, 1], true⟩ ∧
    toString ⟨[10, 0, 1], true⟩ = ['-', '1', '0', '0', '0', '0', '1', '0'] ∧
    operator_read (toString ⟨[10, 0, 1], true⟩) = some ⟨[10, 0, 1], true⟩ :=
  ⟨by decide, by decide, (toString_read_roundtrip ⟨[10, 0, 1], true⟩ (by decide)).1⟩

/-! ## The same-sign branch of `operator+=` -/

theorem resize_length (d : List Int) (n : Nat) : (resize d n).length = n := by
  unfold resize
  simp only [List.length_append, List.length_take, List.length_replicate]
  omega

theorem magnitude_resize (d : List Int) (n : Nat) (h : d.length ≤ n) :
    magnitude (resize d n) = magnitude d := by
  unfold resize
  rw [List.take_of_length_le h, magnitude_append, magnitude_replicate_zero]
  ring

theorem resize_range (d : List Int) (n : Nat) (h : ∀ t ∈ d, 0 ≤ t ∧ t < REAL_BASE) :
    ∀ t ∈ resize d n, 0 ≤ t ∧ t < REAL_BASE := by
  unfold resize
  apply mem_range_append
  · intro t ht; exact h t (List.mem_of_mem_take ht)
  · intro t ht
    rw [(List.mem_replicate.mp ht).2, REAL_BASE_eq]; omega

theorem resize_last (d : List Int) (n : Nat) (h : d.length < n) :
    (resize d n).getLast? = some 0 := by
  unfold resize
  obtain ⟨k, hk⟩ : ∃ k, n - d.length = k + 1 := ⟨n - d.length - 1, by omega⟩
  rw [hk, List.replicate_succ', ← List.append_assoc, List.getLast?_concat]

theorem resize_same (d : List Int) : resize d d.length = d := by
  simp [resize]

/-- The addition loop of `operator+=` on the limbs from index `pre.length` on: it stays in
range and adds the next `k` limbs of `x` with the carry. -/
theorem addLoop_spec :
    ∀ (k : Nat) (pre rest xpre xrest : List Int) (carry : Int),
      pre.length = xpre.length → k ≤ rest.length → k ≤ xrest.length →
      (carry = 0 ∨ carry = 1) →
      (∀ d ∈ rest, 0 ≤ d ∧ d < REAL_BASE) → (∀ d ∈ xrest, 0 ≤ d ∧ d < REAL_BASE) →
      ∃ (r : List Int) (c : Int),
        addLoop (xpre ++ xrest) k pre.length (pre ++ rest) carry
          = some (pre ++ r ++ rest.drop k, c) ∧
        r.length = k ∧ (c = 0 ∨ c = 1) ∧ (∀ d ∈ r, 0 ≤ d ∧ d < REAL_BASE) ∧
        magnitude r + c * 1000 ^ k
          = magnitude (rest.take k) + magnitude (xrest.take k) + carry := by
  intro k
  induction k with
  | zero =>
    intro pre rest xpre xrest carry _ _ _ hc _ _
    exact ⟨[], carry, by simp [addLoop], rfl, hc, by simp, by simp [magnitude]⟩
  | succ k ih =>
    intro pre rest xpre xrest carry hlen hk hxk hc hr hxr
    cases rest with
    | nil => simp at hk
    | cons t rest =>
      cases xrest with
      | nil => simp at hxk
      | cons u xrest =>
        have ht := hr t (List.mem_cons_self _ _)
        have hu := hxr u (List.mem_cons_self _ _)
        rw [REAL_BASE_eq] at ht hu
        have hr2 : ∀ d ∈ rest, 0 ≤ d ∧ d < REAL_BASE :=
          fun d hd => hr d (List.mem_cons_of_mem _ hd)
        have hxr2 : ∀ d ∈ xrest, 0 ≤ d ∧ d < REAL_BASE :=
          fun d hd => hxr d (List.mem_cons_of_mem _ hd)
        have e1 : (pre ++ t :: rest)[pre.length]? = some t := getElem?_append_length _ _ _
        have e2 : (xpre ++ u :: xrest)[pre.length]? = some u := by
          rw [hlen]; exact getElem?_append_length _ _ _
        simp only [addLoop, e1, e2, set_append_length, REAL_BASE_eq]
        have a1 : ∀ v : Int, pre ++ v :: rest = (pre ++ [v]) ++ rest := by intro v; simp
        have a2 : xpre ++ u :: xrest = (xpre ++ [u]) ++ xrest := by simp
        have hl1 : ∀ v : Int, (pre ++ [v]).length = pre.length + 1 := by intro v; simp
        by_cases hv : t + (u + carry) ≥ 1000
        · rw [if_pos hv, a1, a2, ← hl1 (t + (u + carry) - 1000)]
          obtain ⟨r, c, h1, h2, h3, h4, h5⟩ :=
            ih (pre ++ [t + (u + carry) - 1000]) rest (xpre ++ [u]) xrest 1
              (by simp [hlen]) (by simpa using hk) (by simpa using hxk) (Or.inr rfl) hr2 hxr2
          refine ⟨(t + (u + carry) - 1000) :: r, c, ?_, by simp [h2], h3, ?_, ?_⟩
          · rw [h1]; simp
          · intro d hd
            rcases List.mem_cons.mp hd with hd | hd
            · rw [hd]; rcases hc with hc | hc <;> omega
            · exact h4 d hd
          · simp only [magnitude, List.take_succ_cons, REAL_BASE_eq, pow_succ] at *
            linarith
        · rw [if_neg hv, a1, a2, ← hl1 (t + (u + carry))]
          obtain ⟨r, c, h1, h2, h3, h4, h5⟩ :=
            ih (pre ++ [t + (u + carry)]) rest (xpre ++ [u]) xrest 0
              (by simp [hlen]) (by simpa using hk) (by simpa using hxk) (Or.inl rfl) hr2 hxr2
          refine ⟨(t + (u + carry)) :: r, c, ?_, by simp [h2], h3, ?_, ?_⟩
          · rw [h1]; simp
          · intro d hd
            rcases List.mem_cons.mp hd with hd | hd
            · rw [hd]; rcases hc with hc | hc <;> omega
            · exact h4 d hd
          · simp only [magnitude, List.take_succ_cons, REAL_BASE_eq, pow_succ] at *
            linarith

theorem carryRipple_spec :
    ∀ (rest pre : List Int) (k : Nat), rest.length ≤ k →
      ∃ j, j ≤ rest.length ∧
        carryRipple k pre.length (pre ++ rest)
          = (pre.length + j, pre ++ List.replicate j 0 ++ rest.drop j) ∧
        rest.take j = List.replicate j 999 ∧
        (∀ t, rest[j]? = some t → t ≠ 999) := by
  intro rest
  induction rest with
  | nil =>
    intro pre k _
    refine ⟨0, le_refl _, ?_, rfl, by simp⟩
    cases k with
    | zero => simp [carryRipple]
    | succ k => simp [carryRipple]
  | cons t tl ih =>
    intro pre k hk
    cases k with
    | zero => simp at hk
    | succ k =>
      have e1 : (pre ++ t :: tl)[pre.length]? = some t := getElem?_append_length _ _ _
      simp only [carryRipple, e1, set_append_length, REAL_BASE_eq]
      by_cases ht : t + 1 = 1000
      · rw [if_pos ht]
        have a1 : pre ++ (0 : Int) :: tl = (pre ++ [0]) ++ tl := by simp
        have hl1 : pre.length + 1 = (pre ++ [(0 : Int)]).length := by simp
        rw [a1, hl1]
        obtain ⟨j, h1, h2, h3, h4⟩ := ih (pre ++ [0]) k (by simpa using hk)
        refine ⟨j + 1, by simpa using h1, ?_, ?_, ?_⟩
        · rw [h2]; simp [List.replicate_succ]; omega
        · have : t = 999 := by omega
          simp [List.take_succ_cons, h3, List.replicate_succ, this]
        · intro u hu
          exact h4 u (by simpa using hu)
      · rw [if_neg ht]
        refine ⟨0, Nat.zero_le _, by simp, rfl, ?_⟩
        intro u hu
        simp only [List.getElem?_cons_zero, Option.some.injEq] at hu
        rw [← hu]; omega

/-- The carry block of `operator+=` adds one at position `pre.length` and stays in range. -/
theorem carryOut_spec (pre rest : List Int) (hr : ∀ d ∈ rest, 0 ≤ d ∧ d < REAL_BASE) :
    ∃ rest', carryOut pre.length (pre ++ rest) = some (pre ++ rest') ∧
      magnitude rest' = magnitude rest + 1 ∧
      (∀ d ∈ rest', 0 ≤ d ∧ d < REAL_BASE) ∧ rest' ≠ [] ∧
      (rest.getLast? ≠ some 0 → rest'.getLast? ≠ some 0) := by
  obtain ⟨j, h1, h2, h3, h4⟩ :=
    carryRipple_spec rest pre ((pre ++ rest).length + 1) (by simp; omega)
  have hm := magnitude_take_drop rest j h1
  rw [h3, magnitude_replicate_999] at hm
  unfold carryOut
  simp only [h2]
  rcases Nat.lt_or_ge j rest.length with hj | hj
  · obtain ⟨t, tl, hd⟩ : ∃ t tl, rest.drop j = t :: tl := by
      cases hdd : rest.drop j with
      | nil =>
        have := congrArg List.length hdd
        simp at this; omega
      | cons t tl => exact ⟨t, tl, rfl⟩
    have htj : rest[j]? = some t := by
      have := List.getElem?_drop rest j 0
      rw [hd] at this
      simpa using this.symm
    have ht9 := h4 t htj
    have htr : 0 ≤ t ∧ t < REAL_BASE := by
      apply hr t
      have : t ∈ rest.drop j := by rw [hd]; exact List.mem_cons_self _ _
      exact List.mem_of_mem_drop this
    rw [REAL_BASE_eq] at htr
    have hlen : ¬ (pre.length + j = (pre ++ List.replicate j 0 ++ List.drop j rest).length) := by
      simp only [List.length_append, List.length_replicate, List.length_drop]; omega
    rw [if_neg hlen, hd]
    have a1 : pre ++ List.replicate j 0 ++ t :: tl = (pre ++ List.replicate j 0) ++ t :: tl := by
      simp
    have hl1 : pre.length + j = (pre ++ List.replicate j (0 : Int)).length := by simp
    rw [hl1, getElem?_append_length]
    simp only []
    rw [set_append_length]
    refine ⟨List.replicate j 0 ++ (t + 1) :: tl, by simp, ?_, ?_, by simp, ?_⟩
    · rw [hd] at hm
      rw [magnitude_append, magnitude_replicate_zero, List.length_replicate]
      simp only [magnitude, REAL_BASE_eq] at *
      linarith
    · intro d hd2
      rcases List.mem_append.mp hd2 with hd2 | hd2
      · rw [(List.mem_replicate.mp hd2).2, REAL_BASE_eq]; omega
      · rcases List.mem_cons.mp hd2 with hd2 | hd2
        · rw [hd2, REAL_BASE_eq]; omega
        · apply hr d
          have : d ∈ rest.drop j := by rw [hd]; exact List.mem_cons_of_mem _ hd2
          exact List.mem_of_mem_drop this
    · intro hl
      have hrest : rest = rest.take j ++ t :: tl := by
        rw [← hd, List.take_append_drop]
      rw [hrest] at hl
      cases tl with
      | nil =>
        rw [List.getLast?_append_of_ne_nil _ (by simp)]
        simp; omega
      | cons u us =>
        rw [List.getLast?_append_of_ne_nil _ (by simp)] at hl ⊢
        simpa [List.getLast?_cons_cons] using hl
  · have hj2 : j = rest.length := by omega
    subst hj2
    simp only [List.drop_length, List.append_nil, List.length_append, List.length_replicate,
      if_true]
    have hl1 : pre.length + rest.length = (pre ++ List.replicate rest.length (0 : Int)).length := by
      simp
    rw [hl1, getElem?_append_length]
    simp only []
    rw [set_append_length]
    refine ⟨List.replicate rest.length 0 ++ [0 + 1], by simp, ?_, ?_, by simp, ?_⟩
    · simp only [List.drop_length, magnitude, Int.mul_zero, Int.add_zero] at hm
      rw [magnitude_append, magnitude_replicate_zero, List.length_replicate]
      simp only [magnitude, REAL_BASE_eq]
      linarith
    · intro d hd2
      rcases List.mem_append.mp hd2 with hd2 | hd2
      · rw [(List.mem_replicate.mp hd2).2, REAL_BASE_eq]; omega
      · simp only [List.mem_singleton] at hd2
        rw [hd2, REAL_BASE_eq]; omega
    · intro _
      rw [List.getLast?_concat]; simp

/-- The same-sign branch of `operator+=` on canonical operands: it stays inside the vector
and returns the canonical value whose magnitude is the sum of the magnitudes. -/
theorem addSameSign_spec (a x : BigInteger) (ha : canonical a) (hx : canonical x) :
    ∃ c, addSameSign a x = some c ∧ canonical c ∧ c.is_negative = a.is_negative ∧
      magnitude c.digits = magnitude a.digits + magnitude x.digits := by
  have hal : 0 < a.digits.length := List.length_pos.mpr ha.1
  have hxl : 0 < x.digits.length := List.length_pos.mpr hx.1
  have hma := magnitude_nonneg a.digits ha.2.1
  have hmx := magnitude_nonneg x.digits hx.2.1
  unfold addSameSign
  generalize hd0 : (if x.digits.length > a.digits.length then resize a.digits x.digits.length
    else a.digits) = d0
  have hd0len : d0.length = max a.digits.length x.digits.length := by
    rw [← hd0]; split
    · rw [resize_length]; omega
    · omega
  have hd0m : magnitude d0 = magnitude a.digits := by
    rw [← hd0]; split
    · exact magnitude_resize _ _ (by omega)
    · rfl
  have hd0r : ∀ t ∈ d0, 0 ≤ t ∧ t < REAL_BASE := by
    rw [← hd0]; split
    · exact resize_range _ _ ha.2.1
    · exact ha.2.1
  have hdrop : (d0.drop x.digits.length).getLast? ≠ some 0 := by
    rw [← hd0]; split
    · rw [List.drop_of_length_le (by rw [resize_length])]; simp
    · rename_i hle
      by_cases hlt : x.digits.length < a.digits.length
      · rw [List.getLast?_drop, if_neg (by omega)]
        exact canonical_last_of_length a ha (by omega)
      · rw [List.drop_of_length_le (by omega)]; simp
  obtain ⟨r, c, h1, h2, h3, h4, h5⟩ :=
    addLoop_spec x.digits.length [] d0 [] x.digits 0 rfl (by omega) (le_refl _) (Or.inl rfl)
      hd0r hx.2.1
  simp only [List.nil_append, List.length_nil, List.take_length, Int.add_zero] at h1 h5
  have hsplit := magnitude_take_drop d0 x.digits.length (by omega)
  have hdropr : ∀ t ∈ d0.drop x.digits.length, 0 ≤ t ∧ t < REAL_BASE :=
    fun t ht => hd0r t (List.mem_of_mem_drop ht)
  have hpow : 2 ≤ max a.digits.length x.digits.length →
      (1000 : Int) ^ (max a.digits.length x.digits.length - 1)
        ≤ magnitude a.digits + magnitude x.digits := by
    intro h2
    rcases Nat.le_total a.digits.length x.digits.length with hle | hle
    · rw [max_eq_right hle] at h2 ⊢
      have := canonical_pow_le x hx h2
      omega
    · rw [max_eq_left hle] at h2 ⊢
      have := canonical_pow_le a ha h2
      omega
  simp only [h1]
  rcases h3 with hc | hc
  · subst hc
    simp only [ne_eq, not_true_eq_false, if_false]
    have hm : magnitude (r ++ d0.drop x.digits.length)
        = magnitude a.digits + magnitude x.digits := by
      rw [magnitude_append, h2]; linarith
    have hlen : (r ++ d0.drop x.digits.length).length
        = max a.digits.length x.digits.length := by
      rw [List.length_append, h2, List.length_drop, hd0len]; omega
    refine ⟨_, rfl, ?_, rfl, hm⟩
    apply canonical_of_magnitude
    · have hpos : 0 < (r ++ d0.drop x.digits.length).length := by rw [hlen]; omega
      exact List.length_pos.mp hpos
    · exact mem_range_append _ _ h4 hdropr
    · rw [hlen, hm]; exact hpow
    · intro h0
      rw [hm] at h0
      cases hn : a.is_negative with
      | false => rfl
      | true =>
        have := canonical_neg_pos a ha hn
        omega
  · subst hc
    simp only [ne_eq, one_ne_zero, not_false_eq_true, if_true]
    obtain ⟨rest', g1, g2, g3, g4, g5⟩ := carryOut_spec r (d0.drop x.digits.length) hdropr
    rw [h2] at g1
    rw [g1]
    have hlast : (r ++ rest').getLast? ≠ some 0 := by
      rw [List.getLast?_append_of_ne_nil _ g4]
      exact g5 hdrop
    refine ⟨_, rfl, ⟨by simp [g4], mem_range_append _ _ h4 g3, Or.inl hlast, ?_⟩, rfl, ?_⟩
    · intro h0
      simp only at h0
      rw [h0] at hlast
      simp at hlast
    · simp only
      rw [magnitude_append, g2, h2]; linarith

/-! ## The opposite-sign branch of `operator+=` -/

/-- The subtraction loop of `operator+=` on the limbs from index `pre.length` on: it stays
in range and subtracts limb by limb in the direction given by `sign`. -/
theorem subLoop_spec (sign : Int) (hsign : sign = 1 ∨ sign = -1) :
    ∀ (k : Nat) (pre rest xpre xrest : List Int) (carry : Int),
      pre.length = xpre.length → k ≤ rest.length → k ≤ xrest.length →
      (carry = 0 ∨ carry = 1) →
      (∀ d ∈ rest, 0 ≤ d ∧ d < REAL_BASE) → (∀ d ∈ xrest, 0 ≤ d ∧ d < REAL_BASE) →
      ∃ (r : List Int) (c : Int),
        subLoop (xpre ++ xrest) sign k pre.length (pre ++ rest) carry
          = some (pre ++ r ++ rest.drop k, c) ∧
        r.length = k ∧ (c = 0 ∨ c = 1) ∧ (∀ d ∈ r, 0 ≤ d ∧ d < REAL_BASE) ∧
        magnitude r - c * 1000 ^ k
          = sign * (magnitude (rest.take k) - magnitude (xrest.take k)) - carry := by
  intro k
  induction k with
  | zero =>
    intro pre rest xpre xrest carry _ _ _ hc _ _
    exact ⟨[], carry, by simp [subLoop], rfl, hc, by simp, by simp [magnitude]⟩
  | succ k ih =>
    intro pre rest xpre xrest carry hlen hk hxk hc hr hxr
    cases rest with
    | nil => simp at hk
    | cons t rest =>
      cases xrest with
      | nil => simp at hxk
      | cons u xrest =>
        have ht := hr t (List.mem_cons_self _ _)
        have hu := hxr u (List.mem_cons_self _ _)
        rw [REAL_BASE_eq] at ht hu
        have hr2 : ∀ d ∈ rest, 0 ≤ d ∧ d < REAL_BASE :=
          fun d hd => hr d (List.mem_cons_of_mem _ hd)
        have hxr2 : ∀ d ∈ xrest, 0 ≤ d ∧ d < REAL_BASE :=
          fun d hd => hxr d (List.mem_cons_of_mem _ hd)
        have e1 : (pre ++ t :: rest)[pre.length]? = some t := getElem?_append_length _ _ _
        have e2 : (xpre ++ u :: xrest)[pre.length]? = some u := by
          rw [hlen]; exact getElem?_append_length _ _ _
        simp only [subLoop, e1, e2, set_append_length, REAL_BASE_eq]
        have a1 : ∀ v : Int, pre ++ v :: rest = (pre ++ [v]) ++ rest := by intro v; simp
        have a2 : xpre ++ u :: xrest = (xpre ++ [u]) ++ xrest := by simp
        have hl1 : ∀ v : Int, (pre ++ [v]).length = pre.length + 1 := by intro v; simp
        have hvr : -1000 ≤ sign * (t - u) - carry ∧ sign * (t - u) - carry < 1000 := by
          rcases hsign with h | h <;> rcases hc with hc | hc <;> subst h <;> subst hc <;>
            constructor <;> omega
        generalize hv : sign * (t - u) - carry = v at *
        by_cases hneg : v < 0
        · rw [if_pos hneg, a1, a2, ← hl1 (v + 1000)]
          obtain ⟨r, c, h1, h2, h3, h4, h5⟩ :=
            ih (pre ++ [v + 1000]) rest (xpre ++ [u]) xrest 1
              (by simp [hlen]) (by simpa using hk) (by simpa using hxk) (Or.inr rfl) hr2 hxr2
          refine ⟨(v + 1000) :: r, c, ?_, by simp [h2], h3, ?_, ?_⟩
          · rw [h1]; simp
          · intro d hd
            rcases List.mem_cons.mp hd with hd | hd
            · rw [hd]; omega
            · exact h4 d hd
          · simp only [magnitude, List.take_succ_cons, REAL_BASE_eq, pow_succ] at *
            rw [← hv]
            rcases hsign with h | h <;> subst h <;> linarith
        · rw [if_neg hneg, a1, a2, ← hl1 v]
          obtain ⟨r, c, h1, h2, h3, h4, h5⟩ :=
            ih (pre ++ [v]) rest (xpre ++ [u]) xrest 0
              (by simp [hlen]) (by simpa using hk) (by simpa using hxk) (Or.inl rfl) hr2 hxr2
          refine ⟨v :: r, c, ?_, by simp [h2], h3, ?_, ?_⟩
          · rw [h1]; simp
          · intro d hd
            rcases List.mem_cons.mp hd with hd | hd
            · rw [hd]; omega
            · exact h4 d hd
          · simp only [magnitude, List.take_succ_cons, REAL_BASE_eq, pow_succ] at *
            rw [← hv]
            rcases hsign with h | h <;> subst h <;> linarith

theorem subLoop_short (xd : List Int) (sign : Int) :
    ∀ (k i : Nat) (d : List Int) (carry : Int), i ≤ d.length → d.length < i + k →
      subLoop xd sign k i d carry = none := by
  intro k
  induction k with
  | zero => intro i d carry h1 h2; omega
  | succ k ih =>
    intro i d carry h1 h2
    simp only [subLoop]
    cases hd : d[i]? with
    | none => rfl
    | some di =>
      have hi : i < d.length := by
        rcases List.getElem?_eq_some_iff.mp hd with ⟨h, -⟩
        exact h
      cases hx : xd[i]? with
      | none => rfl
      | some xi =>
        simp only []
        split
        · exact ih _ _ _ (by simp; omega) (by simp; omega)
        · exact ih _ _ _ (by simp; omega) (by simp; omega)

/-- A full-length run of the subtraction loop in the direction of the larger magnitude ends
without borrow. -/
theorem subLoop_full (xd d0 : List Int) (sign : Int) (hsign : sign = 1 ∨ sign = -1)
    (hlen : d0.length = xd.length)
    (hr : ∀ d ∈ d0, 0 ≤ d ∧ d < REAL_BASE) (hxr : ∀ d ∈ xd, 0 ≤ d ∧ d < REAL_BASE)
    (hpos : 0 ≤ sign * (magnitude d0 - magnitude xd)) :
    ∃ r, subLoop xd sign xd.length 0 d0 0 = some (r, 0) ∧ r.length = xd.length ∧
      (∀ d ∈ r, 0 ≤ d ∧ d < REAL_BASE) ∧
      magnitude r = sign * (magnitude d0 - magnitude xd) := by
  obtain ⟨r, c, h1, h2, h3, h4, h5⟩ :=
    subLoop_spec sign hsign xd.length [] d0 [] xd 0 rfl (by omega) (le_refl _) (Or.inl rfl) hr hxr
  have hd : d0.drop xd.length = [] := List.drop_of_length_le (by omega)
  have ht : d0.take xd.length = d0 := List.take_of_length_le (by omega)
  simp only [List.nil_append, List.length_nil, List.take_length, hd, ht, List.append_nil,
    Int.sub_zero] at h1 h5
  have hb := magnitude_lt_pow r h4
  have hb0 := magnitude_nonneg r h4
  rw [h2] at hb
  have hc : c = 0 := by
    rcases h3 with h | h
    · exact h
    · subst h; linarith
  subst hc
  refine ⟨r, h1, h2, h4, ?_⟩
  linarith

theorem borrowRipple_spec :
    ∀ (rest pre : List Int) (k : Nat), rest.length ≤ k → (∃ t ∈ rest, t ≠ 0) →
      ∃ (j : Nat) (t : Int) (tl : List Int), rest.drop j = t :: tl ∧ t ≠ 0 ∧
        rest.take j = List.replicate j 0 ∧
        borrowRipple k pre.length (pre ++ rest)
          = some (pre.length + j, pre ++ List.replicate j 999 ++ t :: tl) := by
  intro rest
  induction rest with
  | nil =>
    intro pre k _ hnz
    obtain ⟨t, ht, -⟩ := hnz
    simp at ht
  | cons t tl ih =>
    intro pre k hk hnz
    cases k with
    | zero => simp at hk
    | succ k =>
      have e1 : (pre ++ t :: tl)[pre.length]? = some t := getElem?_append_length _ _ _
      simp only [borrowRipple, e1, set_append_length, REAL_BASE_eq]
      by_cases ht : t = 0
      · rw [if_pos ht]
        have hnz2 : ∃ u ∈ tl, u ≠ 0 := by
          obtain ⟨u, hu, hu0⟩ := hnz
          rcases List.mem_cons.mp hu with h | h
          · rw [h] at hu0; exact absurd ht hu0
          · exact ⟨u, h, hu0⟩
        have a1 : pre ++ ((1000 : Int) - 1) :: tl = (pre ++ [1000 - 1]) ++ tl := by simp
        have hl1 : pre.length + 1 = (pre ++ [((1000 : Int) - 1)]).length := by simp
        rw [a1, hl1]
        obtain ⟨j, u, ul, h1, h2, h3, h4⟩ := ih (pre ++ [1000 - 1]) k (by simpa using hk) hnz2
        refine ⟨j + 1, u, ul, by simpa using h1, h2, ?_, ?_⟩
        · simp [List.take_succ_cons, h3, List.replicate_succ, ht]
        · rw [h4]; simp [List.replicate_succ]; omega
      · rw [if_neg ht]
        exact ⟨0, t, tl, rfl, ht, rfl, by simp⟩

/-- The borrow block of `operator+=` subtracts one at position `pre.length`; it stays in
range when a non-zero limb follows. -/
theorem borrowOut_spec (pre rest : List Int) (hr : ∀ d ∈ rest, 0 ≤ d ∧ d < REAL_BASE)
    (hnz : ∃ t ∈ rest, t ≠ 0) :
    ∃ rest', borrowOut pre.length (pre ++ rest) = some (pre ++ rest') ∧
      magnitude rest' = magnitude rest - 1 ∧
      (∀ d ∈ rest', 0 ≤ d ∧ d < REAL_BASE) ∧ rest'.length = rest.length := by
  obtain ⟨j, t, tl, h1, h2, h3, h4⟩ :=
    borrowRipple_spec rest pre ((pre ++ rest).length + 1) (by simp; omega) hnz
  have hj : j ≤ rest.length := by
    by_contra hcon
    rw [List.drop_of_length_le (by omega)] at h1
    cases h1
  have hm := magnitude_take_drop rest j hj
  rw [h3, magnitude_replicate_zero, h1] at hm
  have htr : 0 ≤ t ∧ t < REAL_BASE := by
    apply hr t
    have : t ∈ rest.drop j := by rw [h1]; exact List.mem_cons_self _ _
    exact List.mem_of_mem_drop this
  rw [REAL_BASE_eq] at htr
  unfold borrowOut
  simp only [h4]
  have hl1 : pre.length + j = (pre ++ List.replicate j (999 : Int)).length := by simp
  rw [hl1, getElem?_append_length]
  simp only []
  rw [set_append_length]
  refine ⟨List.replicate j 999 ++ (t - 1) :: tl, by simp, ?_, ?_, ?_⟩
  · rw [magnitude_append, magnitude_replicate_999, List.length_replicate]
    simp only [magnitude, REAL_BASE_eq] at *
    linarith
  · intro d hd2
    rcases List.mem_append.mp hd2 with hd2 | hd2
    · rw [(List.mem_replicate.mp hd2).2, REAL_BASE_eq]; omega
    · rcases List.mem_cons.mp hd2 with hd2 | hd2
      · rw [hd2, REAL_BASE_eq]; omega
      · apply hr d
        have : d ∈ rest.drop j := by rw [h1]; exact List.mem_cons_of_mem _ hd2
        exact List.mem_of_mem_drop this
  · have := congrArg List.length h1
    simp only [List.length_drop, List.length_cons] at this
    simp only [List.length_append, List.length_replicate, List.length_cons]
    omega

theorem popEqual_length (xd : List Int) :
    ∀ (i : Nat) (d : List Int) (r : Nat × List Int), d.length = i + 1 →
      popEqual xd i d = some r → r.2.length = r.1 + 1 ∧ r.1 ≤ i := by
  intro i
  induction i with
  | zero =>
    intro d r hd h
    simp only [popEqual, Option.some.injEq] at h
    subst h
    exact ⟨hd, le_refl _⟩
  | succ i ih =>
    intro d r hd h
    simp only [popEqual] at h
    split at h
    · split at h
      · have := ih d.dropLast r (by simp [hd]) h
        exact ⟨this.1, by omega⟩
      · simp only [Option.some.injEq] at h
        subst h
        exact ⟨hd, le_refl _⟩
    · cases h

/-- The magnitude comparison of `operator+=` pops nothing when the most significant limbs
differ or there is a single limb; it then fixes the sign flag from those limbs. -/
theorem alignSign_keep (a x : BigInteger) (dt xt : Int)
    (hge : a.digits.length ≤ x.digits.length)
    (hdt : (resize a.digits x.digits.length).getLast? = some dt)
    (hxt : x.digits.getLast? = some xt)
    (hne : x.digits.length = 1 ∨ dt ≠ xt) :
    alignSign a x
      = some (resize a.digits x.digits.length, xor a.is_negative (decide (dt < xt))) := by
  have hxl : x.digits.length ≠ 0 := by
    intro h0
    rw [List.length_eq_zero] at h0
    rw [h0] at hxt; simp at hxt
  rw [List.getLast?_eq_getElem?, resize_length] at hdt
  rw [List.getLast?_eq_getElem?] at hxt
  unfold alignSign
  rw [if_pos hge, if_neg hxl]
  cases hn : x.digits.length - 1 with
  | zero =>
    rw [hn] at hdt hxt
    simp only [popEqual, hdt, hxt]
  | succ i =>
    rw [hn] at hdt hxt
    have hdx : dt ≠ xt := by
      rcases hne with h | h
      · omega
      · exact h
    simp only [popEqual, hdt, hxt, hdx, if_false]

/-- The opposite-sign branch of `operator+=` leaves the vector whenever both operands have
the same limb count, at least two, and the same most significant limb. -/
theorem operator_add_assign_out_of_range (a x : BigInteger)
    (hs : x.is_negative ≠ a.is_negative) (hlen : a.digits.length = x.digits.length)
    (h2 : 2 ≤ a.digits.length) (htop : a.digits.getLast? = x.digits.getLast?) :
    operator_add_assign a x = none := by
  unfold operator_add_assign
  rw [if_neg hs]
  unfold addOppositeSign
  cases hal : alignSign a x with
  | none => rfl
  | some p =>
    obtain ⟨d0, neg⟩ := p
    have hshort : d0.length < x.digits.length := by
      unfold alignSign at hal
      rw [if_pos (by omega), if_neg (by omega)] at hal
      have hres : resize a.digits x.digits.length = a.digits := by
        simp [resize, hlen]
      rw [hres] at hal
      obtain ⟨n, hn⟩ : ∃ n, x.digits.length = n + 2 := ⟨x.digits.length - 2, by omega⟩
      have e1 : a.digits[n + 1]? = a.digits.getLast? := by
        rw [List.getLast?_eq_getElem?]; congr 1; omega
      have e2 : x.digits[n + 1]? = x.digits.getLast? := by
        rw [List.getLast?_eq_getElem?]; congr 1; omega
      have hx : ∃ t, x.digits.getLast? = some t := by
        cases hg : x.digits.getLast? with
        | none =>
          rw [List.getLast?_eq_none_iff] at hg
          rw [hg] at hn; simp at hn
        | some t => exact ⟨t, rfl⟩
      obtain ⟨t, ht⟩ := hx
      rw [hn] at hal
      simp only [Nat.add_sub_cancel, show n + 2 - 1 = n + 1 by omega, popEqual, e1, e2, htop, ht,
        if_true] at hal
      cases hp : popEqual x.digits n a.digits.dropLast with
      | none => rw [hp] at hal; cases hal
      | some r =>
        have hl := popEqual_length x.digits n a.digits.dropLast r (by simp; omega) hp
        rw [hp] at hal
        simp only at hal
        split at hal
        · simp only [Option.some.injEq, Prod.mk.injEq] at hal
          rw [← hal.1]; omega
        · cases hal
    simp only []
    rw [subLoop_short _ _ _ _ _ _ (Nat.zero_le _) (by omega)]

/-- The opposite-sign branch of `operator+=` on canonical operands, away from the case in
which equal most significant limbs are popped: it stays inside the vector and returns the
canonical value that denotes the sum. -/
theorem addOppositeSign_spec (a x : BigInteger) (ha : canonical a) (hx : canonical x)
    (hs : x.is_negative ≠ a.is_negative)
    (hdef : ¬ (a.digits.length = x.digits.length ∧ 2 ≤ a.digits.length ∧
      a.digits.getLast? = x.digits.getLast?)) :
    ∃ c, addOppositeSign a x = some c ∧ canonical c ∧ toInt c = toInt a + toInt x := by
  have hal : 0 < a.digits.length := List.length_pos.mpr ha.1
  have hxl : 0 < x.digits.length := List.length_pos.mpr hx.1
  have hxa : x.is_negative = !a.is_negative := by
    cases h1 : a.is_negative <;> cases h2 : x.is_negative <;> simp_all
  rcases Nat.lt_or_ge x.digits.length a.digits.length with hlt | hge
  · have halign : alignSign a x = some (a.digits, a.is_negative) := by
      unfold alignSign; rw [if_neg (by omega)]
    have hsg : (if a.is_negative = x.is_negative then (1 : Int) else 0) = 0 :=
      if_neg (Ne.symm hs)
    obtain ⟨r, c, h1, h2, h3, h4, h5⟩ :=
      subLoop_spec 1 (Or.inl rfl) x.digits.length [] a.digits [] x.digits 0 rfl (by omega)
        (le_refl _) (Or.inl rfl) ha.2.1 hx.2.1
    simp only [List.nil_append, List.length_nil, List.take_length, Int.sub_zero,
      Int.one_mul] at h1 h5
    have hsplit := magnitude_take_drop a.digits x.digits.length (by omega)
    have hdropr : ∀ t ∈ a.digits.drop x.digits.length, 0 ≤ t ∧ t < REAL_BASE :=
      fun t ht => ha.2.1 t (List.mem_of_mem_drop ht)
    unfold addOppositeSign
    simp only [halign, hsg, Int.mul_zero, Int.sub_zero, h1]
    rcases h3 with hc | hc
    · subst hc
      simp only [ne_eq, not_true_eq_false, if_false]
      have hne : r ++ a.digits.drop x.digits.length ≠ [] := by
        intro h0
        have := congrArg List.length h0
        simp only [List.length_append, List.length_drop, List.length_nil] at this
        omega
      obtain ⟨g1, g2⟩ := deleteZeroes_spec _ a.is_negative hne (mem_range_append _ _ h4 hdropr)
      refine ⟨_, rfl, g1, ?_⟩
      rw [g2]
      have hm : magnitude (r ++ a.digits.drop x.digits.length)
          = magnitude a.digits - magnitude x.digits := by
        rw [magnitude_append, h2]; linarith
      simp only [toInt, hm, hxa]
      cases a.is_negative <;> simp <;> ring
    · subst hc
      simp only [ne_eq, one_ne_zero, not_false_eq_true, if_true]
      have hnz : ∃ t ∈ a.digits.drop x.digits.length, t ≠ 0 := by
        obtain ⟨t, ht⟩ := getLast?_some_of_ne_nil a.digits ha.1
        have hl := canonical_last_of_length a ha (by omega)
        have hd : (a.digits.drop x.digits.length).getLast? = some t := by
          rw [List.getLast?_drop, if_neg (by omega), ht]
        refine ⟨t, List.mem_of_getLast?_eq_some hd, ?_⟩
        intro h0; apply hl; rw [ht, h0]
      obtain ⟨rest', b1, b2, b3, b4⟩ := borrowOut_spec r _ hdropr hnz
      rw [h2] at b1
      simp only [b1]
      have hne : r ++ rest' ≠ [] := by
        intro h0
        have := congrArg List.length h0
        simp only [List.length_append, b4, List.length_drop, List.length_nil] at this
        omega
      obtain ⟨g1, g2⟩ := deleteZeroes_spec _ a.is_negative hne (mem_range_append _ _ h4 b3)
      refine ⟨_, rfl, g1, ?_⟩
      rw [g2]
      have hm : magnitude (r ++ rest') = magnitude a.digits - magnitude x.digits := by
        rw [magnitude_append, h2, b2]; linarith
      simp only [toInt, hm, hxa]
      cases a.is_negative <;> simp <;> ring
  · have hrne : resize a.digits x.digits.length ≠ [] := by
      intro h0
      have := congrArg List.length h0
      rw [resize_length] at this; simp only [List.length_nil] at this; omega
    obtain ⟨dt, hdt⟩ := getLast?_some_of_ne_nil _ hrne
    obtain ⟨xt, hxt⟩ := getLast?_some_of_ne_nil _ hx.1
    have hrr := resize_range a.digits x.digits.length ha.2.1
    have hrm := magnitude_resize a.digits x.digits.length hge
    have hrl := resize_length a.digits x.digits.length
    have hne : x.digits.length = 1 ∨ dt ≠ xt := by
      rcases Nat.lt_or_ge a.digits.length x.digits.length with h1 | h1
      · right
        rw [resize_last _ _ h1] at hdt
        simp only [Option.some.injEq] at hdt
        have := canonical_last_of_length x hx (by omega)
        rw [hxt] at this
        intro h0; apply this; rw [← h0, ← hdt]
      · have heq : a.digits.length = x.digits.length := by omega
        rw [← heq, resize_same] at hdt
        by_cases h2 : 2 ≤ a.digits.length
        · right
          intro h0
          apply hdef
          exact ⟨heq, h2, by rw [hdt, hxt, h0]⟩
        · left; omega
    have halign := alignSign_keep a x dt xt hge hdt hxt hne
    unfold addOppositeSign
    simp only [halign]
    by_cases hlt : dt < xt
    · have hmag : magnitude (resize a.digits x.digits.length) < magnitude x.digits :=
        magnitude_lt_of_top_lt _ _ dt xt hrr hx.2.1 hrl hdt hxt hlt
      have hsg : (if xor a.is_negative (decide (dt < xt)) = x.is_negative then (1 : Int) else 0)
          = 1 := by
        rw [if_pos]; rw [hxa]; simp [hlt]
      obtain ⟨r, h1, h2, h4, h5⟩ := subLoop_full x.digits (resize a.digits x.digits.length) (-1)
        (Or.inr rfl) hrl hrr hx.2.1 (by linarith)
      simp only [hsg, show (1 : Int) - 2 * 1 = -1 by norm_num, h1, ne_eq, not_true_eq_false,
        if_false]
      have hne2 : r ≠ [] := by
        intro h0; rw [h0] at h2; simp only [List.length_nil] at h2; omega
      obtain ⟨g1, g2⟩ := deleteZeroes_spec r (xor a.is_negative (decide (dt < xt))) hne2 h4
      refine ⟨_, rfl, g1, ?_⟩
      rw [g2]
      simp only [toInt, h5, hrm, hxa, hlt, decide_True]
      cases a.is_negative <;> simp <;> ring
    · have hmag : magnitude x.digits ≤ magnitude (resize a.digits x.digits.length) := by
        rcases hne with h1 | h1
        · rw [magnitude_of_length_one _ xt h1 hxt,
            magnitude_of_length_one _ dt (by rw [hrl, h1]) hdt]
          omega
        · have : xt < dt := by omega
          exact le_of_lt (magnitude_lt_of_top_lt _ _ xt dt hx.2.1 hrr hrl.symm hxt hdt this)
      have hsg : (if xor a.is_negative (decide (dt < xt)) = x.is_negative then (1 : Int) else 0)
          = 0 := by
        rw [if_neg]; rw [hxa]; simp [hlt]
      obtain ⟨r, h1, h2, h4, h5⟩ := subLoop_full x.digits (resize a.digits x.digits.length) 1
        (Or.inl rfl) hrl hrr hx.2.1 (by linarith)
      simp only [hsg, Int.mul_zero, Int.sub_zero, h1, ne_eq, not_true_eq_false, if_false]
      have hne2 : r ≠ [] := by
        intro h0; rw [h0] at h2; simp only [List.length_nil] at h2; omega
      obtain ⟨g1, g2⟩ := deleteZeroes_spec r (xor a.is_negative (decide (dt < xt))) hne2 h4
      refine ⟨_, rfl, g1, ?_⟩
      rw [g2]
      simp only [toInt, h5, hrm, hxa, hlt, decide_False]
      cases a.is_negative <;> simp <;> ring

/-! ## The assignments `operator+=` and `operator-=` -/

/-- The assignment `operator+=` on canonical operands, away from the out-of-range case of
`operator_add_assign_out_of_range`: it returns the canonical value denoting the sum. -/
theorem operator_add_assign_exact (a x : BigInteger) (ha : canonical a) (hx : canonical x)
    (hdef : ¬ (x.is_negative ≠ a.is_negative ∧ a.digits.length = x.digits.length ∧
      2 ≤ a.digits.length ∧ a.digits.getLast? = x.digits.getLast?)) :
    ∃ c, operator_add_assign a x = some c ∧ canonical c ∧ toInt c = toInt a + toInt x := by
  unfold operator_add_assign
  by_cases hs : x.is_negative = a.is_negative
  · rw [if_pos hs]
    obtain ⟨c, h1, h2, h3, h4⟩ := addSameSign_spec a x ha hx
    refine ⟨c, h1, h2, ?_⟩
    simp only [toInt, h3, h4, hs]
    cases a.is_negative <;> simp
    ring
  · rw [if_neg hs]
    exact addOppositeSign_spec a x ha hx hs (fun h => hdef ⟨hs, h⟩)

/-- The assignment `operator-=` on canonical operands, away from the out-of-range case of
the inner `operator+=`: it returns the canonical value denoting the difference. -/
theorem operator_sub_assign_exact (a x : BigInteger) (ha : canonical a) (hx : canonical x)
    (hdef : ¬ (x.is_negative = a.is_negative ∧ a.digits.length = x.digits.length ∧
      2 ≤ a.digits.length ∧ a.digits.getLast? = x.digits.getLast?)) :
    ∃ c, operator_sub_assign a x = some c ∧ canonical c ∧ toInt c = toInt a - toInt x := by
  have hca := changeSign_canonical a ha
  obtain ⟨c, h1, h2, h3⟩ := operator_add_assign_exact (changeSign a) x hca hx (by
    rw [changeSign_digits]
    rintro ⟨g1, g2, g3, g4⟩
    apply hdef
    rw [changeSign_flag a g3] at g1
    refine ⟨?_, g2, g3, g4⟩
    cases h : a.is_negative <;> cases h' : x.is_negative <;> simp_all)
  unfold operator_sub_assign
  rw [h1]
  refine ⟨changeSign c, rfl, changeSign_canonical c h2, ?_⟩
  rw [changeSign_toInt c, h3, changeSign_toInt a]
  ring

/-- Both operand orders of `operator+=` behave alike on canonical values: either both leave
the vector or both return the same value. -/
theorem operator_add_assign_comm (a b : BigInteger) (ha : canonical a) (hb : canonical b) :
    operator_add_assign a b = operator_add_assign b a := by
  by_cases h : b.is_negative ≠ a.is_negative ∧ a.digits.length = b.digits.length ∧
      2 ≤ a.digits.length ∧ a.digits.getLast? = b.digits.getLast?
  · obtain ⟨h1, h2, h3, h4⟩ := h
    rw [operator_add_assign_out_of_range a b h1 h2 h3 h4,
      operator_add_assign_out_of_range b a (Ne.symm h1) h2.symm (by omega) h4.symm]
  · obtain ⟨c, c1, c2, c3⟩ := operator_add_assign_exact a b ha hb h
    obtain ⟨d, d1, d2, d3⟩ := operator_add_assign_exact b a hb ha (by
      rintro ⟨g1, g2, g3, g4⟩
      exact h ⟨Ne.symm g1, g2.symm, by omega, g4.symm⟩)
    rw [c1, d1, toInt_injective c d c2 d2 (by rw [c3, d3]; ring)]

/-- On canonical values `operator-=` behaves as `operator+=` with the negated operand:
either both leave the vector or both return the same value. -/
theorem operator_sub_assign_eq_add_neg (a b : BigInteger) (ha : canonical a)
    (hb : canonical b) :
    operator_sub_assign a b = operator_add_assign a (operator_neg b) := by
  have hnb : canonical (operator_neg b) := changeSign_canonical b hb
  by_cases h : b.is_negative = a.is_negative ∧ a.digits.length = b.digits.length ∧
      2 ≤ a.digits.length ∧ a.digits.getLast? = b.digits.getLast?
  · obtain ⟨h1, h2, h3, h4⟩ := h
    have e1 : operator_add_assign (changeSign a) b = none := by
      apply operator_add_assign_out_of_range
      · rw [changeSign_flag a h3, h1]; cases a.is_negative <;> simp
      · rw [changeSign_digits]; exact h2
      · rw [changeSign_digits]; exact h3
      · rw [changeSign_digits]; exact h4
    have e2 : operator_add_assign a (operator_neg b) = none := by
      unfold operator_neg
      apply operator_add_assign_out_of_range
      · rw [changeSign_flag b (by omega), h1]; cases a.is_negative <;> simp
      · rw [changeSign_digits]; exact h2
      · exact h3
      · rw [changeSign_digits]; exact h4
    unfold operator_sub_assign
    rw [e1, e2]
  · obtain ⟨c, c1, c2, c3⟩ := operator_sub_assign_exact a b ha hb h
    obtain ⟨d, d1, d2, d3⟩ := operator_add_assign_exact a (operator_neg b) ha hnb (by
      unfold operator_neg
      rw [changeSign_digits]
      rintro ⟨g1, g2, g3, g4⟩
      apply h
      rw [changeSign_flag b (by omega)] at g1
      refine ⟨?_, g2, g3, g4⟩
      cases h5 : a.is_negative <;> cases h6 : b.is_negative <;> simp_all)
    rw [c1, d1, toInt_injective c d c2 d2 (by
      rw [c3, d3]; unfold operator_neg; rw [changeSign_toInt]; ring)]

/-! ## The division `div_mod` -/

theorem multiply_copy_zero (md : Int) : multiply_copy zero md = zero := by
  simp only [multiply_copy, multiply, zero, List.map_cons, List.map_nil, Int.zero_mul]
  decide

theorem cmp_zero_le (m : BigInteger) (hm : canonical m) (hn : m.is_negative = false) :
    operator_cmp zero m ≠ Ordering.gt := by
  rw [cmp_toInt zero m canonical_zero hm]
  intro h
  have h1 := compare_gt_iff_gt.mp h
  have h2 := magnitude_nonneg m.digits hm.2.1
  have : toInt zero = 0 := by decide
  rw [this] at h1
  simp only [toInt, hn, Bool.false_eq_true, if_false] at h1
  omega

theorem cmp_ge_zero (m : BigInteger) (hm : canonical m) (hn : m.is_negative = false) :
    operator_cmp m zero ≠ Ordering.lt := by
  rw [cmp_toInt m zero hm canonical_zero]
  intro h
  have h1 := compare_lt_iff_lt.mp h
  have h2 := magnitude_nonneg m.digits hm.2.1
  have : toInt zero = 0 := by decide
  rw [this] at h1
  simp only [toInt, hn, Bool.false_eq_true, if_false] at h1
  omega

/-- The iteration bound of the digit search is never the reason it stops: any two bounds
of at least `right - left` give the same digit. -/
theorem searchDigit_fuel (x mod : BigInteger) :
    ∀ (k k2 : Nat) (left right : Int), 0 ≤ left → (right - left).toNat ≤ k →
      (right - left).toNat ≤ k2 → searchDigit x mod k left right = searchDigit x mod k2 left right := by
  intro k
  induction k with
  | zero =>
    intro k2 left right h0 h1 h2
    have hle : right ≤ left := by omega
    cases k2 with
    | zero => rfl
    | succ k2 =>
      simp only [searchDigit]
      rw [if_neg (by omega)]
  | succ k ih =>
    intro k2 left right h0 h1 h2
    cases k2 with
    | zero =>
      simp only [searchDigit]
      rw [if_neg (by omega)]
    | succ k2 =>
      simp only [searchDigit]
      by_cases h3 : left + 1 < right
      · have e : (left + right).tdiv 2 = (left + right) / 2 :=
          Int.tdiv_eq_ediv (by omega) (by norm_num)
        rw [if_pos h3, if_pos h3, e]
        split
        · exact ih k2 _ _ (by omega) (by omega) (by omega)
        · exact ih k2 _ _ h0 (by omega) (by omega)
      · rw [if_neg h3, if_neg h3]

theorem searchDigit_all (x mod : BigInteger)
    (hall : ∀ md, operator_cmp (multiply_copy x md) mod ≠ Ordering.gt) :
    ∀ (k : Nat) (left right : Int), 0 ≤ left → left < right → (right - left).toNat ≤ k →
      searchDigit x mod k left right = right - 1 := by
  intro k
  induction k with
  | zero => intro left right h0 h1 h2; omega
  | succ k ih =>
    intro left right h0 h1 h2
    simp only [searchDigit]
    by_cases h3 : left + 1 < right
    · have e : (left + right).tdiv 2 = (left + right) / 2 :=
        Int.tdiv_eq_ediv (by omega) (by norm_num)
      rw [if_pos h3, e, if_pos (hall _)]
      exact ih _ _ (by omega) (by omega) (by omega)
    · rw [if_neg h3]; omega

/-- Subtracting the zero value with `operator-=` leaves a canonical non-negative value as it is. -/
theorem sub_assign_zero (m : BigInteger) (hm : canonical m) (hn : m.is_negative = false) :
    operator_sub_assign m zero = some m := by
  cases m with
  | mk d n =>
  simp only at hn
  subst hn
  cases hb : operator_bool ⟨d, false⟩
  · have := operator_bool_false d false hb
    subst this
    decide
  · have hc : canonical ⟨d, true⟩ := by
      refine ⟨hm.1, hm.2.1, hm.2.2.1, ?_⟩
      intro h0
      simp only at h0
      rw [h0] at hb
      simp [operator_bool] at hb
    have hb2 : operator_bool ⟨d, true⟩ = true := by
      simpa [operator_bool] using hb
    cases d with
    | nil => exact absurd rfl hm.1
    | cons t rest =>
      have ht := hm.2.1 t (List.mem_cons_self _ _)
      have halign : alignSign ⟨t :: rest, true⟩ zero = some (t :: rest, true) := by
        cases rest with
        | nil =>
          have : ¬ t < 0 := by omega
          simp [alignSign, zero, popEqual, resize, this]
        | cons u us => simp [alignSign, zero]
      have hsub : subLoop [0] 1 1 0 (t :: rest) 0 = some (t :: rest, 0) := by
        have : ¬ t < 0 := by omega
        simp [subLoop, this]
      simp only [operator_sub_assign, changeSign, hb, if_true, Bool.not_false,
        operator_add_assign]
      rw [if_neg (by simp [zero])]
      simp only [addOppositeSign, halign]
      simp only [zero, List.length_cons, List.length_nil, Nat.zero_add]
      simp only [Bool.true_eq_false, if_false, Int.mul_zero, Int.sub_zero, hsub, ne_eq,
        not_true_eq_false, deleteZeroes_canonical _ hc, changeSign, hb2, if_true, Bool.not_true]

/-- The tail of one `div_mod` iteration when the divisor is zero: the digit search runs
to 999 and the remainder is left as it is. -/
theorem div_mod_tail_zero (divd : List Int) (m : BigInteger) (hm : canonical m)
    (hn : m.is_negative = false) :
    (if operator_cmp m zero ≠ Ordering.lt then
      match operator_sub_assign m (multiply_copy zero (searchDigit zero m 1000 0 REAL_BASE)) with
      | some mod2 => some (divd ++ [searchDigit zero m 1000 0 REAL_BASE], mod2)
      | none => none
    else some (divd ++ [0], m)) = some (divd ++ [999], m) := by
  have hs : searchDigit zero m 1000 0 REAL_BASE = 999 := by
    have := searchDigit_all zero m
      (fun md => by rw [multiply_copy_zero]; exact cmp_zero_le m hm hn)
      1000 0 REAL_BASE (by norm_num) (by decide) (by decide)
    rw [this]; decide
  rw [if_pos (cmp_ge_zero m hm hn), hs, multiply_copy_zero, sub_assign_zero m hm hn]

theorem div_mod_step_first (divd : List Int) (di : Int) (h : 0 ≤ di ∧ di < REAL_BASE) :
    div_mod_step zero divd zero di = some (divd ++ [999], ⟨[di], false⟩) := by
  have hc : canonical ⟨[di], false⟩ := by
    refine ⟨by simp, ?_, ?_, by simp⟩
    · intro d hd
      simp only [List.mem_singleton] at hd
      rw [hd]; exact h
    · by_cases h0 : di = 0
      · right; rw [h0]
      · left; simpa using h0
  have := div_mod_tail_zero divd ⟨[di], false⟩ hc rfl
  simpa [div_mod_step, zero] using this

theorem div_mod_step_next (divd m : List Int) (di : Int) (h : 0 ≤ di ∧ di < REAL_BASE)
    (hr : ∀ d ∈ m, 0 ≤ d ∧ d < REAL_BASE) (hne : m ≠ []) (hl : m.getLast? ≠ some 0) :
    div_mod_step zero divd ⟨m, false⟩ di = some (divd ++ [999], ⟨di :: m, false⟩) := by
  have hlast : (di :: m).getLast? = m.getLast? := by
    cases m with
    | nil => exact absurd rfl hne
    | cons u us => simp [List.getLast?_cons_cons]
  have hc : canonical ⟨di :: m, false⟩ := by
    refine ⟨by simp, ?_, ?_, by simp⟩
    · intro d hd
      rcases List.mem_cons.mp hd with hd | hd
      · rw [hd]; exact h
      · exact hr d hd
    · left
      show (di :: m).getLast? ≠ some 0
      rw [hlast]; exact hl
  have := div_mod_tail_zero divd ⟨di :: m, false⟩ hc rfl
  cases hg : m.getLast? with
  | none =>
    rw [List.getLast?_eq_none_iff] at hg
    exact absurd hg hne
  | some b =>
    have hb : b ≠ 0 := by
      intro hb; apply hl; rw [hg, hb]
    simp only [div_mod_step, hg, hb, ne_eq, not_false_eq_true, if_true]
    exact this

theorem div_mod_loop_zero (rest : List Int) :
    ∀ (divd m : List Int), (∀ d ∈ rest, 0 ≤ d ∧ d < REAL_BASE) →
      (∀ d ∈ m, 0 ≤ d ∧ d < REAL_BASE) → m ≠ [] → m.getLast? ≠ some 0 →
      div_mod_loop zero rest divd ⟨m, false⟩ =
        some (divd ++ List.replicate rest.length 999, ⟨rest.reverse ++ m, false⟩) := by
  induction rest with
  | nil => intro divd m _ _ _ _; simp [div_mod_loop]
  | cons di rest ih =>
    intro divd m hrest hr hne hl
    have hdi := hrest di (List.mem_cons_self _ _)
    have hlast : (di :: m).getLast? = m.getLast? := by
      cases m with
      | nil => exact absurd rfl hne
      | cons u us => simp [List.getLast?_cons_cons]
    simp only [div_mod_loop, div_mod_step_next divd m di hdi hr hne hl]
    rw [ih (divd ++ [999]) (di :: m) (fun d hd => hrest d (List.mem_cons_of_mem _ hd))
      (by
        intro d hd
        rcases List.mem_cons.mp hd with hd | hd
        · rw [hd]; exact hdi
        · exact hr d hd)
      (by simp) (by rw [hlast]; exact hl)]
    simp [List.replicate_succ]

theorem deleteZeroes_nines (n : Nat) (s : Bool) :
    deleteZeroes ⟨List.replicate (n + 1) 999 ++ [0], s⟩ = ⟨List.replicate (n + 1) 999, s⟩ := by
  have hl : (List.replicate (n + 1) 999 : List Int).getLast? ≠ some 0 := by
    rw [List.replicate_succ', List.getLast?_concat]; simp
  have hs : stripZeroes (List.replicate (n + 1) (999 : Int) ++ [0]).length
      (List.replicate (n + 1) 999 ++ [0]) = List.replicate (n + 1) 999 := by
    simp only [List.length_append, List.length_replicate, List.length_cons, List.length_nil,
      stripZeroes, List.getLast?_concat, List.dropLast_concat]
    rw [if_pos ⟨by omega, trivial⟩]
    exact stripZeroes_stop _ _ (fun _ => hl)
  have hb : operator_bool ⟨List.replicate (n + 1) 999, s⟩ = true := by
    cases n with
    | zero => simp [operator_bool]
    | succ n => simp [operator_bool, List.replicate_succ]
  unfold deleteZeroes
  simp only []
  rw [hs, hb]
  rfl

/-- C2 (amended): dividing a canonical value by the zero value raises nothing; `div_mod`
returns a quotient made of one limb 999 per limb of the dividend, carrying the dividend's
sign flag, and a remainder equal to the dividend. -/
theorem div_mod_by_zero_returns (a : BigInteger) (h : canonical a) :
    div_mod a zero = some (⟨List.replicate a.digits.length 999, a.is_negative⟩, a) := by
  cases a with
  | mk ds n =>
  rcases h.2.2.1 with hl | hl
  swap
  · simp only at hl
    subst hl
    have := h.2.2.2 rfl
    simp only at this
    subst this
    decide
  simp only at hl
  rcases List.eq_nil_or_concat ds with h0 | ⟨L, top, h0⟩
  · exact absurd h0 h.1
  rw [List.concat_eq_append] at h0
  subst h0
  have hr := h.2.1
  simp only at hr
  have htop := hr top (by simp)
  have htop0 : top ≠ 0 := by
    intro h0; apply hl; simp [h0]
  have hloop : div_mod_loop zero (L ++ [top]).reverse [0] zero =
      some ([0] ++ [999] ++ List.replicate L.length 999, ⟨L ++ [top], false⟩) := by
    rw [List.reverse_append, List.reverse_singleton, List.singleton_append]
    simp only [div_mod_loop, div_mod_step_first [0] top htop]
    rw [div_mod_loop_zero L.reverse ([0] ++ [999]) [top]
      (fun d hd => hr d (by simp at hd; simp [hd])) (by simpa using htop) (by simp)
      (by simpa using htop0)]
    simp
  have hb : operator_bool ⟨L ++ [top], false⟩ = true := by
    cases L with
    | nil => simpa [operator_bool] using htop0
    | cons u us =>
      cases us with
      | nil => simp [operator_bool]
      | cons v vs => simp [operator_bool]
  have hrev : ([0] ++ [999] ++ List.replicate L.length 999 : List Int).reverse =
      List.replicate (L.length + 1) 999 ++ [0] := by
    simp [List.replicate_succ']
  unfold div_mod
  rw [hloop]
  simp only [hrev, deleteZeroes_nines, hb, Bool.true_and, zero, Bool.xor_false,
    List.length_append, List.length_cons, List.length_nil]

/-- Division of `-7001005` by zero: the quotient is `-999999999`, the remainder `-7001005`. -/
theorem div_mod_by_zero_returns_witness :
    canonical ⟨[5, 1, 7], true⟩ ∧
    div_mod ⟨[5, 1, 7], true⟩ zero = some (⟨[999, 999, 999], true⟩, ⟨[5, 1, 7], true⟩) :=
  ⟨by decide, div_mod_by_zero_returns ⟨[5, 1, 7], true⟩ (by decide)⟩

/-- C2 (counterexample): `div_mod(5, 0)` does not fail; it returns the pair `(999, 5)`. -/
theorem div_mod_by_zero_no_failure :
    div_mod ⟨[5], false⟩ zero = some (⟨[999], false⟩, ⟨[5], false⟩) := by
  decide

end BigInteger

namespace BigInteger

/-! ## Increment and decrement -/

theorem add_one_exact (a one : BigInteger) (h : canonical a) (h1 : canonical one)
    (hl : one.digits.length = 1) :
    ∃ c, operator_add_assign a one = some c ∧ canonical c ∧ toInt c = toInt a + toInt one := by
  apply operator_add_assign_exact a one h h1
  rintro ⟨-, g2, g3, -⟩
  omega

/-- C20: on a canonical value the increments leave the receiver at the canonical value
denoting `a + 1` and the decrements at the one denoting `a - 1`; the prefix forms return the
new value, the postfix forms the old one; a result that denotes zero is the non-negative
zero. -/
theorem operator_inc_dec (a : BigInteger) (h : canonical a) :
    ∃ up down : BigInteger,
      canonical up ∧ toInt up = toInt a + 1 ∧ canonical down ∧ toInt down = toInt a - 1 ∧
      operator_pre_inc a = some (up, up) ∧ operator_post_inc a = some (up, a) ∧
      operator_pre_dec a = some (down, down) ∧ operator_post_dec a = some (down, a) ∧
      (toInt up = 0 → up = zero) ∧ (toInt down = 0 → down = zero) := by
  have e1 : from_long_long 1 = some ⟨[1], false⟩ := by decide
  have e2 : from_long_long (-1) = some ⟨[1], true⟩ := by decide
  obtain ⟨up, u1, u2, u3⟩ := add_one_exact a ⟨[1], false⟩ h (by decide) rfl
  obtain ⟨down, d1, d2, d3⟩ := add_one_exact a ⟨[1], true⟩ h (by decide) rfl
  have t1 : toInt ⟨[1], false⟩ = 1 := by decide
  have t2 : toInt ⟨[1], true⟩ = -1 := by decide
  rw [t1] at u3
  rw [t2] at d3
  refine ⟨up, down, u2, u3, d2, by rw [d3]; ring, ?_, ?_, ?_, ?_, ?_, ?_⟩
  · simp only [operator_pre_inc, e1, u1]
  · simp only [operator_post_inc, operator_pre_inc, e1, u1]
  · simp only [operator_pre_dec, e2, d1]
  · simp only [operator_post_dec, operator_pre_dec, e2, d1]
  · intro hz
    exact toInt_injective up zero u2 canonical_zero (by rw [hz]; decide)
  · intro hz
    exact toInt_injective down zero d2 canonical_zero (by rw [hz]; decide)

/-- The increments and decrements applied to `-1`; the steps `0 → -1 → -2 → -1 → 0` of the
test run through them. -/
theorem operator_inc_dec_witness :
    canonical ⟨[1], true⟩ ∧
    operator_pre_dec zero = some (⟨[1], true⟩, ⟨[1], true⟩) ∧
    operator_post_dec ⟨[1], true⟩ = some (⟨[2], true⟩, ⟨[1], true⟩) ∧
    operator_pre_inc ⟨[2], true⟩ = some (⟨[1], true⟩, ⟨[1], true⟩) ∧
    operator_post_inc ⟨[1], true⟩ = some (zero, ⟨[1], true⟩) ∧
    (∃ up down : BigInteger, operator_pre_inc ⟨[1], true⟩ = some (up, up) ∧
      operator_pre_dec ⟨[1], true⟩ = some (down, down) ∧ toInt up = toInt ⟨[1], true⟩ + 1) :=
  ⟨by decide, by decide, by decide, by decide, by decide,
    (operator_inc_dec ⟨[1], true⟩ (by decide)).elim fun up hu =>
      hu.elim fun down hd => ⟨up, down, hd.2.2.2.2.1, hd.2.2.2.2.2.2.1, hd.2.1⟩⟩

end BigInteger

namespace BigInteger

/-- C14 (failing input): `BigInteger(LLONG_MIN)`.  The negation `x = -x` overflows, so the
constructor has no defined result; a build in which the negation wraps keeps `x` negative
and stores the negative limbs below. -/
theorem from_long_long_min :
    LLONG_MIN = -2 ^ 63 ∧ from_long_long LLONG_MIN = none ∧
    constructLoop 7 LLONG_MIN = [-808, -775, -854, -36, -372, -223, -9] ∧
    from_long_long 0 = some zero := by
  decide

/-- C13 (failing input): `toString(BigInteger(LLONG_MIN))`.  The constructor has no defined
result; on the limbs that a wrapping negation stores, `toString` writes a text that is not
`-9223372036854775808`. -/
theorem toString_from_long_long_min :
    (match from_long_long LLONG_MIN with
      | some v => some (toString v)
      | none => none) = none ∧
    toString ⟨constructLoop 7 LLONG_MIN, true⟩ ≠
      ['-', '9', '2', '2', '3', '3', '7', '2', '0', '3', '6', '8', '5', '4', '7', '7', '5',
        '8', '0', '8'] := by
  decide

/-- C15 (failing input): `multiply_pow10(1)` on `-5` returns `+50`, since `multiply` clears
the sign flag, while `multiply_pow10(3)` on `-5`, which only shifts limbs, keeps the sign
and returns `-5000`. -/
theorem multiply_pow10_minus_five :
    canonical ⟨[5], true⟩ ∧ toInt ⟨[5], true⟩ = -5 ∧
    multiply_pow10 ⟨[5], true⟩ 1 = ⟨[50], false⟩ ∧
    toInt (multiply_pow10 ⟨[5], true⟩ 1) = 50 ∧
    multiply_pow10 ⟨[5], true⟩ 3 = ⟨[0, 5], true⟩ ∧
    toInt (multiply_pow10 ⟨[5], true⟩ 3) = -5000 := by
  decide

end BigInteger

namespace Rational
open BigInteger

end Rational

namespace BigInteger

/-! ## Parsing a token of the textual format -/

theorem isDigit_bounds (c : Char) (h : c.isDigit = true) : 48 ≤ c.toNat ∧ c.toNat ≤ 57 := by
  simp only [Char.isDigit, Bool.and_eq_true, decide_eq_true_eq] at h
  have h1 : (48 : UInt32).toNat ≤ c.val.toNat := UInt32.le_def.mp h.1
  have h2 : c.val.toNat ≤ (57 : UInt32).toNat := UInt32.le_def.mp h.2
  exact ⟨h1, h2⟩

theorem isDigit_ne_minus (c : Char) (h : c.isDigit = true) : c ≠ '-' := by
  intro hc
  rw [hc] at h
  exact absurd h (by decide)

theorem digitsValue_concat (l : List Char) (c : Char) :
    digitsValue (l ++ [c]) = 10 * digitsValue l + ((c.toNat : Int) - 48) := by
  simp [digitsValue, List.foldl_append]

theorem digitsValue_zeros (j : Nat) (l : List Char) :
    digitsValue (List.replicate j '0' ++ l) = digitsValue l := by
  induction j with
  | zero => rfl
  | succ j ih =>
    have e : digitsValue (List.replicate (j + 1) '0' ++ l)
        = digitsValue (List.replicate j '0' ++ l) := by
      simp only [digitsValue, List.replicate_succ, List.cons_append, List.foldl_cons]
      rfl
    rw [e, ih]

/-- The limbs that `operator>>` reads from a padded, reversed run of decimal digits are in
range and denote the number the digits write. -/
theorem readAll_value :
    ∀ (n : Nat) (r : List Char), r.length = 3 * n → (∀ c ∈ r, c.isDigit = true) →
      (∀ d ∈ (List.range n).map (fun i => readLimb r i DIGIT_SIZE 0), 0 ≤ d ∧ d < REAL_BASE) ∧
      magnitude ((List.range n).map (fun i => readLimb r i DIGIT_SIZE 0))
        = digitsValue r.reverse := by
  intro n
  induction n with
  | zero =>
    intro r hl _
    have : r = [] := List.length_eq_zero.mp (by omega)
    subst this
    exact ⟨by simp, rfl⟩
  | succ n ih =>
    intro r hl hd
    obtain ⟨c0, c1, c2, rest, hr⟩ : ∃ c0 c1 c2 rest, r = c0 :: c1 :: c2 :: rest := by
      match r, hl with
      | c0 :: c1 :: c2 :: rest, _ => exact ⟨c0, c1, c2, rest, rfl⟩
      | [], hl => simp at hl
      | [_], hl => simp at hl; omega
      | [_, _], hl => simp at hl; omega
    subst hr
    have b0 := isDigit_bounds c0 (hd c0 (by simp))
    have b1 := isDigit_bounds c1 (hd c1 (by simp))
    have b2 := isDigit_bounds c2 (hd c2 (by simp))
    obtain ⟨g1, g2⟩ := ih rest (by simp at hl; omega)
      (fun c hc => hd c (by simp [hc]))
    rw [readAll_cons]
    have hv : readLimb (c0 :: c1 :: c2 :: rest) 0 DIGIT_SIZE 0
        = 100 * ((c2.toNat : Int) - 48) + 10 * ((c1.toNat : Int) - 48)
          + ((c0.toNat : Int) - 48) := by
      simp only [readLimb, DIGIT_SIZE, USER_BASE, Nat.mul_zero, Nat.zero_add,
        List.getD_cons_zero, List.getD_cons_succ]
      ring
    rw [hv]
    constructor
    · intro d hdm
      rcases List.mem_cons.mp hdm with h0 | h0
      · rw [h0, REAL_BASE_eq]; omega
      · exact g1 d h0
    · simp only [magnitude, g2, REAL_BASE_eq, List.reverse_cons, digitsValue_concat]
      ring

theorem padChars_eq (r : List Char) :
    ∃ j, padChars DIGIT_SIZE r = r ++ List.replicate j '0' ∧ (r.length + j) % 3 = 0 := by
  have h3 : r.length % 3 = 0 ∨ r.length % 3 = 1 ∨ r.length % 3 = 2 := by omega
  rcases h3 with h | h | h
  · exact ⟨0, by rw [padChars_stop _ _ h]; simp, by simpa using h⟩
  · refine ⟨2, ?_, by omega⟩
    rw [DIGIT_SIZE, padChars_push _ _ (by omega), padChars_push _ _ (by simp; omega),
      padChars_stop _ _ (by simp; omega)]
    simp
  · refine ⟨1, ?_, by omega⟩
    rw [DIGIT_SIZE, padChars_push _ _ (by omega), padChars_stop _ _ (by simp; omega)]
    rfl

/-- The value that `operator>>` stores for the reversed digit run `r1` with sign flag `neg`:
canonical, and denoting the number the digits write with that sign. -/
theorem read_digits (r1 : List Char) (neg : Bool) (hne : r1 ≠ [])
    (hd : ∀ c ∈ r1, c.isDigit = true) :
    canonical (deleteZeroes
      ⟨(List.range ((padChars DIGIT_SIZE r1).length / DIGIT_SIZE)).map
        (fun i => readLimb (padChars DIGIT_SIZE r1) i DIGIT_SIZE 0), neg⟩) ∧
    toInt (deleteZeroes
      ⟨(List.range ((padChars DIGIT_SIZE r1).length / DIGIT_SIZE)).map
        (fun i => readLimb (padChars DIGIT_SIZE r1) i DIGIT_SIZE 0), neg⟩)
      = (if neg then -digitsValue r1.reverse else digitsValue r1.reverse) := by
  obtain ⟨j, hp, hj⟩ := padChars_eq r1
  rw [hp]
  have hlen : 0 < r1.length := List.length_pos.mpr hne
  obtain ⟨n, hn⟩ : ∃ n, (r1 ++ List.replicate j '0').length = 3 * n :=
    ⟨(r1.length + j) / 3, by simp; omega⟩
  have hn0 : 0 < n := by simp at hn; omega
  have hdiv : (r1 ++ List.replicate j '0').length / DIGIT_SIZE = n := by
    rw [hn, DIGIT_SIZE]; omega
  rw [hdiv]
  have hd2 : ∀ c ∈ r1 ++ List.replicate j '0', c.isDigit = true := by
    intro c hc
    rcases List.mem_append.mp hc with h | h
    · exact hd c h
    · rw [(List.mem_replicate.mp h).2]; rfl
  obtain ⟨g1, g2⟩ := readAll_value n _ hn hd2
  have hne2 : (List.range n).map
      (fun i => readLimb (r1 ++ List.replicate j '0') i DIGIT_SIZE 0) ≠ [] := by
    intro h0
    have := congrArg List.length h0
    simp at this; omega
  obtain ⟨d1, d2⟩ := deleteZeroes_spec _ neg hne2 g1
  refine ⟨d1, ?_⟩
  rw [d2]
  simp only [toInt, g2, List.reverse_append, List.reverse_replicate, digitsValue_zeros]

/-- C11: for a token made of an optional leading `-` and one or more decimal digits,
`operator>>` stores the canonical value that denotes the integer the token writes; leading
zeros do not count and a zero is stored as the non-negative zero. -/
theorem operator_read_valid (s : List Char) (h : validToken s) :
    ∃ v, operator_read s = some v ∧ canonical v ∧ toInt v = tokenValue s ∧
      (tokenValue s = 0 → v = zero) := by
  have key : ∃ v, operator_read s = some v ∧ canonical v ∧ toInt v = tokenValue s := by
    unfold validToken at h
    unfold tokenValue
    by_cases hm : s.head? = some '-'
    · rw [if_pos hm] at h ⊢
      obtain ⟨t, hs⟩ : ∃ t, s = '-' :: t := by
        cases s with
        | nil => simp at hm
        | cons c t =>
          simp only [List.head?_cons, Option.some.injEq] at hm
          exact ⟨t, by rw [hm]⟩
      subst hs
      simp only [List.tail_cons] at h ⊢
      have hl : ('-' :: t).reverse.getLast? = some '-' := by
        rw [List.reverse_cons, List.getLast?_concat]
      have hdl : ('-' :: t).reverse.dropLast = t.reverse := by
        rw [List.reverse_cons, List.dropLast_concat]
      obtain ⟨g1, g2⟩ := read_digits t.reverse true (by simpa using h.1)
        (fun c hc => h.2 c (by simpa using hc))
      unfold operator_read
      simp only [hl, hdl, if_true, decide_True]
      refine ⟨_, rfl, g1, ?_⟩
      rw [g2]; simp
    · rw [if_neg hm] at h ⊢
      obtain ⟨c, t, hs⟩ : ∃ c t, s = c :: t := by
        cases s with
        | nil => exact absurd rfl h.1
        | cons c t => exact ⟨c, t, rfl⟩
      subst hs
      have hc : c ≠ '-' := isDigit_ne_minus c (h.2 c (by simp))
      have hl : (c :: t).reverse.getLast? = some c := by
        rw [List.reverse_cons, List.getLast?_concat]
      obtain ⟨g1, g2⟩ := read_digits (c :: t).reverse false (by simp)
        (fun e he => h.2 e (by
          rcases List.mem_reverse.mp he with h1
          exact h1))
      unfold operator_read
      simp only [hl, hc, if_false, decide_False]
      refine ⟨_, rfl, g1, ?_⟩
      rw [g2]; simp
  obtain ⟨v, h1, h2, h3⟩ := key
  refine ⟨v, h1, h2, h3, ?_⟩
  intro hz
  exact toInt_injective v zero h2 canonical_zero (by rw [h3, hz]; decide)

/-- The parsing theorem applied to the token `00010`; the tokens `-0` and `-000` of the
interface give the non-negative zero. -/
theorem operator_read_valid_witness :
    validToken ['0', '0', '0', '1', '0'] ∧ tokenValue ['0', '0', '0', '1', '0'] = 10 ∧
    operator_read ['0', '0', '0', '1', '0'] = some ⟨[10], false⟩ ∧
    operator_read ['-', '0'] = some zero ∧ operator_read ['-', '0', '0', '0'] = some zero ∧
    (∃ v, operator_read ['0', '0', '0', '1', '0'] = some v ∧ canonical v ∧
      toInt v = tokenValue ['0', '0', '0', '1', '0'] ∧
      (tokenValue ['0', '0', '0', '1', '0'] = 0 → v = zero)) :=
  ⟨by decide, by decide, by decide, by decide, by decide,
    operator_read_valid ['0', '0', '0', '1', '0'] (by decide)⟩

end BigInteger

namespace BigInteger

/-! ## The scalar product `multiply` and the decimal shift `multiply_pow10` -/

/-- The carry pass `toCarry` over limbs of at most `999000` with an incoming carry of at
most `999`: the limbs written are in range and the value is kept. -/
theorem toCarryLoop_spec :
    ∀ (ds : List Int) (carry : Int), (∀ d ∈ ds, 0 ≤ d ∧ d ≤ 999000) → 0 ≤ carry →
      carry ≤ 999 →
      (toCarryLoop ds carry).1.length = ds.length ∧
      (∀ d ∈ (toCarryLoop ds carry).1, 0 ≤ d ∧ d < REAL_BASE) ∧
      0 ≤ (toCarryLoop ds carry).2 ∧ (toCarryLoop ds carry).2 ≤ 999 ∧
      magnitude (toCarryLoop ds carry).1 + (toCarryLoop ds carry).2 * 1000 ^ ds.length
        = magnitude ds + carry := by
  intro ds
  induction ds with
  | nil =>
    intro carry _ h0 h1
    simp [toCarryLoop, magnitude, h0, h1]
  | cons d ds ih =>
    intro carry hr h0 h1
    have hd := hr d (List.mem_cons_self _ _)
    have e1 : (d + carry).tdiv 1000 = (d + carry) / 1000 :=
      Int.tdiv_eq_ediv (by omega) (by norm_num)
    have e2 : (d + carry).tmod 1000 = (d + carry) % 1000 :=
      Int.tmod_eq_emod (by omega) (by norm_num)
    obtain ⟨g1, g2, g3, g4, g5⟩ := ih ((d + carry) / 1000)
      (fun e he => hr e (List.mem_cons_of_mem _ he)) (by omega) (by omega)
    simp only [toCarryLoop, REAL_BASE_eq, e1, e2, List.length_cons, magnitude, pow_succ]
    refine ⟨by rw [g1], ?_, g3, g4, ?_⟩
    · intro e he
      rcases List.mem_cons.mp he with h | h
      · rw [h]; omega
      · exact g2 e h
    · have := Int.emod_add_ediv (d + carry) 1000
      linarith

theorem toCarry_spec (ds : List Int) (hr : ∀ d ∈ ds, 0 ≤ d ∧ d ≤ 999000) (hne : ds ≠ []) :
    toCarry ds ≠ [] ∧ (∀ d ∈ toCarry ds, 0 ≤ d ∧ d < REAL_BASE) ∧
    magnitude (toCarry ds) = magnitude ds := by
  obtain ⟨g1, g2, g3, g4, g5⟩ := toCarryLoop_spec ds 0 hr (le_refl _) (by norm_num)
  have hpos : 0 < ds.length := List.length_pos.mpr hne
  have hne1 : (toCarryLoop ds 0).1 ≠ [] := by
    intro h0; rw [h0] at g1; simp at g1; omega
  unfold toCarry
  simp only []
  by_cases hc : (toCarryLoop ds 0).2 = 0
  · simp only [hc, bne_self_eq_false, Bool.false_eq_true, if_false]
    rw [hc] at g5
    exact ⟨hne1, g2, by linarith⟩
  · have hb : ((toCarryLoop ds 0).2 != 0) = true := by simpa using hc
    simp only [hb, if_true]
    refine ⟨by simp, ?_, ?_⟩
    · intro d hd
      rcases List.mem_append.mp hd with h | h
      · exact g2 d h
      · simp only [List.mem_singleton] at h
        rw [h, REAL_BASE_eq]; omega
    · rw [magnitude_append, g1]
      simp only [magnitude, REAL_BASE_eq]
      linarith

theorem magnitude_map_mul (ds : List Int) (x : Int) :
    magnitude (ds.map (fun digit => digit * x)) = magnitude ds * x := by
  induction ds with
  | nil => simp [magnitude]
  | cons d ds ih => simp only [List.map_cons, magnitude, ih]; ring

/-- The method `multiply(x)` for `0 ≤ x ≤ 1000` on limbs in range: the result is the
canonical non-negative value denoting the magnitude times `x`. -/
theorem multiply_spec (d : List Int) (s : Bool) (x : Int) (hne : d ≠ [])
    (hr : ∀ t ∈ d, 0 ≤ t ∧ t < REAL_BASE) (h0 : 0 ≤ x) (h1 : x ≤ 1000) :
    canonical (multiply ⟨d, s⟩ x) ∧ toInt (multiply ⟨d, s⟩ x) = magnitude d * x ∧
    (multiply ⟨d, s⟩ x).is_negative = false := by
  have hm : ∀ t ∈ d.map (fun digit => digit * x), 0 ≤ t ∧ t ≤ 999000 := by
    intro t ht
    obtain ⟨u, hu, rfl⟩ := List.mem_map.mp ht
    have := hr u hu
    rw [REAL_BASE_eq] at this
    constructor
    · exact mul_nonneg this.1 h0
    · nlinarith
  obtain ⟨g1, g2, g3⟩ := toCarry_spec _ hm (by simpa using hne)
  obtain ⟨c1, c2⟩ := deleteZeroes_spec _ false g1 g2
  unfold multiply
  refine ⟨c1, ?_, ?_⟩
  · rw [c2]
    simp only [toInt, Bool.false_eq_true, if_false, g3, magnitude_map_mul]
  · unfold deleteZeroes
    simp only []
    split <;> rfl

theorem multiply_one (y : BigInteger) (hy : canonical y) (hn : y.is_negative = false) :
    multiply_copy y 1 = y := by
  obtain ⟨c1, c2, -⟩ := multiply_spec y.digits y.is_negative 1 hy.1 hy.2.1 (by norm_num)
    (by norm_num)
  unfold multiply_copy
  apply toInt_injective _ _ c1 hy
  rw [c2]
  simp [toInt, hn]

theorem pow10Loop_one : pow10Loop 1 USER_BASE = 10 := by decide

theorem pow10Loop_two : pow10Loop 2 USER_BASE = 100 := by decide

/-- The method `multiply_pow10(q)` on a canonical non-negative value: the result is the
canonical non-negative value denoting the value times `10 ^ q`. -/
theorem multiply_pow10_spec (m : BigInteger) (hm : canonical m) (hn : m.is_negative = false)
    (q : Nat) :
    canonical (multiply_pow10 m q) ∧ toInt (multiply_pow10 m q) = toInt m * 10 ^ q ∧
    (multiply_pow10 m q).is_negative = false := by
  unfold multiply_pow10
  cases hb : operator_bool m
  · have hd := operator_bool_false m.digits m.is_negative hb
    simp only [Bool.false_eq_true, if_false]
    refine ⟨hm, ?_, hn⟩
    simp [toInt, hd, magnitude]
  · simp only [if_true]
    have hd0 : m.digits ≠ [0] := by
      intro h0
      have : operator_bool m = false := by
        cases m with
        | mk d n => simp only at h0; subst h0; rfl
      rw [this] at hb; cases hb
    have hlast := canonical_last m hm hd0
    have hr : ∀ t ∈ List.replicate (q / DIGIT_SIZE) 0 ++ m.digits, 0 ≤ t ∧ t < REAL_BASE := by
      apply mem_range_append
      · intro t ht
        rw [(List.mem_replicate.mp ht).2, REAL_BASE_eq]; omega
      · exact hm.2.1
    have hne : List.replicate (q / DIGIT_SIZE) 0 ++ m.digits ≠ [] := by
      simp [hm.1]
    have hmag : magnitude (List.replicate (q / DIGIT_SIZE) 0 ++ m.digits)
        = 1000 ^ (q / 3) * magnitude m.digits := by
      rw [magnitude_append, magnitude_replicate_zero, List.length_replicate, DIGIT_SIZE]
      ring
    have hq : q = 3 * (q / 3) + q % 3 := (Nat.div_add_mod q 3).symm
    have hpow : (1000 : Int) ^ (q / 3) = 10 ^ (3 * (q / 3)) := by
      rw [pow_mul]; norm_num
    have h3 : q % 3 = 0 ∨ q % 3 = 1 ∨ q % 3 = 2 := by omega
    rcases h3 with h | h | h
    · simp only [DIGIT_SIZE, h, ne_eq, not_true_eq_false, if_false]
      have hl : (List.replicate (q / DIGIT_SIZE) (0 : Int) ++ m.digits).getLast? ≠ some 0 := by
        rw [List.getLast?_append_of_ne_nil _ hm.1]; exact hlast
      rw [DIGIT_SIZE] at hl hne hr
      refine ⟨⟨hne, hr, Or.inl hl, ?_⟩, ?_, hn⟩
      · intro h0
        exfalso
        simp only at h0
        rw [h0] at hl; simp at hl
      · simp only [toInt, hn, Bool.false_eq_true, if_false]
        rw [DIGIT_SIZE] at hmag
        rw [hmag, hpow]
        rw [h, Nat.add_zero] at hq
        rw [← hq]; ring
    · simp only [DIGIT_SIZE, h, ne_eq, one_ne_zero, not_false_eq_true, if_true, pow10Loop_one]
      obtain ⟨c1, c2, c3⟩ := multiply_spec _ m.is_negative 10 hne hr (by norm_num)
        (by norm_num)
      rw [DIGIT_SIZE] at c1 c2 c3
      refine ⟨c1, ?_, c3⟩
      rw [c2]
      rw [DIGIT_SIZE] at hmag
      rw [hmag, hpow]
      simp only [toInt, hn, Bool.false_eq_true, if_false]
      have : (10 : Int) ^ q = 10 ^ (3 * (q / 3)) * 10 := by
        conv_lhs => rw [hq, h, pow_succ]
      rw [this]; ring
    · simp only [DIGIT_SIZE, h, ne_eq, OfNat.ofNat_ne_zero, not_false_eq_true, if_true,
        pow10Loop_two]
      obtain ⟨c1, c2, c3⟩ := multiply_spec _ m.is_negative 100 hne hr (by norm_num)
        (by norm_num)
      rw [DIGIT_SIZE] at c1 c2 c3
      refine ⟨c1, ?_, c3⟩
      rw [c2]
      rw [DIGIT_SIZE] at hmag
      rw [hmag, hpow]
      simp only [toInt, hn, Bool.false_eq_true, if_false]
      have : (10 : Int) ^ q = 10 ^ (3 * (q / 3)) * 100 := by
        conv_lhs => rw [hq, h, pow_succ, pow_succ]
        ring
      rw [this]; ring

end BigInteger

namespace BigInteger

/-! ## Steps of `div_mod` with a positive divisor -/

theorem toInt_nonneg_eq (m : BigInteger) (hn : m.is_negative = false) :
    toInt m = magnitude m.digits := by
  simp [toInt, hn]

/-- The test of the digit search, `multiply(x, md) <= mod`, compares `|x| * md` with the
remainder. -/
theorem search_test (y mod : BigInteger) (hy : canonical y) (hm : canonical mod)
    (hmn : mod.is_negative = false) (md : Int) (h0 : 0 ≤ md) (h1 : md ≤ 1000) :
    operator_cmp (multiply_copy y md) mod ≠ Ordering.gt ↔
      magnitude y.digits * md ≤ magnitude mod.digits := by
  obtain ⟨c1, c2, -⟩ := multiply_spec y.digits y.is_negative md hy.1 hy.2.1 h0 h1
  unfold multiply_copy
  rw [cmp_toInt _ _ c1 hm, c2, toInt_nonneg_eq mod hmn]
  constructor
  · intro h
    by_contra hlt
    exact h (compare_gt_iff_gt.mpr (by omega))
  · intro h hgt
    have := compare_gt_iff_gt.mp hgt
    omega

/-- The digit search of `div_mod` returns the quotient of the remainder by `|x|` whenever
that quotient lies between the two bounds. -/
theorem searchDigit_bisect (y mod : BigInteger) (hy : canonical y) (hm : canonical mod)
    (hmn : mod.is_negative = false) (hX : 0 < magnitude y.digits) :
    ∀ (k : Nat) (left right : Int), 0 ≤ left →
      left ≤ magnitude mod.digits / magnitude y.digits →
      magnitude mod.digits / magnitude y.digits < right → right ≤ 1000 →
      (right - left).toNat ≤ k →
      searchDigit y mod k left right = magnitude mod.digits / magnitude y.digits := by
  intro k
  induction k with
  | zero => intro left right h0 h1 h2 h3 h4; omega
  | succ k ih =>
    intro left right h0 h1 h2 h3 h4
    simp only [searchDigit]
    by_cases hlr : left + 1 < right
    · have e : (left + right).tdiv 2 = (left + right) / 2 :=
        Int.tdiv_eq_ediv (by omega) (by norm_num)
      rw [if_pos hlr, e]
      have ht := search_test y mod hy hm hmn ((left + right) / 2) (by omega) (by omega)
      by_cases hmd : (left + right) / 2 ≤ magnitude mod.digits / magnitude y.digits
      · have hp : magnitude y.digits * ((left + right) / 2) ≤ magnitude mod.digits := by
          have := (Int.le_ediv_iff_mul_le hX).mp hmd
          linarith
        rw [if_pos (ht.mpr hp)]
        exact ih _ _ (by omega) hmd h2 h3 (by omega)
      · have hp : ¬ magnitude y.digits * ((left + right) / 2) ≤ magnitude mod.digits := by
          intro hle
          apply hmd
          apply (Int.le_ediv_iff_mul_le hX).mpr
          linarith
        rw [if_neg (fun h => hp (ht.mp h))]
        exact ih _ _ h0 h1 (by omega) (by omega) (by omega)
    · rw [if_neg hlr]; omega

theorem searchDigit_quotient (y mod : BigInteger) (hy : canonical y) (hm : canonical mod)
    (hmn : mod.is_negative = false) (hX : 0 < magnitude y.digits)
    (hM : magnitude mod.digits < 1000 * magnitude y.digits) :
    searchDigit y mod 1000 0 REAL_BASE = magnitude mod.digits / magnitude y.digits := by
  have hM0 := magnitude_nonneg mod.digits hm.2.1
  apply searchDigit_bisect y mod hy hm hmn hX 1000 0 REAL_BASE (le_refl _)
  · exact Int.ediv_nonneg hM0 (le_of_lt hX)
  · rw [REAL_BASE_eq]
    apply Int.ediv_lt_of_lt_mul hX
    linarith
  · rw [REAL_BASE_eq]
  · rw [REAL_BASE_eq]; decide

theorem canonical_single (di : Int) (h : 0 ≤ di ∧ di < REAL_BASE) :
    canonical ⟨[di], false⟩ := by
  refine ⟨by simp, ?_, ?_, by simp⟩
  · intro d hd
    simp only [List.mem_singleton] at hd
    rw [hd]; exact h
  · by_cases h0 : di = 0
    · right; rw [h0]
    · left; simpa using h0

theorem canonical_cons (di : Int) (m : List Int) (h : 0 ≤ di ∧ di < REAL_BASE)
    (hr : ∀ d ∈ m, 0 ≤ d ∧ d < REAL_BASE) (hne : m ≠ []) (hl : m.getLast? ≠ some 0) :
    canonical ⟨di :: m, false⟩ := by
  have hlast : (di :: m).getLast? = m.getLast? := by
    cases m with
    | nil => exact absurd rfl hne
    | cons u us => simp [List.getLast?_cons_cons]
  refine ⟨by simp, ?_, ?_, by simp⟩
  · intro d hd
    rcases List.mem_cons.mp hd with hd | hd
    · rw [hd]; exact h
    · exact hr d hd
  · left
    show (di :: m).getLast? ≠ some 0
    rw [hlast]; exact hl

/-- An iteration of `div_mod` written on the remainder `mod1` that the new limb gives. -/
theorem div_mod_step_zero_small (y : BigInteger) (divd : List Int) (di : Int)
    (h : operator_cmp ⟨[di], false⟩ y = Ordering.lt) :
    div_mod_step y divd zero di = some (divd ++ [0], ⟨[di], false⟩) := by
  simp [div_mod_step, zero, h]

theorem div_mod_step_zero_taken (y : BigInteger) (divd : List Int) (di : Int)
    (h : operator_cmp ⟨[di], false⟩ y ≠ Ordering.lt) (mod2 : BigInteger)
    (hs : operator_sub_assign ⟨[di], false⟩
      (multiply_copy y (searchDigit y ⟨[di], false⟩ 1000 0 REAL_BASE)) = some mod2) :
    div_mod_step y divd zero di
      = some (divd ++ [searchDigit y ⟨[di], false⟩ 1000 0 REAL_BASE], mod2) := by
  simp [div_mod_step, zero, h, hs]

theorem div_mod_step_cons_small (y : BigInteger) (divd m : List Int) (di : Int) (hne : m ≠ [])
    (hl : m.getLast? ≠ some 0) (h : operator_cmp ⟨di :: m, false⟩ y = Ordering.lt) :
    div_mod_step y divd ⟨m, false⟩ di = some (divd ++ [0], ⟨di :: m, false⟩) := by
  obtain ⟨b, hb⟩ := getLast?_some_of_ne_nil m hne
  have hb0 : b ≠ 0 := by
    intro h0; apply hl; rw [hb, h0]
  simp [div_mod_step, hb, hb0, h]

theorem div_mod_step_cons_taken (y : BigInteger) (divd m : List Int) (di : Int) (hne : m ≠ [])
    (hl : m.getLast? ≠ some 0) (h : operator_cmp ⟨di :: m, false⟩ y ≠ Ordering.lt)
    (mod2 : BigInteger)
    (hs : operator_sub_assign ⟨di :: m, false⟩
      (multiply_copy y (searchDigit y ⟨di :: m, false⟩ 1000 0 REAL_BASE)) = some mod2) :
    div_mod_step y divd ⟨m, false⟩ di
      = some (divd ++ [searchDigit y ⟨di :: m, false⟩ 1000 0 REAL_BASE], mod2) := by
  obtain ⟨b, hb⟩ := getLast?_some_of_ne_nil m hne
  have hb0 : b ≠ 0 := by
    intro h0; apply hl; rw [hb, h0]
  simp [div_mod_step, hb, hb0, h, hs]

theorem div_mod_step_zero_none (y : BigInteger) (divd : List Int) (di : Int)
    (h : operator_cmp ⟨[di], false⟩ y ≠ Ordering.lt)
    (hs : operator_sub_assign ⟨[di], false⟩
      (multiply_copy y (searchDigit y ⟨[di], false⟩ 1000 0 REAL_BASE)) = none) :
    div_mod_step y divd zero di = none := by
  simp [div_mod_step, zero, h, hs]

theorem div_mod_step_cons_none (y : BigInteger) (divd m : List Int) (di : Int) (hne : m ≠ [])
    (hl : m.getLast? ≠ some 0) (h : operator_cmp ⟨di :: m, false⟩ y ≠ Ordering.lt)
    (hs : operator_sub_assign ⟨di :: m, false⟩
      (multiply_copy y (searchDigit y ⟨di :: m, false⟩ 1000 0 REAL_BASE)) = none) :
    div_mod_step y divd ⟨m, false⟩ di = none := by
  obtain ⟨b, hb⟩ := getLast?_some_of_ne_nil m hne
  have hb0 : b ≠ 0 := by
    intro h0; apply hl; rw [hb, h0]
  simp [div_mod_step, hb, hb0, h, hs]

theorem cmp_ge_of_magnitude (m y : BigInteger) (hm : canonical m) (hy : canonical y)
    (hmn : m.is_negative = false) (hyn : y.is_negative = false)
    (h : magnitude y.digits ≤ magnitude m.digits) : operator_cmp m y ≠ Ordering.lt := by
  rw [cmp_toInt m y hm hy, toInt_nonneg_eq m hmn, toInt_nonneg_eq y hyn]
  intro hlt
  have := compare_lt_iff_lt.mp hlt
  omega

end BigInteger

namespace BigInteger

/-! ## `div_mod` with a dividend smaller than the divisor, and with one at least as large -/

theorem magnitude_of_cmp_lt (m y : BigInteger) (hm : canonical m) (hy : canonical y)
    (hmn : m.is_negative = false) (hyn : y.is_negative = false) :
    operator_cmp m y = Ordering.lt ↔ magnitude m.digits < magnitude y.digits := by
  rw [cmp_toInt m y hm hy, toInt_nonneg_eq m hmn, toInt_nonneg_eq y hyn]
  exact compare_lt_iff_lt

end BigInteger

namespace Rational
open BigInteger

/-! ## `asDecimal` on a negative fraction above -1 -/

end Rational

namespace BigInteger

/-! ## The constructor from a native integer away from `LLONG_MIN` -/

theorem constructLoop_zero (k : Nat) : constructLoop k 0 = [] := by
  cases k <;> simp [constructLoop]

theorem constructLoop_spec :
    ∀ (k : Nat) (x : Int), 0 < x → x.toNat ≤ k →
      constructLoop k x ≠ [] ∧ (∀ d ∈ constructLoop k x, 0 ≤ d ∧ d < REAL_BASE) ∧
      (constructLoop k x).getLast? ≠ some 0 ∧ magnitude (constructLoop k x) = x := by
  intro k
  induction k with
  | zero => intro x h0 h1; omega
  | succ k ih =>
    intro x h0 h1
    have e1 : x.tdiv REAL_BASE = x / 1000 := Int.tdiv_eq_ediv (le_of_lt h0) (by decide)
    have e2 : x.tmod REAL_BASE = x % 1000 := Int.tmod_eq_emod (le_of_lt h0) (by decide)
    have hx : x ≠ 0 := by omega
    simp only [constructLoop, hx, ne_eq, not_false_eq_true, if_true, e1, e2]
    by_cases hq : x / 1000 = 0
    · rw [hq, constructLoop_zero]
      refine ⟨by simp, ?_, ?_, ?_⟩
      · intro d hd
        simp only [List.mem_singleton] at hd
        rw [hd, REAL_BASE_eq]; omega
      · simp only [List.getLast?_singleton, ne_eq, Option.some.injEq]; omega
      · simp only [magnitude, REAL_BASE_eq]; omega
    · obtain ⟨g1, g2, g3, g4⟩ := ih (x / 1000) (by omega) (by omega)
      refine ⟨by simp, ?_, ?_, ?_⟩
      · intro d hd
        rcases List.mem_cons.mp hd with h | h
        · rw [h, REAL_BASE_eq]; omega
        · exact g2 d h
      · obtain ⟨e, l, hl⟩ := List.exists_cons_of_ne_nil g1
        rw [hl] at g3 ⊢
        rw [List.getLast?_cons_cons]; exact g3
      · simp only [magnitude, g4, REAL_BASE_eq]; omega

/-- The constructor on every native integer except `LLONG_MIN`: it returns the canonical
value that denotes the argument, with the sign flag set exactly for a negative argument. -/
theorem from_long_long_spec (n : Int) (h1 : LLONG_MIN < n) (h2 : n ≤ LLONG_MAX) :
    ∃ v, from_long_long n = some v ∧ canonical v ∧ toInt v = n ∧
      (v.is_negative = true ↔ n < 0) := by
  rw [LLONG_MIN] at h1
  unfold from_long_long
  by_cases h0 : n = 0
  · subst h0
    exact ⟨zero, rfl, canonical_zero, by decide, by decide⟩
  · rw [if_neg h0]
    by_cases hn : n < 0
    · have hov : ¬ (-n > LLONG_MAX) := by rw [LLONG_MAX]; omega
      rw [if_pos hn, if_neg hov]
      obtain ⟨g1, g2, g3, g4⟩ := constructLoop_spec (-n).toNat (-n) (by omega) (le_refl _)
      refine ⟨_, rfl, ⟨g1, g2, Or.inl g3, ?_⟩, ?_, ?_⟩
      · intro hz
        simp only at hz
        rw [hz] at g3; simp at g3
      · simp only [toInt, if_true, g4]; omega
      · simp [hn]
    · rw [if_neg hn]
      obtain ⟨g1, g2, g3, g4⟩ := constructLoop_spec n.toNat n (by omega) (le_refl _)
      refine ⟨_, rfl, ⟨g1, g2, Or.inl g3, fun _ => rfl⟩, ?_, ?_⟩
      · simp only [toInt, Bool.false_eq_true, if_false, g4]
      · simp [hn]

/-! ## The text written by `toString` -/

theorem stripChars_last :
    ∀ (k : Nat) (s : List Char), s ≠ [] → s.length ≤ k + 1 →
      stripChars k s ≠ [] ∧
      ((stripChars k s).getLast? ≠ some '0' ∨ stripChars k s = ['0']) := by
  intro k
  induction k with
  | zero =>
    intro s hne hl
    simp only [stripChars]
    refine ⟨hne, ?_⟩
    cases s with
    | nil => exact absurd rfl hne
    | cons c t =>
      cases t with
      | nil =>
        by_cases hc : c = '0'
        · right; rw [hc]
        · left; simpa using hc
      | cons d u => simp at hl
  | succ k ih =>
    intro s hne hl
    simp only [stripChars]
    by_cases hc : 1 < s.length ∧ s.getLast? = some '0'
    · rw [if_pos hc]
      apply ih
      · intro h0
        have := congrArg List.length h0
        simp only [List.length_dropLast, List.length_nil] at this
        omega
      · simp only [List.length_dropLast]; omega
    · rw [if_neg hc]
      refine ⟨hne, ?_⟩
      by_cases hz : s.getLast? = some '0'
      · right
        have hlen : s.length = 1 := by
          have := List.length_pos.mpr hne
          by_contra h
          exact hc ⟨by omega, hz⟩
        cases s with
        | nil => exact absurd rfl hne
        | cons c t =>
          cases t with
          | nil => simpa using hz
          | cons d u => simp at hlen
      · left; exact hz

/-- The text of a canonical value is the decimal writing of the integer it denotes: a minus
sign exactly for a negative value, then the digits of the magnitude with no leading zero
except for the text `0`. -/
theorem toString_decimal (a : BigInteger) (h : canonical a) :
    decimalText (toString a) (toInt a) := by
  cases a with
  | mk ds n =>
  obtain ⟨⟨c, hc, hcm⟩, hpad⟩ := strip_pad ds h.1 h.2.1 h.2.2.1
  have hfne : fillChars ds ≠ [] := by
    intro h0
    have e1 := congrArg List.length h0
    rw [fillChars_length, DIGIT_SIZE] at e1
    have e2 : 0 < ds.length := List.length_pos.mpr h.1
    simp only [List.length_nil] at e1
    omega
  obtain ⟨s1, s2⟩ := stripChars_last (fillChars ds).length (fillChars ds) hfne (by omega)
  have hdig : ∀ e ∈ stripChars (fillChars ds).length (fillChars ds), e.isDigit = true :=
    fun e he => fillChars_isDigit ds h.2.1 e (stripChars_subset _ _ e he)
  have hlen : (fillChars ds).length / DIGIT_SIZE = ds.length := by
    rw [fillChars_length]; simp [DIGIT_SIZE]
  obtain ⟨-, g2⟩ := read_digits (stripChars (fillChars ds).length (fillChars ds)) false s1 hdig
  rw [hpad, hlen, readAll_fillChars ds h.2.1, (deleteZeroes_spec ds false h.1 h.2.1).2] at g2
  simp only [Bool.false_eq_true, if_false, toInt] at g2
  have hm0 := magnitude_nonneg ds h.2.1
  have hsign : (toInt ⟨ds, n⟩ < 0) ↔ n = true := by
    cases n with
    | false => simp [toInt, hm0]
    | true =>
      have := canonical_neg_pos ⟨ds, true⟩ h rfl
      simp only [toInt, if_true]
      simp only at this
      constructor
      · intro _; trivial
      · intro _; omega
  have habs : |toInt ⟨ds, n⟩| = magnitude ds := by
    cases n with
    | false => simp only [toInt, Bool.false_eq_true, if_false]; exact abs_of_nonneg hm0
    | true => simp only [toInt, if_true, abs_neg]; exact abs_of_nonneg hm0
  refine ⟨(stripChars (fillChars ds).length (fillChars ds)).reverse, ?_, by simpa using s1,
    fun e he => hdig e (List.mem_reverse.mp he), ?_, ?_⟩
  · unfold toString
    cases n with
    | false =>
      have : ¬ (toInt ⟨ds, false⟩ < 0) := by rw [hsign]; simp
      simp [this]
    | true =>
      have : toInt ⟨ds, true⟩ < 0 := by rw [hsign]
      simp [this]
  · intro hh
    rw [List.head?_reverse] at hh
    rcases s2 with s2 | s2
    · exact absurd hh s2
    · rw [s2]; rfl
  · rw [habs, ← g2]

/-- The text of `BigInteger(n)` for every native integer `n` except `LLONG_MIN`: the decimal
writing of `n`. -/
theorem toString_from_long_long (n : Int) (h1 : LLONG_MIN < n) (h2 : n ≤ LLONG_MAX) :
    ∃ v, from_long_long n = some v ∧ decimalText (toString v) n := by
  obtain ⟨v, g1, g2, g3, -⟩ := from_long_long_spec n h1 h2
  exact ⟨v, g1, by rw [← g3]; exact toString_decimal v g2⟩

end BigInteger

namespace BigInteger

/-! ## `multiply_pow10` on a negative value -/

theorem multiply_pow10_digits (d : List Int) (s : Bool) (q : Nat) :
    (multiply_pow10 ⟨d, s⟩ q).digits = (multiply_pow10 ⟨d, false⟩ q).digits := by
  have hb : operator_bool ⟨d, s⟩ = operator_bool ⟨d, false⟩ := rfl
  unfold multiply_pow10
  rw [hb]
  cases operator_bool ⟨d, false⟩
  · rfl
  · simp only [if_true]
    split <;> rfl

theorem multiply_pow10_flag (m : BigInteger) (hm : canonical m) (q : Nat) :
    (multiply_pow10 m q).is_negative = (m.is_negative && decide (q % DIGIT_SIZE = 0)) := by
  unfold multiply_pow10
  cases hb : operator_bool m
  · have hd := operator_bool_false m.digits m.is_negative hb
    have := hm.2.2.2 hd
    simp [this]
  · simp only [if_true]
    by_cases hq : q % DIGIT_SIZE = 0
    · simp [hq]
    · simp only [hq, ne_eq, not_false_eq_true, if_true, decide_False, Bool.and_false]
      unfold multiply
      simp only [deleteZeroes]
      split <;> rfl

/-- The method `multiply_pow10(q)` on a canonical value of either sign: the result is
canonical and its magnitude is the magnitude times `10 ^ q`, but the sign flag survives only
when `q` is a multiple of 3; otherwise a negative value comes out positive. -/
theorem multiply_pow10_sign (m : BigInteger) (hm : canonical m) (q : Nat) :
    canonical (multiply_pow10 m q) ∧
    magnitude (multiply_pow10 m q).digits = magnitude m.digits * 10 ^ q ∧
    (multiply_pow10 m q).is_negative = (m.is_negative && decide (q % DIGIT_SIZE = 0)) := by
  cases m with
  | mk d s =>
  have hc : canonical ⟨d, false⟩ := ⟨hm.1, hm.2.1, hm.2.2.1, fun _ => rfl⟩
  obtain ⟨c1, c2, c3⟩ := multiply_pow10_spec ⟨d, false⟩ hc rfl q
  have hdig := multiply_pow10_digits d s q
  have hflag := multiply_pow10_flag ⟨d, s⟩ hm q
  rw [toInt_nonneg_eq _ c3, toInt_nonneg_eq _ rfl] at c2
  refine ⟨⟨by rw [hdig]; exact c1.1, by rw [hdig]; exact c1.2.1, by rw [hdig]; exact c1.2.2.1,
    ?_⟩, by rw [hdig]; exact c2, hflag⟩
  intro h0
  rw [hflag]
  cases s with
  | false => rfl
  | true =>
    exfalso
    have hp := canonical_neg_pos ⟨d, true⟩ hm rfl
    simp only at hp
    have hmag : magnitude (multiply_pow10 ⟨d, true⟩ q).digits = 0 := by
      rw [h0]; decide
    rw [hdig, c2] at hmag
    have h10 : (0 : Int) < 10 ^ q := by positivity
    have hpos := mul_pos hp h10
    simp only at hmag
    rw [hmag] at hpos
    exact absurd hpos (lt_irrefl _)

end BigInteger

namespace BigInteger

/-! ## The scalar product on canonical values -/

/-- C21: for a canonical value `a` and a scalar `0 <= k <= 1000`, `multiply(k)` leaves (and
`::multiply(a, k)` returns) the canonical non-negative value that denotes `|a| * k`; the
single carry pass writes every limb in `[0, 1000)`, and `k = 0` gives the zero value. -/
theorem multiply_scalar (a : BigInteger) (k : Int) (ha : canonical a) (h0 : 0 ≤ k)
    (h1 : k ≤ 1000) :
    canonical (multiply a k) ∧ (multiply a k).is_negative = false ∧
    toInt (multiply a k) = |toInt a| * k ∧ multiply_copy a k = multiply a k ∧
    (∀ d ∈ toCarry (a.digits.map (fun digit => digit * k)), 0 ≤ d ∧ d < REAL_BASE) ∧
    (k = 0 → multiply a k = zero) := by
  obtain ⟨c1, c2, c3⟩ := multiply_spec a.digits a.is_negative k ha.1 ha.2.1 h0 h1
  have hm0 := magnitude_nonneg a.digits ha.2.1
  have habs : |toInt a| = magnitude a.digits := by
    unfold toInt
    cases a.is_negative
    · simp only [Bool.false_eq_true, if_false]; exact abs_of_nonneg hm0
    · simp only [if_true, abs_neg]; exact abs_of_nonneg hm0
  have hm : ∀ t ∈ a.digits.map (fun digit => digit * k), 0 ≤ t ∧ t ≤ 999000 := by
    intro t ht
    obtain ⟨u, hu, rfl⟩ := List.mem_map.mp ht
    have := ha.2.1 u hu
    rw [REAL_BASE_eq] at this
    constructor
    · exact mul_nonneg this.1 h0
    · nlinarith
  obtain ⟨-, g2, -⟩ := toCarry_spec _ hm (by simpa using ha.1)
  refine ⟨c1, c3, by rw [habs]; exact c2, rfl, g2, ?_⟩
  intro hk
  apply toInt_injective _ _ c1 canonical_zero
  have hc2 : toInt (multiply a k) = magnitude a.digits * k := c2
  rw [hc2, hk]
  have hz : toInt zero = 0 := by decide
  rw [hz]; ring

/-- The scalar product applied to `-999` and the scalar `1000`: the carry pass leaves the
limbs `[0, 999]`, the value `999000` without a sign. -/
theorem multiply_scalar_witness :
    canonical ⟨[999], true⟩ ∧ multiply ⟨[999], true⟩ 1000 = ⟨[0, 999], false⟩ ∧
    multiply ⟨[999], true⟩ 0 = zero ∧
    (canonical (multiply ⟨[999], true⟩ 1000) ∧
    (multiply ⟨[999], true⟩ 1000).is_negative = false ∧
    toInt (multiply ⟨[999], true⟩ 1000) = |toInt ⟨[999], true⟩| * 1000 ∧
    multiply_copy ⟨[999], true⟩ 1000 = multiply ⟨[999], true⟩ 1000 ∧
    (∀ d ∈ toCarry ((⟨[999], true⟩ : BigInteger).digits.map (fun digit => digit * 1000)),
      0 ≤ d ∧ d < REAL_BASE) ∧
    ((1000 : Int) = 0 → multiply ⟨[999], true⟩ 1000 = zero)) :=
  ⟨by decide, by decide, by decide,
    multiply_scalar ⟨[999], true⟩ 1000 (by decide) (by decide) (by decide)⟩

/-! ## The limb accesses of the opposite-sign branch of `operator+=` -/

/-- The opposite-sign branch of `operator+=` on canonical operands leaves the vector exactly
when both operands have the same limb count, at least two, and the same most significant
limb. -/
theorem operator_add_assign_none_iff (a x : BigInteger) (ha : canonical a) (hx : canonical x)
    (hs : x.is_negative ≠ a.is_negative) :
    operator_add_assign a x = none ↔
      (a.digits.length = x.digits.length ∧ 2 ≤ a.digits.length ∧
        a.digits.getLast? = x.digits.getLast?) := by
  constructor
  · intro h
    by_contra hcon
    obtain ⟨c, hc, -⟩ := operator_add_assign_exact a x ha hx (by
      rintro ⟨-, g1, g2, g3⟩
      exact hcon ⟨g1, g2, g3⟩)
    rw [h] at hc
    cases hc
  · rintro ⟨g1, g2, g3⟩
    exact operator_add_assign_out_of_range a x hs g1 g2 g3

/-- C23 (failing input): `1005 += -1003`.  The scan pops the receiver's equal top limb and
leaves one limb; the subtraction loop runs `i` up to `x.digits.size() = 2`, and its second
iteration accesses `digits[1]` of the one-limb receiver. -/
theorem operator_add_assign_index_outside :
    canonical ⟨[5, 1], false⟩ ∧ canonical ⟨[3, 1], true⟩ ∧
    popEqual [3, 1] 1 [5, 1] = some (0, [5]) ∧
    ([5] : List Int).length = 1 ∧ ([3, 1] : List Int).length = 2 ∧
    subLoop [3, 1] 1 1 0 [5] 0 = some ([2], 0) ∧
    ([2] : List Int)[1]? = none ∧
    subLoop [3, 1] 1 2 0 [5] 0 = none ∧
    addOppositeSign ⟨[5, 1], false⟩ ⟨[3, 1], true⟩ = none ∧
    operator_add_assign ⟨[5, 1], false⟩ ⟨[3, 1], true⟩ = none := by
  decide

end BigInteger

namespace BigInteger

/-! ## What `div_mod` returns when it returns -/

/-- Every result of `operator-=` on canonical operands is the canonical value denoting the
difference. -/
theorem operator_sub_assign_some (a x c : BigInteger) (ha : canonical a) (hx : canonical x)
    (h : operator_sub_assign a x = some c) : canonical c ∧ toInt c = toInt a - toInt x := by
  by_cases hdef : x.is_negative = a.is_negative ∧ a.digits.length = x.digits.length ∧
      2 ≤ a.digits.length ∧ a.digits.getLast? = x.digits.getLast?
  · exfalso
    obtain ⟨g1, g2, g3, g4⟩ := hdef
    have hf := changeSign_flag a g3
    have hn : operator_add_assign (changeSign a) x = none := by
      apply operator_add_assign_out_of_range
      · rw [hf, g1]; cases a.is_negative <;> simp
      · rw [changeSign_digits]; exact g2
      · rw [changeSign_digits]; exact g3
      · rw [changeSign_digits]; exact g4
    unfold operator_sub_assign at h
    rw [hn] at h
    cases h
  · obtain ⟨c2, e1, e2, e3⟩ := operator_sub_assign_exact a x ha hx hdef
    rw [e1] at h
    cases h
    exact ⟨e2, e3⟩

theorem nonneg_of_toInt (c : BigInteger) (hc : canonical c) (h : 0 ≤ toInt c) :
    c.is_negative = false := by
  cases hn : c.is_negative
  · rfl
  · exfalso
    have := canonical_neg_pos c hc hn
    simp only [toInt, hn, if_true] at h
    omega

/-- The three ways one iteration of the `div_mod` loop can go, in terms of the remainder
`mod1` after the new limb is brought down. -/
theorem div_mod_step_cases (y : BigInteger) (divd : List Int) (mod : BigInteger)
    (hm : canonical mod) (hmn : mod.is_negative = false) (di : Int)
    (hdi : 0 ≤ di ∧ di < REAL_BASE) :
    ∃ mod1, canonical mod1 ∧ mod1.is_negative = false ∧
      magnitude mod1.digits = di + 1000 * magnitude mod.digits ∧
      (operator_cmp mod1 y = Ordering.lt →
        div_mod_step y divd mod di = some (divd ++ [0], mod1)) ∧
      (operator_cmp mod1 y ≠ Ordering.lt → ∀ mod2,
        operator_sub_assign mod1 (multiply_copy y (searchDigit y mod1 1000 0 REAL_BASE))
          = some mod2 →
        div_mod_step y divd mod di
          = some (divd ++ [searchDigit y mod1 1000 0 REAL_BASE], mod2)) ∧
      (operator_cmp mod1 y ≠ Ordering.lt →
        operator_sub_assign mod1 (multiply_copy y (searchDigit y mod1 1000 0 REAL_BASE))
          = none →
        div_mod_step y divd mod di = none) := by
  cases mod with
  | mk m n =>
  simp only at hmn
  subst hmn
  rcases hm.2.2.1 with hl | hl
  · simp only at hl
    refine ⟨⟨di :: m, false⟩, canonical_cons di m hdi hm.2.1 hm.1 hl, rfl, ?_, ?_, ?_, ?_⟩
    · simp only [magnitude, REAL_BASE_eq]
    · exact fun h => div_mod_step_cons_small y divd m di hm.1 hl h
    · exact fun h mod2 hs => div_mod_step_cons_taken y divd m di hm.1 hl h mod2 hs
    · exact fun h hs => div_mod_step_cons_none y divd m di hm.1 hl h hs
  · simp only at hl
    subst hl
    refine ⟨⟨[di], false⟩, canonical_single di hdi, rfl, ?_, ?_, ?_, ?_⟩
    · simp only [magnitude, REAL_BASE_eq]; ring
    · exact fun h => div_mod_step_zero_small y divd di h
    · exact fun h mod2 hs => div_mod_step_zero_taken y divd di h mod2 hs
    · exact fun h hs => div_mod_step_zero_none y divd di h hs

/-- One iteration of the `div_mod` loop with a positive divisor, when it returns: it appends
one quotient limb in `[0, 1000)` and leaves a canonical remainder below the divisor, with
`di + 1000 * mod = left * |x| + mod'`. -/
theorem div_mod_step_spec (y : BigInteger) (hy : canonical y) (hyn : y.is_negative = false)
    (hX : 0 < magnitude y.digits) (divd : List Int) (mod : BigInteger) (hm : canonical mod)
    (hmn : mod.is_negative = false) (hM : magnitude mod.digits < magnitude y.digits)
    (di : Int) (hdi : 0 ≤ di ∧ di < REAL_BASE) (st : List Int × BigInteger)
    (h : div_mod_step y divd mod di = some st) :
    ∃ left, st.1 = divd ++ [left] ∧ 0 ≤ left ∧ left < 1000 ∧ canonical st.2 ∧
      st.2.is_negative = false ∧ magnitude st.2.digits < magnitude y.digits ∧
      di + 1000 * magnitude mod.digits = left * magnitude y.digits + magnitude st.2.digits := by
  obtain ⟨mod1, c1, n1, v1, k1, k2, k3⟩ := div_mod_step_cases y divd mod hm hmn di hdi
  rw [REAL_BASE_eq] at hdi
  by_cases hcmp : operator_cmp mod1 y = Ordering.lt
  · rw [k1 hcmp] at h
    cases h
    have hlt := (magnitude_of_cmp_lt mod1 y c1 hy n1 hyn).mp hcmp
    exact ⟨0, rfl, le_refl _, by norm_num, c1, n1, hlt, by rw [v1]; ring⟩
  · have hge : magnitude y.digits ≤ magnitude mod1.digits := by
      by_contra hcon
      exact hcmp ((magnitude_of_cmp_lt mod1 y c1 hy n1 hyn).mpr (by omega))
    have hM1 : magnitude mod1.digits < 1000 * magnitude y.digits := by
      rw [v1]; omega
    have hq := searchDigit_quotient y mod1 hy c1 n1 hX hM1
    have hm0 := magnitude_nonneg mod1.digits c1.2.1
    have hq0 : 0 ≤ magnitude mod1.digits / magnitude y.digits :=
      Int.ediv_nonneg hm0 (le_of_lt hX)
    have hq1 : magnitude mod1.digits / magnitude y.digits < 1000 :=
      Int.ediv_lt_of_lt_mul hX hM1
    cases hs : operator_sub_assign mod1
        (multiply_copy y (searchDigit y mod1 1000 0 REAL_BASE)) with
    | none =>
      rw [k3 hcmp hs] at h
      cases h
    | some mod2 =>
      rw [k2 hcmp mod2 hs] at h
      cases h
      obtain ⟨p1, p2, -⟩ := multiply_spec y.digits y.is_negative
        (searchDigit y mod1 1000 0 REAL_BASE) hy.1 hy.2.1 (by rw [hq]; exact hq0)
        (by rw [hq]; omega)
      have hpc : canonical (multiply_copy y (searchDigit y mod1 1000 0 REAL_BASE)) := p1
      have hp : toInt (multiply_copy y (searchDigit y mod1 1000 0 REAL_BASE))
          = magnitude y.digits * searchDigit y mod1 1000 0 REAL_BASE := p2
      obtain ⟨s1, s2⟩ := operator_sub_assign_some mod1
        (multiply_copy y (searchDigit y mod1 1000 0 REAL_BASE)) mod2 c1 hpc hs
      rw [hp, toInt_nonneg_eq mod1 n1, hq] at s2
      have hmodeq : toInt mod2 = magnitude mod1.digits % magnitude y.digits := by
        rw [s2]
        have := Int.emod_add_ediv (magnitude mod1.digits) (magnitude y.digits)
        linarith
      have hr0 : 0 ≤ magnitude mod1.digits % magnitude y.digits :=
        Int.emod_nonneg _ (by omega)
      have hr1 : magnitude mod1.digits % magnitude y.digits < magnitude y.digits :=
        Int.emod_lt_of_pos _ hX
      have hn2 := nonneg_of_toInt mod2 s1 (by rw [hmodeq]; exact hr0)
      have hmag2 : magnitude mod2.digits = magnitude mod1.digits % magnitude y.digits := by
        rw [← toInt_nonneg_eq mod2 hn2]; exact hmodeq
      refine ⟨_, rfl, by rw [hq]; exact hq0, by rw [hq]; exact hq1, s1, hn2,
        by rw [hmag2]; exact hr1, ?_⟩
      simp only
      rw [hq, hmag2, ← v1]
      have := Int.emod_add_ediv (magnitude mod1.digits) (magnitude y.digits)
      linarith

/-- The `div_mod` loop with a positive divisor, when it returns: it appends one quotient
limb in `[0, 1000)` per dividend limb and leaves a canonical remainder below the divisor;
the limbs read, on top of the remainder it started from, are quotient times divisor plus
remainder. -/
theorem div_mod_loop_spec (y : BigInteger) (hy : canonical y) (hyn : y.is_negative = false)
    (hX : 0 < magnitude y.digits) :
    ∀ (rest divd : List Int) (mod : BigInteger) (st : List Int × BigInteger),
      (∀ d ∈ rest, 0 ≤ d ∧ d < REAL_BASE) → canonical mod → mod.is_negative = false →
      magnitude mod.digits < magnitude y.digits →
      div_mod_loop y rest divd mod = some st →
      ∃ t, st.1 = divd ++ t ∧ t.length = rest.length ∧ (∀ d ∈ t, 0 ≤ d ∧ d < REAL_BASE) ∧
        canonical st.2 ∧ st.2.is_negative = false ∧
        magnitude st.2.digits < magnitude y.digits ∧
        magnitude rest.reverse + 1000 ^ rest.length * magnitude mod.digits
          = magnitude t.reverse * magnitude y.digits + magnitude st.2.digits := by
  intro rest
  induction rest with
  | nil =>
    intro divd mod st _ hm hmn hM h
    simp only [div_mod_loop, Option.some.injEq] at h
    subst h
    exact ⟨[], by simp, rfl, by simp, hm, hmn, hM, by simp [magnitude]⟩
  | cons di rest ih =>
    intro divd mod st hrest hm hmn hM h
    have hdi := hrest di (List.mem_cons_self _ _)
    have hrest2 : ∀ d ∈ rest, 0 ≤ d ∧ d < REAL_BASE :=
      fun d hd => hrest d (List.mem_cons_of_mem _ hd)
    simp only [div_mod_loop] at h
    cases hs : div_mod_step y divd mod di with
    | none => rw [hs] at h; cases h
    | some s1 =>
      rw [hs] at h
      simp only at h
      obtain ⟨left, e1, l0, l1, c1, n1, m1, v1⟩ :=
        div_mod_step_spec y hy hyn hX divd mod hm hmn hM di hdi s1 hs
      have h2 : div_mod_loop y rest s1.1 s1.2 = some st := h
      obtain ⟨t, f1, f2, f3, f4, f5, f6, f7⟩ := ih s1.1 s1.2 st hrest2 c1 n1 m1 h2
      refine ⟨left :: t, ?_, by simp [f2], ?_, f4, f5, f6, ?_⟩
      · rw [f1, e1]; simp
      · intro d hd
        rcases List.mem_cons.mp hd with hd | hd
        · rw [hd, REAL_BASE_eq]; exact ⟨l0, l1⟩
        · exact f3 d hd
      · rw [List.reverse_cons, List.reverse_cons, magnitude_append, magnitude_append]
        simp only [List.length_reverse, f2, List.length_cons, magnitude, REAL_BASE_eq]
        rw [pow_succ]
        have e : (1000 : Int) ^ rest.length * (di + 1000 * 0) +
            1000 ^ rest.length * 1000 * magnitude mod.digits
            = 1000 ^ rest.length * (di + 1000 * magnitude mod.digits) := by ring
        linear_combination f7 + (1000 : Int) ^ rest.length * v1

/-- Every pair that `div_mod` returns for a canonical dividend and a canonical positive
divisor is canonical; the magnitudes are the quotient and the remainder of the magnitudes,
and a non-negative dividend gives a non-negative quotient and remainder. -/
theorem div_mod_spec (a y q r : BigInteger) (ha : canonical a) (hy : canonical y)
    (hyn : y.is_negative = false) (hX : 0 < magnitude y.digits)
    (h : div_mod a y = some (q, r)) :
    canonical q ∧ canonical r ∧
    magnitude q.digits = magnitude a.digits / magnitude y.digits ∧
    magnitude r.digits = magnitude a.digits % magnitude y.digits ∧
    (a.is_negative = false → q.is_negative = false ∧ r.is_negative = false) := by
  unfold div_mod at h
  cases hl : div_mod_loop y a.digits.reverse [0] zero with
  | none => rw [hl] at h; cases h
  | some st =>
    rw [hl] at h
    obtain ⟨D, mod⟩ := st
    simp only [Option.some.injEq, Prod.mk.injEq] at h
    obtain ⟨hq, hr⟩ := h
    obtain ⟨t, f1, f2, f3, f4, f5, f6, f7⟩ := div_mod_loop_spec y hy hyn hX a.digits.reverse
      [0] zero (D, mod) (fun d hd => ha.2.1 d (List.mem_reverse.mp hd)) canonical_zero rfl
      (by simpa [zero, magnitude] using hX) hl
    simp only at f1 f4 f5 f6 f7
    have hz : magnitude zero.digits = 0 := by decide
    rw [List.reverse_reverse, hz, mul_zero, add_zero] at f7
    have hDr : D.reverse = t.reverse ++ [0] := by rw [f1]; simp
    have hDrange : ∀ d ∈ D.reverse, 0 ≤ d ∧ d < REAL_BASE := by
      rw [hDr]
      apply mem_range_append
      · exact fun d hd => f3 d (List.mem_reverse.mp hd)
      · intro d hd
        simp only [List.mem_singleton] at hd
        rw [hd, REAL_BASE_eq]; omega
    have hDmag : magnitude D.reverse = magnitude t.reverse := by
      rw [hDr, magnitude_append]; simp [magnitude]
    obtain ⟨q1, q2⟩ := deleteZeroes_spec D.reverse (xor a.is_negative y.is_negative)
      (by rw [hDr]; simp) hDrange
    rw [hq] at q1 q2
    have hqm : magnitude q.digits = magnitude t.reverse := by
      rw [← hDmag]
      have e1 : toInt q = if q.is_negative then -magnitude q.digits else magnitude q.digits :=
        rfl
      have hq0 := magnitude_nonneg q.digits q1.2.1
      have hD0 := magnitude_nonneg D.reverse hDrange
      simp only [toInt] at q2
      cases hqn : q.is_negative <;> cases hxn : xor a.is_negative y.is_negative <;>
        simp only [hqn, hxn, Bool.false_eq_true, if_false, if_true] at q2 <;> omega
    have ht0 := magnitude_nonneg t.reverse (fun d hd => f3 d (List.mem_reverse.mp hd))
    have hm0 := magnitude_nonneg mod.digits f4.2.1
    have hdivmod : magnitude t.reverse = magnitude a.digits / magnitude y.digits ∧
        magnitude mod.digits = magnitude a.digits % magnitude y.digits := by
      have e := Int.emod_add_ediv (magnitude a.digits) (magnitude y.digits)
      have hdiv : magnitude a.digits / magnitude y.digits = magnitude t.reverse := by
        rw [f7]
        rw [Int.add_ediv_of_dvd_left (Dvd.intro_left _ rfl),
          Int.mul_ediv_cancel _ (by omega), Int.ediv_eq_zero_of_lt hm0 f6]
        ring
      constructor
      · exact hdiv.symm
      · rw [hdiv] at e
        have : magnitude y.digits * magnitude t.reverse
            = magnitude t.reverse * magnitude y.digits := by ring
        omega
    have hrc : canonical r := by
      rw [← hr]
      refine ⟨f4.1, f4.2.1, f4.2.2.1, ?_⟩
      intro h0
      simp only at h0
      have : operator_bool mod = false := by
        cases mod with
        | mk md mn => simp only at h0; subst h0; rfl
      simp [this]
    have hrm : magnitude r.digits = magnitude mod.digits := by rw [← hr]
    refine ⟨q1, hrc, by rw [hqm]; exact hdivmod.1, by rw [hrm]; exact hdivmod.2, ?_⟩
    intro han
    constructor
    · have : toInt q = magnitude D.reverse := by
        rw [q2]; simp [toInt, han, hyn]
      exact nonneg_of_toInt q q1 (by rw [this, hDmag]; exact ht0)
    · rw [← hr]; simp [han]

end BigInteger

namespace BigInteger

/-! ## The function `gcd` -/

theorem int_gcd_rec (A B : Int) (hA : 0 ≤ A) (hB : 0 ≤ B) :
    Int.gcd A B = Int.gcd B (A % B) := by
  obtain ⟨n, rfl⟩ := Int.eq_ofNat_of_zero_le hA
  obtain ⟨m, rfl⟩ := Int.eq_ofNat_of_zero_le hB
  rw [← Int.ofNat_emod]
  simp only [Int.gcd_natCast_natCast]
  rw [Nat.gcd_comm n m, Nat.gcd_rec m n, Nat.gcd_comm]

theorem operator_bool_pos (b : BigInteger) (hb : canonical b) (h : operator_bool b = true) :
    0 < magnitude b.digits := by
  have hd0 : b.digits ≠ [0] := by
    intro h0
    have : operator_bool b = false := by
      cases b with
      | mk d n => simp only at h0; subst h0; rfl
    rw [this] at h; cases h
  have h4 := pow_le_magnitude b.digits hb.2.1 hb.1 (canonical_last b hb hd0)
  have h5 : (0 : Int) < 1000 ^ (b.digits.length - 1) := by positivity
  omega

/-- Every result of `operator%=` on a canonical non-negative dividend and a canonical
positive divisor is the canonical non-negative remainder. -/
theorem operator_mod_assign_spec (a y r : BigInteger) (ha : canonical a)
    (han : a.is_negative = false) (hy : canonical y) (hyn : y.is_negative = false)
    (hX : 0 < magnitude y.digits) (h : operator_mod_assign a y = some r) :
    canonical r ∧ r.is_negative = false ∧
    magnitude r.digits = magnitude a.digits % magnitude y.digits := by
  unfold operator_mod_assign at h
  cases hd : div_mod a y with
  | none => rw [hd] at h; cases h
  | some qr =>
    obtain ⟨q, r2⟩ := qr
    rw [hd] at h
    simp only [Option.some.injEq] at h
    subst h
    obtain ⟨-, g2, -, g4, g5⟩ := div_mod_spec a y q r2 ha hy hyn hX hd
    exact ⟨g2, (g5 han).2, g4⟩

/-- Every result of the loop of `gcd` on canonical non-negative operands is the canonical
non-negative value of their greatest common divisor. -/
theorem gcdLoop_spec :
    ∀ (k : Nat) (a b g : BigInteger), canonical a → a.is_negative = false → canonical b →
      b.is_negative = false → gcdLoop k a b = some g →
      canonical g ∧ g.is_negative = false ∧
      magnitude g.digits = (Int.gcd (magnitude a.digits) (magnitude b.digits) : Nat) := by
  intro k
  induction k with
  | zero => intro a b g _ _ _ _ h; simp [gcdLoop] at h
  | succ k ih =>
    intro a b g ha han hb hbn h
    have hA := magnitude_nonneg a.digits ha.2.1
    have hB := magnitude_nonneg b.digits hb.2.1
    simp only [gcdLoop] at h
    cases hbool : operator_bool b
    · rw [hbool] at h
      simp only [Bool.false_eq_true, if_false, Option.some.injEq] at h
      subst h
      have hd := operator_bool_false b.digits b.is_negative hbool
      refine ⟨ha, han, ?_⟩
      rw [hd]
      have hz : magnitude [0] = 0 := by decide
      rw [hz, Int.gcd_zero_right, Int.natAbs_of_nonneg hA]
    · rw [hbool] at h
      simp only [if_true] at h
      have hX := operator_bool_pos b hb hbool
      cases hm : operator_mod_assign a b with
      | none => rw [hm] at h; cases h
      | some r =>
        rw [hm] at h
        simp only at h
        obtain ⟨r1, r2, r3⟩ := operator_mod_assign_spec a b r ha han hb hbn hX hm
        obtain ⟨g1, g2, g3⟩ := ih b r g hb hbn r1 r2 h
        refine ⟨g1, g2, ?_⟩
        rw [g3, r3, int_gcd_rec _ _ hA hB]

/-- The iteration bound of the loop of `gcd` is never what stops it: any two bounds above
the magnitude of the second operand give the same outcome. -/
theorem gcdLoop_fuel :
    ∀ (k k2 : Nat) (a b : BigInteger), canonical a → a.is_negative = false → canonical b →
      b.is_negative = false → (magnitude b.digits).toNat < k →
      (magnitude b.digits).toNat < k2 → gcdLoop k a b = gcdLoop k2 a b := by
  intro k
  induction k with
  | zero => intro k2 a b _ _ _ _ h; omega
  | succ k ih =>
    intro k2 a b ha han hb hbn h1 h2
    cases k2 with
    | zero => omega
    | succ k2 =>
      simp only [gcdLoop]
      cases hbool : operator_bool b
      · simp only [Bool.false_eq_true, if_false]
      · simp only [if_true]
        have hX := operator_bool_pos b hb hbool
        cases hm : operator_mod_assign a b with
        | none => rfl
        | some r =>
          simp only
          obtain ⟨r1, r2, r3⟩ := operator_mod_assign_spec a b r ha han hb hbn hX hm
          have hlt : magnitude r.digits < magnitude b.digits := by
            rw [r3]; exact Int.emod_lt_of_pos _ hX
          have hr0 := magnitude_nonneg r.digits r1.2.1
          exact ih k2 b r hb hbn r1 r2 (by omega) (by omega)

theorem applyAbs_spec (a : BigInteger) (h : canonical a) :
    canonical (applyAbs a) ∧ (applyAbs a).is_negative = false ∧
    magnitude (applyAbs a).digits = magnitude a.digits :=
  ⟨⟨h.1, h.2.1, h.2.2.1, fun _ => rfl⟩, rfl, rfl⟩

/-- Every result of `gcd` on canonical operands is the canonical non-negative value of the
greatest common divisor of the denoted integers. -/
theorem gcd_spec (a b g : BigInteger) (ha : canonical a) (hb : canonical b)
    (h : gcd a b = some g) :
    canonical g ∧ g.is_negative = false ∧ toInt g = (Int.gcd (toInt a) (toInt b) : Nat) := by
  obtain ⟨a1, a2, a3⟩ := applyAbs_spec a ha
  obtain ⟨b1, b2, b3⟩ := applyAbs_spec b hb
  unfold gcd at h
  obtain ⟨g1, g2, g3⟩ := gcdLoop_spec _ _ _ g a1 a2 b1 b2 h
  refine ⟨g1, g2, ?_⟩
  rw [toInt_nonneg_eq g g2, g3, a3, b3]
  have e1 : Int.gcd (toInt a) (toInt b) = Int.gcd (magnitude a.digits) (magnitude b.digits) := by
    unfold toInt
    cases a.is_negative <;> cases b.is_negative <;>
      simp only [Bool.false_eq_true, if_false, if_true, Int.neg_gcd, Int.gcd_neg]
  rw [e1]

/-- With a zero second operand `gcd` returns the magnitude of the first: the loop body does
not run. -/
theorem gcd_zero (a : BigInteger) : gcd a zero = some (applyAbs a) := by
  simp [gcd, gcdLoop, applyAbs, zero, operator_bool, magnitude]

end BigInteger

namespace BigInteger

/-! ## The opposite-sign branch of `operator+=` with popped limbs kept in the storage -/

theorem subLoop_length (xd : List Int) (sign : Int) :
    ∀ (k i : Nat) (d : List Int) (carry : Int) (r : List Int × Int),
      subLoop xd sign k i d carry = some r → r.1.length = d.length := by
  intro k
  induction k with
  | zero =>
    intro i d carry r h
    simp only [subLoop, Option.some.injEq] at h
    rw [← h]
  | succ k ih =>
    intro i d carry r h
    simp only [subLoop] at h
    cases hd : d[i]? with
    | none => rw [hd] at h; cases h
    | some di =>
      cases hx : xd[i]? with
      | none => rw [hd, hx] at h; cases h
      | some xi =>
        rw [hd, hx] at h
        simp only at h
        split at h
        · have := ih _ _ _ r h
          rw [this, List.length_set]
        · have := ih _ _ _ r h
          rw [this, List.length_set]

theorem subLoop_some_length (xd : List Int) (sign : Int) (k : Nat) (d : List Int)
    (carry : Int) (r : List Int × Int) (h : subLoop xd sign k 0 d carry = some r) :
    k ≤ d.length := by
  by_contra hcon
  rw [subLoop_short xd sign k 0 d carry (Nat.zero_le _) (by omega)] at h
  cases h

theorem borrowRipple_length :
    ∀ (k i : Nat) (d : List Int) (r : Nat × List Int),
      borrowRipple k i d = some r → r.2.length = d.length := by
  intro k
  induction k with
  | zero => intro i d r h; simp [borrowRipple] at h
  | succ k ih =>
    intro i d r h
    simp only [borrowRipple] at h
    cases hd : d[i]? with
    | none => rw [hd] at h; cases h
    | some di =>
      rw [hd] at h
      simp only at h
      split at h
      · have := ih _ _ r h
        rw [this, List.length_set]
      · simp only [Option.some.injEq] at h
        rw [← h]

theorem borrowOut_length (i : Nat) (d d2 : List Int) (h : borrowOut i d = some d2) :
    d2.length = d.length := by
  unfold borrowOut at h
  cases hb : borrowRipple (d.length + 1) i d with
  | none => rw [hb] at h; cases h
  | some r =>
    obtain ⟨j, e⟩ := r
    rw [hb] at h
    simp only at h
    have hl := borrowRipple_length _ _ _ _ hb
    simp only at hl
    cases he : e[j]? with
    | none => rw [he] at h; cases h
    | some v =>
      rw [he] at h
      simp only [Option.some.injEq] at h
      rw [← h, List.length_set, hl]

/-- The scan of `operator+=` leaves a prefix of the limbs: it pops the limbs above the
index `j` it stops at, all equal to those of `x`, and stops at index 0 or at a limb that
differs. -/
theorem popEqual_spec (xd : List Int) :
    ∀ (i : Nat) (d : List Int), d.length = i + 1 → i + 1 ≤ xd.length →
      ∃ j, popEqual xd i d = some (j, d.take (j + 1)) ∧ j ≤ i ∧
        (∀ m, j < m → m ≤ i → d[m]? = xd[m]?) ∧ (j = 0 ∨ d[j]? ≠ xd[j]?) := by
  intro i
  induction i with
  | zero =>
    intro d hd _
    refine ⟨0, ?_, le_refl _, ?_, Or.inl rfl⟩
    · simp only [popEqual]
      rw [List.take_of_length_le (by omega)]
    · intro m h1 h2; omega
  | succ i ih =>
    intro d hd hx
    obtain ⟨di, hdi⟩ : ∃ t, d[i + 1]? = some t :=
      ⟨d[i + 1], List.getElem?_eq_getElem (by omega)⟩
    obtain ⟨xi, hxi⟩ : ∃ t, xd[i + 1]? = some t :=
      ⟨xd[i + 1], List.getElem?_eq_getElem (by omega)⟩
    simp only [popEqual, hdi, hxi]
    by_cases heq : di = xi
    · rw [if_pos heq]
      obtain ⟨j, h1, h2, h3, h4⟩ := ih d.dropLast (by simp [hd]) (by omega)
      have hdl : d.dropLast = d.take (i + 1) := by
        rw [List.dropLast_eq_take, hd]; rfl
      have hget : ∀ m, m ≤ i → d.dropLast[m]? = d[m]? := by
        intro m hm
        rw [hdl, List.getElem?_take_of_lt (by omega)]
      refine ⟨j, ?_, by omega, ?_, ?_⟩
      · rw [h1, hdl, List.take_take, Nat.min_eq_left (by omega)]
      · intro m hm1 hm2
        by_cases hm : m ≤ i
        · rw [← hget m hm]; exact h3 m hm1 hm
        · have : m = i + 1 := by omega
          rw [this, hdi, hxi, heq]
      · rcases h4 with h4 | h4
        · exact Or.inl h4
        · right; rw [← hget j h2]; exact h4
    · rw [if_neg heq]
      refine ⟨i + 1, ?_, le_refl _, ?_, ?_⟩
      · rw [List.take_of_length_le (by omega)]
      · intro m h1 h2; omega
      · right; rw [hdi, hxi]
        intro h0
        simp only [Option.some.injEq] at h0
        exact heq h0

theorem subLoop_add (xd : List Int) (sign : Int) :
    ∀ (k1 k2 i : Nat) (d : List Int) (c : Int) (d1 : List Int) (c1 : Int),
      subLoop xd sign k1 i d c = some (d1, c1) →
      subLoop xd sign (k1 + k2) i d c = subLoop xd sign k2 (i + k1) d1 c1 := by
  intro k1
  induction k1 with
  | zero =>
    intro k2 i d c d1 c1 h
    simp only [subLoop, Option.some.injEq, Prod.mk.injEq] at h
    rw [h.1, h.2]; simp
  | succ k1 ih =>
    intro k2 i d c d1 c1 h
    rw [show k1 + 1 + k2 = (k1 + k2) + 1 by omega]
    simp only [subLoop] at h ⊢
    cases hd : d[i]? with
    | none => rw [hd] at h; cases h
    | some di =>
      cases hx : xd[i]? with
      | none => rw [hd, hx] at h; cases h
      | some xi =>
        rw [hd, hx] at h
        simp only at h ⊢
        split at h
        · rename_i hv
          rw [if_pos hv, ih k2 _ _ _ d1 c1 h]
          congr 1; omega
        · rename_i hv
          rw [if_neg hv, ih k2 _ _ _ d1 c1 h]
          congr 1; omega

/-- The two readings of the opposite-sign branch agree wherever the strict one has a
result. -/
theorem addOppositeSignKept_of_some (a x c : BigInteger) (h : addOppositeSign a x = some c) :
    addOppositeSignKept a x = some c := by
  unfold addOppositeSign at h
  unfold addOppositeSignKept
  cases hal : alignSign a x with
  | none => rw [hal] at h; cases h
  | some p =>
    obtain ⟨d0, neg⟩ := p
    rw [hal] at h
    simp only at h ⊢
    cases hs : subLoop x.digits (1 - 2 * if neg = x.is_negative then 1 else 0)
        x.digits.length 0 d0 0 with
    | none => rw [hs] at h; cases h
    | some r =>
      obtain ⟨d1, carry⟩ := r
      have hlen := subLoop_some_length _ _ _ _ _ _ hs
      have hl1 := subLoop_length _ _ _ _ _ _ _ hs
      simp only at hl1
      have hstore : (if x.digits.length ≥ a.digits.length
          then resize a.digits x.digits.length else a.digits) = d0 := by
        unfold alignSign at hal
        by_cases hge : x.digits.length ≥ a.digits.length
        · rw [if_pos hge] at hal ⊢
          by_cases h0 : x.digits.length = 0
          · rw [if_pos h0] at hal; cases hal
          · rw [if_neg h0] at hal
            obtain ⟨j, p1, p2, -, -⟩ := popEqual_spec x.digits (x.digits.length - 1)
              (resize a.digits x.digits.length) (by rw [resize_length]; omega) (by omega)
            rw [p1] at hal
            simp only at hal
            split at hal
            · simp only [Option.some.injEq, Prod.mk.injEq] at hal
              have hd0 := hal.1
              rw [← hd0] at hlen
              simp only [List.length_take, resize_length] at hlen
              rw [← hd0, List.take_of_length_le (by rw [resize_length]; omega)]
            · cases hal
        · rw [if_neg hge] at hal ⊢
          simp only [Option.some.injEq, Prod.mk.injEq] at hal
          exact hal.1
      rw [hstore, hs]
      rw [hs] at h
      simp only at h ⊢
      by_cases hc : carry ≠ 0
      · rw [if_pos hc] at h ⊢
        cases hb : borrowOut x.digits.length d1 with
        | none => rw [hb] at h; cases h
        | some d2 =>
          rw [hb] at h
          simp only at h ⊢
          have hl2 := borrowOut_length _ _ _ hb
          rw [List.take_of_length_le (by omega)]
          exact h
      · rw [if_neg hc] at h ⊢
        rw [List.take_of_length_le (by omega)]
        exact h

end BigInteger

namespace BigInteger

theorem subLoop_nonneg_no_borrow (r : List Int) (c v : Int) (k : Nat)
    (hr : ∀ d ∈ r, 0 ≤ d ∧ d < REAL_BASE) (hk : r.length = k) (hc : c = 0 ∨ c = 1)
    (h : magnitude r - c * 1000 ^ k = v) (hv : 0 ≤ v) : c = 0 ∧ magnitude r = v := by
  have hb := magnitude_lt_pow r hr
  rw [hk] at hb
  rcases hc with hc | hc
  · subst hc; exact ⟨rfl, by linarith⟩
  · subst hc; exfalso; linarith

/-- The opposite-sign branch of `operator+=` on canonical operands of the same limb count,
with popped limbs kept in the storage: the iterations over the popped slots write zero
without a borrow, and the result is the canonical value that denotes the sum. -/
theorem addOppositeSignKept_same_length (a x : BigInteger) (ha : canonical a)
    (hx : canonical x) (hs : x.is_negative ≠ a.is_negative)
    (hlen : a.digits.length = x.digits.length) :
    ∃ c, addOppositeSignKept a x = some c ∧ canonical c ∧ toInt c = toInt a + toInt x := by
  have hal : 0 < a.digits.length := List.length_pos.mpr ha.1
  have hxa : x.is_negative = !a.is_negative := by
    cases h1 : a.is_negative <;> cases h2 : x.is_negative <;> simp_all
  have hres : resize a.digits x.digits.length = a.digits := by
    rw [← hlen]; exact resize_same _
  obtain ⟨j, p1, p2, p3, p4⟩ := popEqual_spec x.digits (x.digits.length - 1) a.digits
    (by omega) (by omega)
  obtain ⟨dj, hdj⟩ : ∃ t, a.digits[j]? = some t :=
    ⟨a.digits[j], List.getElem?_eq_getElem (by omega)⟩
  obtain ⟨xj, hxj⟩ : ∃ t, x.digits[j]? = some t :=
    ⟨x.digits[j], List.getElem?_eq_getElem (by omega)⟩
  have htk : (a.digits.take (j + 1))[j]? = some dj := by
    rw [List.getElem?_take_of_lt (by omega)]; exact hdj
  have htkx : (x.digits.take (j + 1))[j]? = some xj := by
    rw [List.getElem?_take_of_lt (by omega)]; exact hxj
  have halign : alignSign a x
      = some (a.digits.take (j + 1), xor a.is_negative (decide (dj < xj))) := by
    unfold alignSign
    rw [if_pos (by omega), if_neg (by omega), hres, p1]
    simp only [htk, hxj]
  have hxhi : x.digits.drop (j + 1) = a.digits.drop (j + 1) := by
    apply List.ext_getElem?
    intro m
    rw [List.getElem?_drop, List.getElem?_drop]
    by_cases hm : j + 1 + m ≤ x.digits.length - 1
    · exact (p3 (j + 1 + m) (by omega) hm).symm
    · rw [List.getElem?_eq_none (by omega), List.getElem?_eq_none (by omega)]
  have ha_eq : a.digits.take (j + 1) ++ a.digits.drop (j + 1) = a.digits :=
    List.take_append_drop _ _
  have hx_eq : x.digits.take (j + 1) ++ a.digits.drop (j + 1) = x.digits := by
    rw [← hxhi]; exact List.take_append_drop _ _
  have hlo_len : (a.digits.take (j + 1)).length = j + 1 := by
    rw [List.length_take]; omega
  have hxlo_len : (x.digits.take (j + 1)).length = j + 1 := by
    rw [List.length_take]; omega
  have hhi_len : j + 1 + (a.digits.drop (j + 1)).length = x.digits.length := by
    rw [List.length_drop]; omega
  have hlo_r : ∀ d ∈ a.digits.take (j + 1), 0 ≤ d ∧ d < REAL_BASE :=
    fun d hd => ha.2.1 d (List.mem_of_mem_take hd)
  have hxlo_r : ∀ d ∈ x.digits.take (j + 1), 0 ≤ d ∧ d < REAL_BASE :=
    fun d hd => hx.2.1 d (List.mem_of_mem_take hd)
  have hhi_r : ∀ d ∈ a.digits.drop (j + 1), 0 ≤ d ∧ d < REAL_BASE :=
    fun d hd => ha.2.1 d (List.mem_of_mem_drop hd)
  have hlo_last : (a.digits.take (j + 1)).getLast? = some dj := by
    rw [List.getLast?_eq_getElem?, hlo_len]; exact htk
  have hxlo_last : (x.digits.take (j + 1)).getLast? = some xj := by
    rw [List.getLast?_eq_getElem?, hxlo_len]; exact htkx
  have hma : magnitude a.digits = magnitude (a.digits.take (j + 1))
      + 1000 ^ (j + 1) * magnitude (a.digits.drop (j + 1)) := by
    conv_lhs => rw [← ha_eq]
    rw [magnitude_append, hlo_len]
  have hmx : magnitude x.digits = magnitude (x.digits.take (j + 1))
      + 1000 ^ (j + 1) * magnitude (a.digits.drop (j + 1)) := by
    conv_lhs => rw [← hx_eq]
    rw [magnitude_append, hxlo_len]
  generalize hlo : a.digits.take (j + 1) = lo at *
  generalize hxlo : x.digits.take (j + 1) = xlo at *
  generalize hhi : a.digits.drop (j + 1) = hi at *
  -- the loop over the whole storage, for either direction
  have hloop : ∀ sign : Int, (sign = 1 ∨ sign = -1) →
      0 ≤ sign * (magnitude lo - magnitude xlo) →
      ∃ r r2, subLoop x.digits sign x.digits.length 0 a.digits 0 = some (r ++ r2, 0) ∧
        r.length = j + 1 ∧ (∀ d ∈ r, 0 ≤ d ∧ d < REAL_BASE) ∧
        magnitude r = sign * (magnitude lo - magnitude xlo) := by
    intro sign hsign hpos
    obtain ⟨r, c, h1, h2, h3, h4, h5⟩ := subLoop_spec sign hsign (j + 1) [] (lo ++ hi) []
      (xlo ++ hi) 0 rfl (by simp [hlo_len]) (by simp [hxlo_len]) (Or.inl rfl)
      (mem_range_append _ _ hlo_r hhi_r) (mem_range_append _ _ hxlo_r hhi_r)
    have e1 : (lo ++ hi).take (j + 1) = lo := by
      rw [← hlo_len]; exact List.take_left' rfl
    have e2 : (xlo ++ hi).take (j + 1) = xlo := by
      rw [← hxlo_len]; exact List.take_left' rfl
    have e3 : (lo ++ hi).drop (j + 1) = hi := by
      rw [← hlo_len]; exact List.drop_left' rfl
    simp only [List.nil_append, List.length_nil, e1, e2, e3, Int.sub_zero] at h1 h5
    obtain ⟨hc, hm⟩ := subLoop_nonneg_no_borrow r c _ (j + 1) h4 h2 h3 h5 hpos
    subst hc
    obtain ⟨r2, c2, k1, k2, k3, k4, k5⟩ := subLoop_spec sign hsign hi.length r hi xlo hi 0
      (by rw [h2, hxlo_len]) (le_refl _) (le_refl _) (Or.inl rfl) hhi_r hhi_r
    simp only [List.take_length, sub_self, mul_zero, Int.sub_zero, List.drop_length,
      List.append_nil] at k1 k5
    obtain ⟨hc2, -⟩ := subLoop_nonneg_no_borrow r2 c2 0 hi.length k4 k2 k3 k5 (le_refl _)
    subst hc2
    refine ⟨r, r2, ?_, h2, h4, hm⟩
    rw [← hhi_len, ← hx_eq, ← ha_eq, subLoop_add _ _ (j + 1) hi.length 0 _ 0 _ 0 h1,
      Nat.zero_add, ← h2]
    exact k1
  have hfinish : ∀ (sign : Int) (neg : Bool) (r r2 : List Int), r.length = j + 1 →
      (∀ d ∈ r, 0 ≤ d ∧ d < REAL_BASE) →
      ∃ c, deleteZeroes ⟨(r ++ r2).take lo.length, neg⟩ = c ∧ canonical c ∧
        toInt c = toInt ⟨r, neg⟩ := by
    intro sign neg r r2 hr1 hr2
    have : (r ++ r2).take lo.length = r := by
      rw [hlo_len, ← hr1]; exact List.take_left' rfl
    rw [this]
    have hne : r ≠ [] := by
      intro h0; rw [h0] at hr1; simp at hr1
    obtain ⟨g1, g2⟩ := deleteZeroes_spec r neg hne hr2
    exact ⟨_, rfl, g1, g2⟩
  unfold addOppositeSignKept
  simp only [halign, if_pos (show x.digits.length ≥ a.digits.length by omega), hres]
  by_cases hlt : dj < xj
  · have hmag : magnitude lo < magnitude xlo :=
      magnitude_lt_of_top_lt _ _ dj xj hlo_r hxlo_r (by rw [hlo_len, hxlo_len]) hlo_last
        hxlo_last hlt
    have hsg : (if xor a.is_negative (decide (dj < xj)) = x.is_negative then (1 : Int) else 0)
        = 1 := by
      rw [if_pos]; rw [hxa]; simp [hlt]
    obtain ⟨r, r2, l1, l2, l3, l4⟩ := hloop (-1) (Or.inr rfl) (by linarith)
    obtain ⟨c, f1, f2, f3⟩ := hfinish (-1) (xor a.is_negative (decide (dj < xj))) r r2 l2 l3
    simp only [hsg, show (1 : Int) - 2 * 1 = -1 by norm_num, l1, ne_eq, not_true_eq_false,
      if_false]
    refine ⟨c, by rw [f1], f2, ?_⟩
    rw [f3]
    simp only [toInt, l4, hma, hmx, hxa, hlt, decide_True]
    cases a.is_negative <;> simp <;> ring
  · have hmag : magnitude xlo ≤ magnitude lo := by
      rcases p4 with h0 | h0
      · subst h0
        rw [magnitude_of_length_one _ xj (by rw [hxlo_len]) hxlo_last,
          magnitude_of_length_one _ dj (by rw [hlo_len]) hlo_last]
        omega
      · have hne : dj ≠ xj := by
          intro h1; apply h0; rw [hdj, hxj, h1]
        have : xj < dj := by omega
        exact le_of_lt (magnitude_lt_of_top_lt _ _ xj dj hxlo_r hlo_r
          (by rw [hlo_len, hxlo_len]) hxlo_last hlo_last this)
    have hsg : (if xor a.is_negative (decide (dj < xj)) = x.is_negative then (1 : Int) else 0)
        = 0 := by
      rw [if_neg]; rw [hxa]; simp [hlt]
    obtain ⟨r, r2, l1, l2, l3, l4⟩ := hloop 1 (Or.inl rfl) (by linarith)
    obtain ⟨c, f1, f2, f3⟩ := hfinish 1 (xor a.is_negative (decide (dj < xj))) r r2 l2 l3
    simp only [hsg, Int.mul_zero, Int.sub_zero, l1, ne_eq, not_true_eq_false, if_false]
    refine ⟨c, by rw [f1], f2, ?_⟩
    rw [f3]
    simp only [toInt, l4, hma, hmx, hxa, hlt, decide_False]
    cases a.is_negative <;> simp <;> ring

end BigInteger

namespace BigInteger

/-! ## The assignments `operator+=` and `operator-=` with popped limbs kept in the storage -/

/-- The two readings of `operator+=` agree wherever the strict one has a result. -/
theorem add_kept_of_some (a x c : BigInteger) (h : operator_add_assign a x = some c) :
    operator_add_assign_kept a x = some c := by
  unfold operator_add_assign at h
  unfold operator_add_assign_kept
  by_cases hs : x.is_negative = a.is_negative
  · rw [if_pos hs] at h ⊢; exact h
  · rw [if_neg hs] at h ⊢; exact addOppositeSignKept_of_some a x c h

/-- The assignment `operator+=` on canonical operands, with popped limbs kept in the
storage: it always returns, and the result is the canonical value that denotes the sum. -/
theorem add_kept_spec (a x : BigInteger) (ha : canonical a) (hx : canonical x) :
    ∃ c, operator_add_assign_kept a x = some c ∧ canonical c ∧
      toInt c = toInt a + toInt x := by
  by_cases hdef : x.is_negative ≠ a.is_negative ∧ a.digits.length = x.digits.length
  · obtain ⟨c, h1, h2, h3⟩ := addOppositeSignKept_same_length a x ha hx hdef.1 hdef.2
    refine ⟨c, ?_, h2, h3⟩
    unfold operator_add_assign_kept
    rw [if_neg hdef.1]; exact h1
  · obtain ⟨c, h1, h2, h3⟩ := operator_add_assign_exact a x ha hx (by
      rintro ⟨g1, g2, -, -⟩
      exact hdef ⟨g1, g2⟩)
    exact ⟨c, add_kept_of_some a x c h1, h2, h3⟩

/-- The two readings of `operator-=` agree wherever the strict one has a result. -/
theorem sub_kept_of_some (a x c : BigInteger) (h : operator_sub_assign a x = some c) :
    operator_sub_assign_kept a x = some c := by
  unfold operator_sub_assign at h
  unfold operator_sub_assign_kept
  cases hadd : operator_add_assign (changeSign a) x with
  | none => rw [hadd] at h; cases h
  | some r =>
    rw [hadd] at h
    rw [add_kept_of_some _ _ r hadd]
    exact h

/-- The assignment `operator-=` on canonical operands, with popped limbs kept in the
storage: it always returns, and the result is the canonical value that denotes the
difference. -/
theorem sub_kept_spec (a x : BigInteger) (ha : canonical a) (hx : canonical x) :
    ∃ c, operator_sub_assign_kept a x = some c ∧ canonical c ∧
      toInt c = toInt a - toInt x := by
  obtain ⟨c, h1, h2, h3⟩ := add_kept_spec (changeSign a) x (changeSign_canonical a ha) hx
  refine ⟨changeSign c, ?_, changeSign_canonical c h2, ?_⟩
  · unfold operator_sub_assign_kept
    rw [h1]
  · rw [changeSign_toInt, h3, changeSign_toInt]; ring

/-- The call `a -= a` on a canonical value returns the canonical value that denotes `2 * a`:
the sign flip reaches the argument, so the value is added to itself. -/
theorem sub_self_spec (a : BigInteger) (ha : canonical a) :
    ∃ c, operator_sub_assign_self a = some c ∧ canonical c ∧ toInt c = 2 * toInt a := by
  have hca := changeSign_canonical a ha
  obtain ⟨c, h1, h2, h3⟩ := operator_add_assign_exact (changeSign a) (changeSign a) hca hca (by
    rintro ⟨g1, -⟩
    exact g1 rfl)
  refine ⟨changeSign c, ?_, changeSign_canonical c h2, ?_⟩
  · unfold operator_sub_assign_self
    rw [h1]
  · rw [changeSign_toInt, h3, changeSign_toInt]; ring

/-- C3: for canonical operands of any signs and limb counts, `a += b` (and `a + b`, which
copies `a` and runs `+=`) returns the canonical value that denotes the exact sum; it is the
value of the strict reading wherever that has one. -/
theorem operator_add_assign_sum (a b : BigInteger) (ha : canonical a) (hb : canonical b) :
    ∃ c, operator_add_assign_kept a b = some c ∧ canonical c ∧
      toInt c = toInt a + toInt b ∧
      (∀ c2, operator_add_assign a b = some c2 → c2 = c) := by
  obtain ⟨c, h1, h2, h3⟩ := add_kept_spec a b ha hb
  refine ⟨c, h1, h2, h3, ?_⟩
  intro c2 hc2
  have := add_kept_of_some a b c2 hc2
  rw [h1] at this
  exact (Option.some.inj this).symm

/-- The sum theorem applied to `1005 += -1003`, where the scan pops the equal top limb: the
result is 2. -/
theorem operator_add_assign_sum_witness :
    canonical ⟨[5, 1], false⟩ ∧ canonical ⟨[3, 1], true⟩ ∧
    operator_add_assign_kept ⟨[5, 1], false⟩ ⟨[3, 1], true⟩ = some ⟨[2], false⟩ ∧
    (∃ c, operator_add_assign_kept ⟨[5, 1], false⟩ ⟨[3, 1], true⟩ = some c ∧ canonical c ∧
      toInt c = toInt ⟨[5, 1], false⟩ + toInt ⟨[3, 1], true⟩ ∧
      (∀ c2, operator_add_assign ⟨[5, 1], false⟩ ⟨[3, 1], true⟩ = some c2 → c2 = c)) :=
  ⟨by decide, by decide, by decide,
    operator_add_assign_sum ⟨[5, 1], false⟩ ⟨[3, 1], true⟩ (by decide) (by decide)⟩

/-- C6: for canonical operands `a + b` and `b + a` both return, and the two results are
equal under `operator==`: the same limb sequence and the same sign flag. -/
theorem operator_add_assign_commutes (a b : BigInteger) (ha : canonical a)
    (hb : canonical b) :
    ∃ c d, operator_add_assign_kept a b = some c ∧ operator_add_assign_kept b a = some d ∧
      operator_eq c d = true ∧ c.digits = d.digits ∧ c.is_negative = d.is_negative := by
  obtain ⟨c, h1, h2, h3⟩ := add_kept_spec a b ha hb
  obtain ⟨d, k1, k2, k3⟩ := add_kept_spec b a hb ha
  have hcd : c = d := toInt_injective c d h2 k2 (by rw [k3, h3]; ring)
  exact ⟨c, d, h1, k1, by simp [operator_eq, hcd], by rw [hcd], by rw [hcd]⟩

/-- The commutation theorem applied to `1005` and `-1003`: both orders give 2. -/
theorem operator_add_assign_commutes_witness :
    canonical ⟨[5, 1], false⟩ ∧ canonical ⟨[3, 1], true⟩ ∧
    operator_add_assign_kept ⟨[5, 1], false⟩ ⟨[3, 1], true⟩ = some ⟨[2], false⟩ ∧
    operator_add_assign_kept ⟨[3, 1], true⟩ ⟨[5, 1], false⟩ = some ⟨[2], false⟩ ∧
    (∃ c d, operator_add_assign_kept ⟨[5, 1], false⟩ ⟨[3, 1], true⟩ = some c ∧
      operator_add_assign_kept ⟨[3, 1], true⟩ ⟨[5, 1], false⟩ = some d ∧
      operator_eq c d = true ∧ c.digits = d.digits ∧ c.is_negative = d.is_negative) :=
  ⟨by decide, by decide, by decide, by decide,
    operator_add_assign_commutes ⟨[5, 1], false⟩ ⟨[3, 1], true⟩ (by decide) (by decide)⟩

/-- The difference `a - b` on canonical operands that are distinct objects: `operator-=`
returns the canonical value denoting `a - b`, the same value as `a + (-b)`. -/
theorem sub_kept_eq_add_neg (a b : BigInteger) (ha : canonical a) (hb : canonical b) :
    ∃ c, operator_sub_assign_kept a b = some c ∧
      operator_add_assign_kept a (operator_neg b) = some c ∧ canonical c ∧
      toInt c = toInt a - toInt b := by
  obtain ⟨c, h1, h2, h3⟩ := sub_kept_spec a b ha hb
  obtain ⟨d, k1, k2, k3⟩ := add_kept_spec a (operator_neg b) ha (changeSign_canonical b hb)
  have hcd : d = c := toInt_injective d c k2 h2 (by
    rw [k3, h3]; unfold operator_neg; rw [changeSign_toInt]; ring)
  subst hcd
  exact ⟨d, h1, k1, h2, h3⟩

/-- C5 (failing input): the call `a -= a` with `a = 5`.  `changeSign()` flips the receiver,
which is also the argument, so `*this += x` adds `-5` to `-5`, and the second `changeSign()`
leaves `10` where `a - a = 0` is expected; on two distinct objects holding 5 the result is
zero, and `a + (-a)` is zero. -/
theorem operator_sub_assign_self_five :
    canonical ⟨[5], false⟩ ∧
    changeSign ⟨[5], false⟩ = ⟨[5], true⟩ ∧
    operator_add_assign ⟨[5], true⟩ ⟨[5], true⟩ = some ⟨[10], true⟩ ∧
    operator_sub_assign_self ⟨[5], false⟩ = some ⟨[10], false⟩ ∧
    toInt ⟨[10], false⟩ = 10 ∧ toInt ⟨[5], false⟩ - toInt ⟨[5], false⟩ = 0 ∧
    operator_sub_assign_kept ⟨[5], false⟩ ⟨[5], false⟩ = some zero ∧
    operator_add_assign_kept ⟨[5], false⟩ (operator_neg ⟨[5], false⟩) = some zero := by
  decide

end BigInteger

namespace BigInteger

/-! ## The division `div_mod` with popped limbs kept in the storage -/

theorem neg_tmod_eq (a b : Int) : (-a).tmod b = -(a.tmod b) := by
  rw [Int.tmod_def, Int.tmod_def, Int.neg_tdiv]; ring

/-- The ways one iteration of the kept `div_mod` loop can go, in terms of the remainder
`mod1` after the new limb is brought down. -/
theorem div_mod_step_kept_cases (y : BigInteger) (divd : List Int) (mod : BigInteger)
    (hm : canonical mod) (hmn : mod.is_negative = false) (di : Int)
    (hdi : 0 ≤ di ∧ di < REAL_BASE) :
    ∃ mod1, canonical mod1 ∧ mod1.is_negative = false ∧
      magnitude mod1.digits = di + 1000 * magnitude mod.digits ∧
      (operator_cmp mod1 y = Ordering.lt →
        div_mod_step_kept y divd mod di = some (divd ++ [0], mod1)) ∧
      (operator_cmp mod1 y ≠ Ordering.lt → ∀ mod2,
        operator_sub_assign_kept mod1 (multiply_copy y (searchDigit y mod1 1000 0 REAL_BASE))
          = some mod2 →
        div_mod_step_kept y divd mod di
          = some (divd ++ [searchDigit y mod1 1000 0 REAL_BASE], mod2)) := by
  cases mod with
  | mk m n =>
  simp only at hmn
  subst hmn
  rcases hm.2.2.1 with hl | hl
  · simp only at hl
    obtain ⟨b, hb⟩ := getLast?_some_of_ne_nil m hm.1
    have hb0 : b ≠ 0 := by
      intro h0; apply hl; rw [hb, h0]
    refine ⟨⟨di :: m, false⟩, canonical_cons di m hdi hm.2.1 hm.1 hl, rfl, ?_, ?_, ?_⟩
    · simp only [magnitude, REAL_BASE_eq]
    · intro h
      simp [div_mod_step_kept, hb, hb0, h]
    · intro h mod2 hs
      simp [div_mod_step_kept, hb, hb0, h, hs]
  · simp only at hl
    subst hl
    refine ⟨⟨[di], false⟩, canonical_single di hdi, rfl, ?_, ?_, ?_⟩
    · simp only [magnitude, REAL_BASE_eq]; ring
    · intro h
      simp [div_mod_step_kept, h]
    · intro h mod2 hs
      simp [div_mod_step_kept, h, hs]

/-- One iteration of the kept `div_mod` loop with a non-zero divisor of either sign: it
appends the quotient limb `(di + 1000 * mod) / |x|` and leaves the canonical remainder
`(di + 1000 * mod) % |x|`. -/
theorem div_mod_step_kept_spec (y : BigInteger) (hy : canonical y)
    (hX : 0 < magnitude y.digits) (divd : List Int) (mod : BigInteger) (hm : canonical mod)
    (hmn : mod.is_negative = false) (hM : magnitude mod.digits < magnitude y.digits)
    (di : Int) (hdi : 0 ≤ di ∧ di < REAL_BASE) :
    ∃ mod2, div_mod_step_kept y divd mod di
        = some (divd ++ [(di + 1000 * magnitude mod.digits) / magnitude y.digits], mod2) ∧
      canonical mod2 ∧ mod2.is_negative = false ∧
      magnitude mod2.digits = (di + 1000 * magnitude mod.digits) % magnitude y.digits := by
  obtain ⟨mod1, c1, n1, v1, k1, k2⟩ := div_mod_step_kept_cases y divd mod hm hmn di hdi
  rw [REAL_BASE_eq] at hdi
  have hm0 := magnitude_nonneg mod.digits hm.2.1
  have hM1 : magnitude mod1.digits < 1000 * magnitude y.digits := by
    rw [v1]; omega
  have hm10 : 0 ≤ magnitude mod1.digits := by rw [v1]; omega
  rw [← v1]
  by_cases hcmp : operator_cmp mod1 y = Ordering.lt
  · have hlt : toInt mod1 < toInt y := by
      rw [cmp_toInt mod1 y c1 hy] at hcmp
      exact compare_lt_iff_lt.mp hcmp
    rw [toInt_nonneg_eq mod1 n1] at hlt
    have hyn : y.is_negative = false := by
      cases hn : y.is_negative
      · rfl
      · exfalso
        simp only [toInt, hn, if_true] at hlt
        omega
    rw [toInt_nonneg_eq y hyn] at hlt
    refine ⟨mod1, ?_, c1, n1, ?_⟩
    · rw [k1 hcmp, Int.ediv_eq_zero_of_lt hm10 hlt]
    · rw [Int.emod_eq_of_lt hm10 hlt]
  · have hq := searchDigit_quotient y mod1 hy c1 n1 hX hM1
    have hq0 : 0 ≤ magnitude mod1.digits / magnitude y.digits :=
      Int.ediv_nonneg hm10 (le_of_lt hX)
    have hq1 : magnitude mod1.digits / magnitude y.digits < 1000 :=
      Int.ediv_lt_of_lt_mul hX hM1
    obtain ⟨p1, p2, -⟩ := multiply_spec y.digits y.is_negative
      (searchDigit y mod1 1000 0 REAL_BASE) hy.1 hy.2.1 (by rw [hq]; exact hq0)
      (by rw [hq]; omega)
    have hpc : canonical (multiply_copy y (searchDigit y mod1 1000 0 REAL_BASE)) := p1
    have hp : toInt (multiply_copy y (searchDigit y mod1 1000 0 REAL_BASE))
        = magnitude y.digits * searchDigit y mod1 1000 0 REAL_BASE := p2
    obtain ⟨mod2, s0, s1, s2⟩ := sub_kept_spec mod1
      (multiply_copy y (searchDigit y mod1 1000 0 REAL_BASE)) c1 hpc
    rw [hp, toInt_nonneg_eq mod1 n1, hq] at s2
    have hmodeq : toInt mod2 = magnitude mod1.digits % magnitude y.digits := by
      rw [s2]
      have := Int.emod_add_ediv (magnitude mod1.digits) (magnitude y.digits)
      linarith
    have hr0 : 0 ≤ magnitude mod1.digits % magnitude y.digits :=
      Int.emod_nonneg _ (by omega)
    have hn2 := nonneg_of_toInt mod2 s1 (by rw [hmodeq]; exact hr0)
    refine ⟨mod2, ?_, s1, hn2, ?_⟩
    · rw [k2 hcmp mod2 s0, hq]
    · rw [← toInt_nonneg_eq mod2 hn2]; exact hmodeq

/-- The kept `div_mod` loop with a non-zero divisor always returns: it appends one quotient
limb in `[0, 1000)` per dividend limb and leaves a canonical remainder below the divisor;
the limbs read, on top of the remainder it started from, are quotient times divisor plus
remainder. -/
theorem div_mod_loop_kept_spec (y : BigInteger) (hy : canonical y)
    (hX : 0 < magnitude y.digits) :
    ∀ (rest divd : List Int) (mod : BigInteger),
      (∀ d ∈ rest, 0 ≤ d ∧ d < REAL_BASE) → canonical mod → mod.is_negative = false →
      magnitude mod.digits < magnitude y.digits →
      ∃ t mod2, div_mod_loop_kept y rest divd mod = some (divd ++ t, mod2) ∧
        t.length = rest.length ∧ (∀ d ∈ t, 0 ≤ d ∧ d < REAL_BASE) ∧
        canonical mod2 ∧ mod2.is_negative = false ∧
        magnitude mod2.digits < magnitude y.digits ∧
        magnitude rest.reverse + 1000 ^ rest.length * magnitude mod.digits
          = magnitude t.reverse * magnitude y.digits + magnitude mod2.digits := by
  intro rest
  induction rest with
  | nil =>
    intro divd mod _ hm hmn hM
    exact ⟨[], mod, by simp [div_mod_loop_kept], rfl, by simp, hm, hmn, hM,
      by simp [magnitude]⟩
  | cons di rest ih =>
    intro divd mod hrest hm hmn hM
    have hdi := hrest di (List.mem_cons_self _ _)
    have hrest2 : ∀ d ∈ rest, 0 ≤ d ∧ d < REAL_BASE :=
      fun d hd => hrest d (List.mem_cons_of_mem _ hd)
    obtain ⟨mod1, s1, c1, n1, v1⟩ :=
      div_mod_step_kept_spec y hy hX divd mod hm hmn hM di hdi
    have hm0 := magnitude_nonneg mod.digits hm.2.1
    have hdi2 : 0 ≤ di ∧ di < 1000 := by rw [REAL_BASE_eq] at hdi; exact hdi
    have hnum0 : 0 ≤ di + 1000 * magnitude mod.digits := by omega
    have hnum1 : di + 1000 * magnitude mod.digits < 1000 * magnitude y.digits := by omega
    have l0 : 0 ≤ (di + 1000 * magnitude mod.digits) / magnitude y.digits :=
      Int.ediv_nonneg hnum0 (le_of_lt hX)
    have l1 : (di + 1000 * magnitude mod.digits) / magnitude y.digits < 1000 :=
      Int.ediv_lt_of_lt_mul hX hnum1
    have m1 : magnitude mod1.digits < magnitude y.digits := by
      rw [v1]; exact Int.emod_lt_of_pos _ hX
    obtain ⟨t, mod2, f1, f2, f3, f4, f5, f6, f7⟩ := ih
      (divd ++ [(di + 1000 * magnitude mod.digits) / magnitude y.digits]) mod1 hrest2 c1 n1 m1
    refine ⟨((di + 1000 * magnitude mod.digits) / magnitude y.digits) :: t, mod2, ?_,
      by simp [f2], ?_, f4, f5, f6, ?_⟩
    · simp only [div_mod_loop_kept, s1, f1]
      simp
    · intro d hd
      rcases List.mem_cons.mp hd with hd | hd
      · rw [hd, REAL_BASE_eq]; exact ⟨l0, l1⟩
      · exact f3 d hd
    · rw [List.reverse_cons, List.reverse_cons, magnitude_append, magnitude_append]
      simp only [List.length_reverse, f2, List.length_cons, magnitude, REAL_BASE_eq]
      rw [pow_succ]
      have e := Int.emod_add_ediv (di + 1000 * magnitude mod.digits) (magnitude y.digits)
      rw [← v1] at e
      linear_combination f7 - (1000 : Int) ^ rest.length * e

/-- The kept `div_mod` on canonical operands with a non-zero divisor always returns; the
pair is canonical and holds the truncated quotient and remainder. -/
theorem div_mod_kept_spec (a y : BigInteger) (ha : canonical a) (hy : canonical y)
    (hX : 0 < magnitude y.digits) :
    ∃ q r, div_mod_kept a y = some (q, r) ∧ canonical q ∧ canonical r ∧
      magnitude q.digits = magnitude a.digits / magnitude y.digits ∧
      magnitude r.digits = magnitude a.digits % magnitude y.digits ∧
      toInt q = (toInt a).tdiv (toInt y) ∧ toInt r = (toInt a).tmod (toInt y) ∧
      (a.is_negative = false → r.is_negative = false) ∧
      (a.is_negative = false → y.is_negative = false → q.is_negative = false) := by
  obtain ⟨t, mod, f1, f2, f3, f4, f5, f6, f7⟩ := div_mod_loop_kept_spec y hy hX
    a.digits.reverse [0] zero (fun d hd => ha.2.1 d (List.mem_reverse.mp hd)) canonical_zero
    rfl (by simpa [zero, magnitude] using hX)
  have hz : magnitude zero.digits = 0 := by decide
  rw [List.reverse_reverse, hz, mul_zero, add_zero] at f7
  have hDr : ([0] ++ t).reverse = t.reverse ++ [0] := by simp
  have hDrange : ∀ d ∈ ([0] ++ t).reverse, 0 ≤ d ∧ d < REAL_BASE := by
    rw [hDr]
    apply mem_range_append
    · exact fun d hd => f3 d (List.mem_reverse.mp hd)
    · intro d hd
      simp only [List.mem_singleton] at hd
      rw [hd, REAL_BASE_eq]; omega
  have hDmag : magnitude ([0] ++ t).reverse = magnitude t.reverse := by
    rw [hDr, magnitude_append]; simp [magnitude]
  obtain ⟨q1, q2⟩ := deleteZeroes_spec ([0] ++ t).reverse (xor a.is_negative y.is_negative)
    (by rw [hDr]; simp) hDrange
  have hA0 := magnitude_nonneg a.digits ha.2.1
  have ht0 := magnitude_nonneg t.reverse (fun d hd => f3 d (List.mem_reverse.mp hd))
  have hm0 := magnitude_nonneg mod.digits f4.2.1
  have hdiv : magnitude a.digits / magnitude y.digits = magnitude t.reverse := by
    rw [f7, Int.add_ediv_of_dvd_left (Dvd.intro_left _ rfl),
      Int.mul_ediv_cancel _ (by omega), Int.ediv_eq_zero_of_lt hm0 f6]
    ring
  have hmod : magnitude a.digits % magnitude y.digits = magnitude mod.digits := by
    have e := Int.emod_add_ediv (magnitude a.digits) (magnitude y.digits)
    rw [hdiv] at e
    have : magnitude y.digits * magnitude t.reverse
        = magnitude t.reverse * magnitude y.digits := by ring
    omega
  have htd : (magnitude a.digits).tdiv (magnitude y.digits) = magnitude t.reverse := by
    rw [Int.tdiv_eq_ediv hA0 (le_of_lt hX)]; exact hdiv
  have htm : (magnitude a.digits).tmod (magnitude y.digits) = magnitude mod.digits := by
    rw [Int.tmod_eq_emod hA0 (le_of_lt hX)]; exact hmod
  have hqm : magnitude (deleteZeroes ⟨([0] ++ t).reverse,
      xor a.is_negative y.is_negative⟩).digits = magnitude t.reverse := by
    rw [← hDmag]
    have hq0 := magnitude_nonneg _ q1.2.1
    have hD0 := magnitude_nonneg ([0] ++ t).reverse hDrange
    have q3 := q2
    simp only [toInt] at q3
    generalize deleteZeroes ⟨([0] ++ t).reverse, xor a.is_negative y.is_negative⟩ = q at *
    cases hqn : q.is_negative <;> cases hxn : xor a.is_negative y.is_negative <;>
      simp only [hqn, hxn, Bool.false_eq_true, if_false, if_true] at q3 <;> omega
  have hrc : canonical ⟨mod.digits, operator_bool mod && a.is_negative⟩ := by
    refine ⟨f4.1, f4.2.1, f4.2.2.1, ?_⟩
    intro h0
    simp only at h0
    have : operator_bool mod = false := by
      cases mod with
      | mk md mn => simp only at h0; subst h0; rfl
    simp [this]
  have hrt : toInt ⟨mod.digits, operator_bool mod && a.is_negative⟩
      = if a.is_negative then -magnitude mod.digits else magnitude mod.digits := by
    cases hb : operator_bool mod
    · have hd := operator_bool_false mod.digits mod.is_negative hb
      simp only [toInt, Bool.false_and, Bool.false_eq_true, if_false, hd]
      have : magnitude [0] = 0 := by decide
      rw [this]; simp
    · simp only [toInt, Bool.true_and]
  refine ⟨_, _, ?_, q1, hrc, ?_, ?_, ?_, ?_, ?_, ?_⟩
  · unfold div_mod_kept
    rw [f1]
  · rw [hqm, hdiv]
  · exact hmod.symm
  · rw [q2]
    simp only [toInt]
    rw [hDmag, ← htd]
    cases a.is_negative <;> cases y.is_negative <;>
      simp [Int.neg_tdiv, Int.tdiv_neg]
  · rw [hrt, ← htm]
    simp only [toInt]
    cases a.is_negative <;> cases y.is_negative <;>
      simp [neg_tmod_eq, Int.tmod_neg]
  · intro han
    simp [han]
  · intro han hyn
    refine nonneg_of_toInt _ q1 ?_
    rw [q2]
    simp only [toInt, han, hyn, Bool.xor_false, Bool.false_eq_true, if_false, hDmag]
    exact ht0

/-- The two readings of `div_mod` agree wherever the strict one has a result. -/
theorem div_mod_step_kept_of_some (y : BigInteger) (divd : List Int) (mod : BigInteger)
    (di : Int) (st : List Int × BigInteger) (h : div_mod_step y divd mod di = some st) :
    div_mod_step_kept y divd mod di = some st := by
  unfold div_mod_step at h
  unfold div_mod_step_kept
  cases hg : mod.digits.getLast? with
  | none => rw [hg] at h; cases h
  | some b =>
    rw [hg] at h
    simp only at h ⊢
    generalize (if b ≠ 0 then (⟨di :: mod.digits, mod.is_negative⟩ : BigInteger)
      else ⟨mod.digits.set 0 di, mod.is_negative⟩) = mod1 at *
    by_cases hc : operator_cmp mod1 y ≠ Ordering.lt
    · rw [if_pos hc] at h ⊢
      cases hs : operator_sub_assign mod1
          (multiply_copy y (searchDigit y mod1 1000 0 REAL_BASE)) with
      | none => rw [hs] at h; cases h
      | some mod2 =>
        rw [hs] at h
        rw [sub_kept_of_some _ _ mod2 hs]
        exact h
    · rw [if_neg hc] at h ⊢
      exact h

theorem div_mod_loop_kept_of_some (y : BigInteger) :
    ∀ (rest divd : List Int) (mod : BigInteger) (st : List Int × BigInteger),
      div_mod_loop y rest divd mod = some st → div_mod_loop_kept y rest divd mod = some st := by
  intro rest
  induction rest with
  | nil =>
    intro divd mod st h
    simpa [div_mod_loop, div_mod_loop_kept] using h
  | cons di rest ih =>
    intro divd mod st h
    simp only [div_mod_loop] at h
    simp only [div_mod_loop_kept]
    cases hs : div_mod_step y divd mod di with
    | none => rw [hs] at h; cases h
    | some s1 =>
      rw [hs] at h
      rw [div_mod_step_kept_of_some y divd mod di s1 hs]
      exact ih _ _ st h

theorem div_mod_kept_of_some (a y : BigInteger) (p : BigInteger × BigInteger)
    (h : div_mod a y = some p) : div_mod_kept a y = some p := by
  unfold div_mod at h
  unfold div_mod_kept
  cases hl : div_mod_loop y a.digits.reverse [0] zero with
  | none => rw [hl] at h; cases h
  | some st =>
    rw [hl] at h
    rw [div_mod_loop_kept_of_some y _ _ _ st hl]
    exact h

end BigInteger

namespace BigInteger

theorem abs_toInt (a : BigInteger) (ha : canonical a) : |toInt a| = magnitude a.digits := by
  have hm0 := magnitude_nonneg a.digits ha.2.1
  unfold toInt
  cases a.is_negative
  · simp only [Bool.false_eq_true, if_false]; exact abs_of_nonneg hm0
  · simp only [if_true, abs_neg]; exact abs_of_nonneg hm0

theorem magnitude_pos_of_toInt (b : BigInteger) (hb : canonical b) (h : toInt b ≠ 0) :
    0 < magnitude b.digits := by
  have hm0 := magnitude_nonneg b.digits hb.2.1
  rcases lt_or_eq_of_le hm0 with h1 | h1
  · exact h1
  · exfalso; apply h
    unfold toInt
    rw [← h1]; simp

/-- C1: for canonical `a` and a canonical non-zero `b`, `div_mod(a, b)` returns a canonical
pair `(q, r)` with `a = q * b + r`, `|r| < |b|` and `r` zero or of the sign of `a`: the
truncated quotient and remainder; it is the pair of the strict reading wherever that has
one. -/
theorem div_mod_truncated (a b : BigInteger) (ha : canonical a) (hb : canonical b)
    (hb0 : toInt b ≠ 0) :
    ∃ q r, div_mod_kept a b = some (q, r) ∧ canonical q ∧ canonical r ∧
      toInt a = toInt q * toInt b + toInt r ∧ |toInt r| < |toInt b| ∧
      (0 ≤ toInt a → 0 ≤ toInt r) ∧ (toInt a ≤ 0 → toInt r ≤ 0) ∧
      toInt q = (toInt a).tdiv (toInt b) ∧ toInt r = (toInt a).tmod (toInt b) ∧
      (∀ p, div_mod a b = some p → p = (q, r)) := by
  have hX := magnitude_pos_of_toInt b hb hb0
  obtain ⟨q, r, h1, h2, h3, h4, h5, h6, h7, -, -⟩ := div_mod_kept_spec a b ha hb hX
  refine ⟨q, r, h1, h2, h3, ?_, ?_, ?_, ?_, h6, h7, ?_⟩
  · rw [h6, h7]
    have := Int.tmod_add_tdiv (toInt a) (toInt b)
    linarith
  · rw [abs_toInt r h3, abs_toInt b hb, h5]
    exact Int.emod_lt_of_pos _ hX
  · intro h0
    rw [h7]; exact Int.tmod_nonneg _ h0
  · intro h0
    rw [h7]
    have e : (toInt a).tmod (toInt b) = -((-toInt a).tmod (toInt b)) := by
      rw [neg_tmod_eq]; ring
    rw [e]
    have := Int.tmod_nonneg (toInt b) (show 0 ≤ -toInt a by omega)
    omega
  · intro p hp
    have := div_mod_kept_of_some a b p hp
    rw [h1] at this
    exact (Option.some.inj this).symm

/-- The division theorem applied to `1005` and `1003`, and to `-7` and `2`: the pairs are
`(1, 2)` and `(-3, -1)`. -/
theorem div_mod_truncated_witness :
    canonical ⟨[5, 1], false⟩ ∧ canonical ⟨[3, 1], false⟩ ∧ toInt ⟨[3, 1], false⟩ ≠ 0 ∧
    div_mod_kept ⟨[5, 1], false⟩ ⟨[3, 1], false⟩ = some (⟨[1], false⟩, ⟨[2], false⟩) ∧
    div_mod_kept ⟨[7], true⟩ ⟨[2], false⟩ = some (⟨[3], true⟩, ⟨[1], true⟩) ∧
    (∃ q r, div_mod_kept ⟨[5, 1], false⟩ ⟨[3, 1], false⟩ = some (q, r) ∧ canonical q ∧
      canonical r ∧
      toInt ⟨[5, 1], false⟩ = toInt q * toInt ⟨[3, 1], false⟩ + toInt r ∧
      |toInt r| < |toInt ⟨[3, 1], false⟩| ∧
      (0 ≤ toInt ⟨[5, 1], false⟩ → 0 ≤ toInt r) ∧ (toInt ⟨[5, 1], false⟩ ≤ 0 → toInt r ≤ 0) ∧
      toInt q = (toInt ⟨[5, 1], false⟩).tdiv (toInt ⟨[3, 1], false⟩) ∧
      toInt r = (toInt ⟨[5, 1], false⟩).tmod (toInt ⟨[3, 1], false⟩) ∧
      (∀ p, div_mod ⟨[5, 1], false⟩ ⟨[3, 1], false⟩ = some p → p = (q, r))) :=
  ⟨by decide, by decide, by decide, by decide, by decide,
    div_mod_truncated ⟨[5, 1], false⟩ ⟨[3, 1], false⟩ (by decide) (by decide) (by decide)⟩

/-- C4: the canonical form is preserved: for canonical `a` and `b` the results of
`negate(a)`, `a + b` and `a - b` are canonical, and so are both components of
`div_mod(a, b)` when `b` is not zero. -/
theorem canonical_preserved (a b : BigInteger) (ha : canonical a) (hb : canonical b) :
    canonical (operator_neg a) ∧
    (∃ c, operator_add_assign_kept a b = some c ∧ canonical c) ∧
    (∃ c, operator_sub_assign_kept a b = some c ∧ canonical c) ∧
    (toInt b ≠ 0 → ∃ q r, div_mod_kept a b = some (q, r) ∧ canonical q ∧ canonical r) := by
  refine ⟨changeSign_canonical a ha, ?_, ?_, ?_⟩
  · obtain ⟨c, h1, h2, -⟩ := add_kept_spec a b ha hb
    exact ⟨c, h1, h2⟩
  · obtain ⟨c, h1, h2, -⟩ := sub_kept_spec a b ha hb
    exact ⟨c, h1, h2⟩
  · intro hb0
    obtain ⟨q, r, h1, h2, h3, -⟩ := div_mod_kept_spec a b ha hb
      (magnitude_pos_of_toInt b hb hb0)
    exact ⟨q, r, h1, h2, h3⟩

/-- The preservation theorem applied to `1005` and `1003`. -/
theorem canonical_preserved_witness :
    canonical ⟨[5, 1], false⟩ ∧ canonical ⟨[3, 1], false⟩ ∧
    operator_neg ⟨[5, 1], false⟩ = ⟨[5, 1], true⟩ ∧
    operator_add_assign_kept ⟨[5, 1], false⟩ ⟨[3, 1], false⟩ = some ⟨[8, 2], false⟩ ∧
    operator_sub_assign_kept ⟨[5, 1], false⟩ ⟨[3, 1], false⟩ = some ⟨[2], false⟩ ∧
    (canonical (operator_neg ⟨[5, 1], false⟩) ∧
    (∃ c, operator_add_assign_kept ⟨[5, 1], false⟩ ⟨[3, 1], false⟩ = some c ∧ canonical c) ∧
    (∃ c, operator_sub_assign_kept ⟨[5, 1], false⟩ ⟨[3, 1], false⟩ = some c ∧ canonical c) ∧
    (toInt ⟨[3, 1], false⟩ ≠ 0 → ∃ q r,
      div_mod_kept ⟨[5, 1], false⟩ ⟨[3, 1], false⟩ = some (q, r) ∧ canonical q ∧
        canonical r)) :=
  ⟨by decide, by decide, by decide, by decide, by decide,
    canonical_preserved ⟨[5, 1], false⟩ ⟨[3, 1], false⟩ (by decide) (by decide)⟩

end BigInteger

namespace BigInteger

/-! ## The function `gcd` with popped limbs kept in the storage -/

/-- The kept `operator%=` on a canonical non-negative dividend and a canonical positive
divisor always returns the canonical non-negative remainder. -/
theorem mod_kept_spec (a y : BigInteger) (ha : canonical a) (han : a.is_negative = false)
    (hy : canonical y) (hX : 0 < magnitude y.digits) :
    ∃ r, operator_mod_assign_kept a y = some r ∧ canonical r ∧ r.is_negative = false ∧
      magnitude r.digits = magnitude a.digits % magnitude y.digits := by
  obtain ⟨q, r, h1, -, h3, -, h5, -, -, h8, -⟩ := div_mod_kept_spec a y ha hy hX
  refine ⟨r, ?_, h3, h8 han, h5⟩
  unfold operator_mod_assign_kept
  rw [h1]

/-- The kept `operator/=` on canonical operands with a non-zero divisor always returns the
canonical truncated quotient. -/
theorem div_kept_spec (a y : BigInteger) (ha : canonical a) (hy : canonical y)
    (hX : 0 < magnitude y.digits) :
    ∃ q, operator_div_assign_kept a y = some q ∧ canonical q ∧
      toInt q = (toInt a).tdiv (toInt y) := by
  obtain ⟨q, r, h1, h2, -, -, -, h6, -⟩ := div_mod_kept_spec a y ha hy hX
  refine ⟨q, ?_, h2, h6⟩
  unfold operator_div_assign_kept
  rw [h1]

theorem mod_kept_of_some (a y r : BigInteger) (h : operator_mod_assign a y = some r) :
    operator_mod_assign_kept a y = some r := by
  unfold operator_mod_assign at h
  unfold operator_mod_assign_kept
  cases hd : div_mod a y with
  | none => rw [hd] at h; cases h
  | some p =>
    rw [hd] at h
    rw [div_mod_kept_of_some a y p hd]
    exact h

theorem div_kept_of_some (a y q : BigInteger) (h : operator_div_assign a y = some q) :
    operator_div_assign_kept a y = some q := by
  unfold operator_div_assign at h
  unfold operator_div_assign_kept
  cases hd : div_mod a y with
  | none => rw [hd] at h; cases h
  | some p =>
    rw [hd] at h
    rw [div_mod_kept_of_some a y p hd]
    exact h

/-- The loop of the kept `gcd` on canonical non-negative operands, given more iterations
than the magnitude of the second operand: every remainder is smaller than its divisor, so
the loop ends within the bound and returns the canonical non-negative greatest common
divisor. -/
theorem gcdLoop_kept_spec :
    ∀ (k : Nat) (a b : BigInteger), canonical a → a.is_negative = false → canonical b →
      b.is_negative = false → (magnitude b.digits).toNat < k →
      ∃ g, gcdLoop_kept k a b = some g ∧ canonical g ∧ g.is_negative = false ∧
        magnitude g.digits = (Int.gcd (magnitude a.digits) (magnitude b.digits) : Nat) := by
  intro k
  induction k with
  | zero => intro a b _ _ _ _ h; omega
  | succ k ih =>
    intro a b ha han hb hbn hk
    have hA := magnitude_nonneg a.digits ha.2.1
    have hB := magnitude_nonneg b.digits hb.2.1
    simp only [gcdLoop_kept]
    cases hbool : operator_bool b
    · simp only [Bool.false_eq_true, if_false]
      have hd := operator_bool_false b.digits b.is_negative hbool
      refine ⟨a, rfl, ha, han, ?_⟩
      rw [hd]
      have hz : magnitude [0] = 0 := by decide
      rw [hz, Int.gcd_zero_right, Int.natAbs_of_nonneg hA]
    · simp only [if_true]
      have hX := operator_bool_pos b hb hbool
      obtain ⟨r, r0, r1, r2, r3⟩ := mod_kept_spec a b ha han hb hX
      have hlt : magnitude r.digits < magnitude b.digits := by
        rw [r3]; exact Int.emod_lt_of_pos _ hX
      have hr0 := magnitude_nonneg r.digits r1.2.1
      obtain ⟨g, g0, g1, g2, g3⟩ := ih b r hb hbn r1 r2 (by omega)
      refine ⟨g, ?_, g1, g2, ?_⟩
      · rw [r0]; exact g0
      · rw [g3, r3, int_gcd_rec _ _ hA hB]

theorem gcdLoop_kept_of_some :
    ∀ (k : Nat) (a b g : BigInteger), gcdLoop k a b = some g → gcdLoop_kept k a b = some g := by
  intro k
  induction k with
  | zero => intro a b g h; simp [gcdLoop] at h
  | succ k ih =>
    intro a b g h
    simp only [gcdLoop] at h
    simp only [gcdLoop_kept]
    cases hbool : operator_bool b
    · rw [hbool] at h
      simpa using h
    · rw [hbool] at h
      simp only [if_true] at h ⊢
      cases hm : operator_mod_assign a b with
      | none => rw [hm] at h; cases h
      | some r =>
        rw [hm] at h
        rw [mod_kept_of_some a b r hm]
        exact ih _ _ g h

/-- The kept `gcd` on canonical operands always returns the canonical non-negative greatest
common divisor of the denoted integers. -/
theorem gcd_kept_spec (a b : BigInteger) (ha : canonical a) (hb : canonical b) :
    ∃ g, gcd_kept a b = some g ∧ canonical g ∧ g.is_negative = false ∧
      toInt g = (Int.gcd (toInt a) (toInt b) : Nat) := by
  obtain ⟨a1, a2, a3⟩ := applyAbs_spec a ha
  obtain ⟨b1, b2, b3⟩ := applyAbs_spec b hb
  obtain ⟨g, g0, g1, g2, g3⟩ := gcdLoop_kept_spec ((magnitude b.digits).toNat + 1)
    (applyAbs a) (applyAbs b) a1 a2 b1 b2 (by rw [b3]; omega)
  refine ⟨g, g0, g1, g2, ?_⟩
  rw [toInt_nonneg_eq g g2, g3, a3, b3]
  have e1 : Int.gcd (toInt a) (toInt b) = Int.gcd (magnitude a.digits) (magnitude b.digits) := by
    unfold toInt
    cases a.is_negative <;> cases b.is_negative <;>
      simp only [Bool.false_eq_true, if_false, if_true, Int.neg_gcd, Int.gcd_neg]
  rw [e1]

/-- C22: for canonical `a` and `b`, `gcd(a, b)` terminates and returns the canonical
non-negative greatest common divisor of `|a|` and `|b|`.  Every remainder is smaller than
its divisor, so any iteration bound above `|b|` gives the same result; `gcd(a, 0) = |a|` and
`gcd(0, 0) = 0`; the result is that of the strict reading wherever that has one. -/
theorem gcd_returns_divisor (a b : BigInteger) (ha : canonical a) (hb : canonical b) :
    ∃ g, gcd_kept a b = some g ∧ canonical g ∧ g.is_negative = false ∧
      toInt g = (Int.gcd (toInt a) (toInt b) : Nat) ∧
      (∀ k, (magnitude b.digits).toNat < k →
        gcdLoop_kept k (applyAbs a) (applyAbs b) = some g) ∧
      (operator_bool b = true → ∃ r, operator_mod_assign_kept (applyAbs a) (applyAbs b)
        = some r ∧ magnitude r.digits < magnitude b.digits) ∧
      (toInt b = 0 → toInt g = |toInt a|) ∧
      (toInt a = 0 → toInt b = 0 → g = zero) ∧
      (∀ g2, gcd a b = some g2 → g2 = g) := by
  obtain ⟨g, g0, g1, g2, g3⟩ := gcd_kept_spec a b ha hb
  obtain ⟨a1, a2, a3⟩ := applyAbs_spec a ha
  obtain ⟨b1, b2, b3⟩ := applyAbs_spec b hb
  refine ⟨g, g0, g1, g2, g3, ?_, ?_, ?_, ?_, ?_⟩
  · intro k hk
    obtain ⟨g', k0, k1, k2, k3⟩ := gcdLoop_kept_spec k (applyAbs a) (applyAbs b) a1 a2 b1 b2
      (by rw [b3]; exact hk)
    rw [k0]
    congr 1
    apply toInt_injective g' g k1 g1
    rw [toInt_nonneg_eq g' k2, k3, g3, a3, b3]
    have e1 : Int.gcd (toInt a) (toInt b)
        = Int.gcd (magnitude a.digits) (magnitude b.digits) := by
      unfold toInt
      cases a.is_negative <;> cases b.is_negative <;>
        simp only [Bool.false_eq_true, if_false, if_true, Int.neg_gcd, Int.gcd_neg]
    rw [e1]
  · intro hbool
    have hX : 0 < magnitude (applyAbs b).digits := operator_bool_pos (applyAbs b) b1 hbool
    obtain ⟨r, r0, -, -, r3⟩ := mod_kept_spec (applyAbs a) (applyAbs b) a1 a2 b1 hX
    refine ⟨r, r0, ?_⟩
    rw [r3, ← b3]
    exact Int.emod_lt_of_pos _ hX
  · intro hb0
    rw [g3, hb0, Int.gcd_zero_right, Int.natCast_natAbs]
  · intro ha0 hb0
    apply toInt_injective g zero g1 canonical_zero
    rw [g3, ha0, hb0]
    decide
  · intro g2 hg2
    have := gcdLoop_kept_of_some _ _ _ g2 hg2
    unfold gcd_kept at g0
    rw [g0] at this
    exact (Option.some.inj this).symm

/-- The divisor theorem applied to `1005` and `1003`, whose first remainder step pops a
limb: the result is 1; `gcd(-12, 18) = 6`, `gcd(-1005, 0) = 1005` and `gcd(0, 0) = 0`. -/
theorem gcd_returns_divisor_witness :
    canonical ⟨[5, 1], false⟩ ∧ canonical ⟨[3, 1], false⟩ ∧
    gcd_kept ⟨[5, 1], false⟩ ⟨[3, 1], false⟩ = some ⟨[1], false⟩ ∧
    gcd_kept ⟨[12], true⟩ ⟨[18], false⟩ = some ⟨[6], false⟩ ∧
    gcd_kept ⟨[5, 1], true⟩ zero = some ⟨[5, 1], false⟩ ∧
    gcd_kept zero zero = some zero ∧
    (∃ g, gcd_kept ⟨[5, 1], false⟩ ⟨[3, 1], false⟩ = some g ∧ canonical g ∧
      g.is_negative = false ∧
      toInt g = (Int.gcd (toInt ⟨[5, 1], false⟩) (toInt ⟨[3, 1], false⟩) : Nat) ∧
      (∀ k, (magnitude (⟨[3, 1], false⟩ : BigInteger).digits).toNat < k →
        gcdLoop_kept k (applyAbs ⟨[5, 1], false⟩) (applyAbs ⟨[3, 1], false⟩) = some g) ∧
      (operator_bool ⟨[3, 1], false⟩ = true → ∃ r,
        operator_mod_assign_kept (applyAbs ⟨[5, 1], false⟩) (applyAbs ⟨[3, 1], false⟩)
          = some r ∧
        magnitude r.digits < magnitude (⟨[3, 1], false⟩ : BigInteger).digits) ∧
      (toInt ⟨[3, 1], false⟩ = 0 → toInt g = |toInt ⟨[5, 1], false⟩|) ∧
      (toInt ⟨[5, 1], false⟩ = 0 → toInt ⟨[3, 1], false⟩ = 0 → g = zero) ∧
      (∀ g2, gcd ⟨[5, 1], false⟩ ⟨[3, 1], false⟩ = some g2 → g2 = g)) :=
  ⟨by decide, by decide, by decide, by decide, by decide, by decide,
    gcd_returns_divisor ⟨[5, 1], false⟩ ⟨[3, 1], false⟩ (by decide) (by decide)⟩

end BigInteger

namespace BigInteger

theorem gcd_kept_of_some (a b g : BigInteger) (h : gcd a b = some g) :
    gcd_kept a b = some g :=
  gcdLoop_kept_of_some _ _ _ g h

theorem cmp_zero_lt_iff (d : BigInteger) (hd : canonical d) :
    operator_cmp d zero = Ordering.lt ↔ toInt d < 0 := by
  rw [cmp_toInt d zero hd canonical_zero]
  have hz : toInt zero = 0 := by decide
  rw [hz]
  exact compare_lt_iff_lt

end BigInteger

namespace Rational
open BigInteger

/-! ## The reduction of a fraction, with popped limbs kept in the storage -/

theorem reduce_kept_steps (r : Rational) (n1 d1 g x y : BigInteger)
    (h1 : (if operator_cmp r.y zero = Ordering.lt
      then (⟨changeSign r.x, changeSign r.y⟩ : Rational) else r) = ⟨n1, d1⟩)
    (hg : BigInteger.gcd_kept n1 d1 = some g)
    (hx : operator_div_assign_kept n1 g = some x)
    (hy : operator_div_assign_kept d1 g = some y) :
    reduce_kept r = some ⟨x, y⟩ := by
  unfold reduce_kept
  simp only [h1, hg, hx, hy]

/-- The two readings of `reduce` agree wherever the strict one has a result. -/
theorem reduce_kept_of_some (r v : Rational) (h : reduce r = some v) :
    reduce_kept r = some v := by
  unfold reduce at h
  unfold reduce_kept
  simp only at h ⊢
  generalize (if operator_cmp r.y zero = Ordering.lt
    then (⟨changeSign r.x, changeSign r.y⟩ : Rational) else r) = r1 at *
  cases hg : BigInteger.gcd r1.x r1.y with
  | none => rw [hg] at h; cases h
  | some g =>
    rw [hg] at h
    rw [gcd_kept_of_some _ _ g hg]
    simp only at h ⊢
    cases hx : BigInteger.operator_div_assign r1.x g with
    | none => rw [hx] at h; cases h
    | some x =>
      cases hy : BigInteger.operator_div_assign r1.y g with
      | none => rw [hx, hy] at h; cases h
      | some y =>
        rw [hx, hy] at h
        rw [div_kept_of_some _ _ x hx, div_kept_of_some _ _ y hy]
        exact h

/-- The reduction of a fraction with canonical numerator and canonical non-zero
denominator always returns: the denominator becomes positive, numerator and denominator
become coprime, and the fraction keeps its value. -/
theorem reduce_kept_spec (n d : BigInteger) (hn : canonical n) (hd : canonical d)
    (hd0 : toInt d ≠ 0) :
    ∃ x y, reduce_kept ⟨n, d⟩ = some ⟨x, y⟩ ∧ canonical x ∧ canonical y ∧ 0 < toInt y ∧
      Int.gcd (toInt x) (toInt y) = 1 ∧ toInt x * toInt d = toInt n * toInt y := by
  -- the pair after the sign test
  obtain ⟨n1, d1, h1, cn1, cd1, hd1, hn1⟩ : ∃ n1 d1 : BigInteger,
      (if operator_cmp d zero = Ordering.lt
        then (⟨changeSign n, changeSign d⟩ : Rational) else ⟨n, d⟩) = ⟨n1, d1⟩ ∧
      canonical n1 ∧ canonical d1 ∧ 0 < toInt d1 ∧
      toInt n1 * toInt d = toInt n * toInt d1 := by
    by_cases hneg : operator_cmp d zero = Ordering.lt
    · have hlt := (cmp_zero_lt_iff d hd).mp hneg
      refine ⟨changeSign n, changeSign d, by rw [if_pos hneg], changeSign_canonical n hn,
        changeSign_canonical d hd, ?_, ?_⟩
      · rw [changeSign_toInt]; omega
      · rw [changeSign_toInt, changeSign_toInt]; ring
    · have hge : ¬ toInt d < 0 := fun h => hneg ((cmp_zero_lt_iff d hd).mpr h)
      refine ⟨n, d, by rw [if_neg hneg], hn, hd, by omega, rfl⟩
  obtain ⟨g, g0, g1, g2, g3⟩ := gcd_kept_spec n1 d1 cn1 cd1
  have hGpos : 0 < Int.gcd (toInt n1) (toInt d1) :=
    Int.gcd_pos_of_ne_zero_right _ (by omega)
  have hG : 0 < toInt g := by rw [g3]; exact_mod_cast hGpos
  have hgm : 0 < magnitude g.digits := by rw [← toInt_nonneg_eq g g2]; exact hG
  obtain ⟨x, x0, x1, x2⟩ := div_kept_spec n1 g cn1 g1 hgm
  obtain ⟨y, y0, y1, y2⟩ := div_kept_spec d1 g cd1 g1 hgm
  have hdx : toInt g ∣ toInt n1 := by rw [g3]; exact Int.gcd_dvd_left
  have hdy : toInt g ∣ toInt d1 := by rw [g3]; exact Int.gcd_dvd_right
  rw [Int.tdiv_eq_ediv_of_dvd hdx] at x2
  rw [Int.tdiv_eq_ediv_of_dvd hdy] at y2
  have ex : toInt x * toInt g = toInt n1 := by
    rw [x2]; exact Int.ediv_mul_cancel hdx
  have ey : toInt y * toInt g = toInt d1 := by
    rw [y2]; exact Int.ediv_mul_cancel hdy
  refine ⟨x, y, reduce_kept_steps ⟨n, d⟩ n1 d1 g x y h1 g0 x0 y0, x1, y1, ?_, ?_, ?_⟩
  · by_contra hcon
    have : toInt y * toInt g ≤ 0 := Int.mul_nonpos_of_nonpos_of_nonneg (by omega) (le_of_lt hG)
    omega
  · rw [x2, y2, g3]
    exact Int.gcd_div_gcd_div_gcd hGpos
  · have hcancel : (toInt x * toInt d) * toInt g = (toInt n * toInt y) * toInt g := by
      calc (toInt x * toInt d) * toInt g = (toInt x * toInt g) * toInt d := by ring
        _ = toInt n1 * toInt d := by rw [ex]
        _ = toInt n * toInt d1 := hn1
        _ = toInt n * (toInt y * toInt g) := by rw [ey]
        _ = (toInt n * toInt y) * toInt g := by ring
    exact Int.eq_of_mul_eq_mul_right (by omega) hcancel

/-- C16: for a canonical `n` and a canonical non-zero `d`, constructing `Rational(n, d)`
yields a pair `(x, y)` of canonical values with `y > 0`, `gcd(|x|, y) = 1`, `x / y = n / d`,
and `x = 0`, `y = 1` when `n` is zero; it is the pair of the strict reading wherever that
has one. -/
theorem construct_reduced (n d : BigInteger) (hn : canonical n) (hd : canonical d)
    (hd0 : toInt d ≠ 0) :
    ∃ x y, construct_kept n d = some ⟨x, y⟩ ∧ canonical x ∧ canonical y ∧ 0 < toInt y ∧
      Int.gcd (toInt x) (toInt y) = 1 ∧ toInt x * toInt d = toInt n * toInt y ∧
      (toInt n = 0 → x = zero ∧ y = ⟨[1], false⟩) ∧
      (∀ v, construct n d = some v → v = ⟨x, y⟩) := by
  obtain ⟨x, y, h1, h2, h3, h4, h5, h6⟩ := reduce_kept_spec n d hn hd hd0
  refine ⟨x, y, h1, h2, h3, h4, h5, h6, ?_, ?_⟩
  · intro hn0
    rw [hn0, zero_mul] at h6
    have hx0 : toInt x = 0 := by
      rcases Int.mul_eq_zero.mp h6 with h | h
      · exact h
      · exact absurd h hd0
    have hy1 : toInt y = 1 := by
      rw [hx0, Int.gcd_zero_left] at h5
      omega
    exact ⟨toInt_injective x zero h2 canonical_zero (by rw [hx0]; decide),
      toInt_injective y ⟨[1], false⟩ h3 (by decide) (by rw [hy1]; decide)⟩
  · intro v hv
    have := reduce_kept_of_some ⟨n, d⟩ v hv
    rw [h1] at this
    exact (Option.some.inj this).symm

/-- The construction theorem applied to `Rational(1005, 1003)`, already in lowest terms,
with `Rational(-6, -4) = 3/2` and `Rational(0, -7) = 0/1`. -/
theorem construct_reduced_witness :
    canonical ⟨[5, 1], false⟩ ∧ canonical ⟨[3, 1], false⟩ ∧ toInt ⟨[3, 1], false⟩ ≠ 0 ∧
    construct_kept ⟨[5, 1], false⟩ ⟨[3, 1], false⟩
      = some ⟨⟨[5, 1], false⟩, ⟨[3, 1], false⟩⟩ ∧
    construct_kept ⟨[6], true⟩ ⟨[4], true⟩ = some ⟨⟨[3], false⟩, ⟨[2], false⟩⟩ ∧
    construct_kept zero ⟨[7], true⟩ = some ⟨zero, ⟨[1], false⟩⟩ ∧
    (∃ x y, construct_kept ⟨[5, 1], false⟩ ⟨[3, 1], false⟩ = some ⟨x, y⟩ ∧ canonical x ∧
      canonical y ∧ 0 < toInt y ∧ Int.gcd (toInt x) (toInt y) = 1 ∧
      toInt x * toInt ⟨[3, 1], false⟩ = toInt ⟨[5, 1], false⟩ * toInt y ∧
      (toInt ⟨[5, 1], false⟩ = 0 → x = zero ∧ y = ⟨[1], false⟩) ∧
      (∀ v, construct ⟨[5, 1], false⟩ ⟨[3, 1], false⟩ = some v → v = ⟨x, y⟩)) :=
  ⟨by decide, by decide, by decide, by decide, by decide, by decide,
    construct_reduced ⟨[5, 1], false⟩ ⟨[3, 1], false⟩ (by decide) (by decide) (by decide)⟩

end Rational

namespace BigInteger

/-! ## Runs of decimal digits -/

theorem digitsValue_foldl (t : List Char) :
    ∀ acc : Int, t.foldl (fun acc c => 10 * acc + ((c.toNat : Int) - 48)) acc
      = acc * 10 ^ t.length + digitsValue t := by
  induction t with
  | nil => intro acc; simp [digitsValue]
  | cons c t ih =>
    intro acc
    simp only [List.foldl_cons, digitsValue, List.length_cons]
    rw [ih, ih (10 * 0 + ((c.toNat : Int) - 48))]
    simp only [digitsValue]
    ring

theorem digitsValue_cons (c : Char) (t : List Char) :
    digitsValue (c :: t) = ((c.toNat : Int) - 48) * 10 ^ t.length + digitsValue t := by
  simp only [digitsValue, List.foldl_cons]
  rw [digitsValue_foldl]
  simp only [digitsValue]
  ring

theorem digitsValue_nonneg (t : List Char) (h : ∀ c ∈ t, c.isDigit = true) :
    0 ≤ digitsValue t := by
  induction t with
  | nil => simp [digitsValue]
  | cons c t ih =>
    rw [digitsValue_cons]
    have hb := isDigit_bounds c (h c (List.mem_cons_self _ _))
    have := ih (fun e he => h e (List.mem_cons_of_mem _ he))
    have hp : (0 : Int) ≤ 10 ^ t.length := by positivity
    have hc : (0 : Int) ≤ (c.toNat : Int) - 48 := by omega
    have := mul_nonneg hc hp
    omega

/-- A run of decimal digits without a leading zero, other than the run `0`, that writes a
number below `10 ^ k` has at most `k` digits. -/
theorem digits_length_le (ds : List Char) (k : Nat) (hk : 1 ≤ k) (hne : ds ≠ [])
    (hd : ∀ c ∈ ds, c.isDigit = true) (hz : ds.head? = some '0' → ds = ['0'])
    (hv : digitsValue ds < 10 ^ k) : ds.length ≤ k := by
  cases ds with
  | nil => exact absurd rfl hne
  | cons c t =>
    by_cases hc : c = '0'
    · have := hz (by rw [hc]; rfl)
      rw [this]; simpa using hk
    · have hb := isDigit_bounds c (hd c (List.mem_cons_self _ _))
      have hc48 : c.toNat ≠ 48 := by
        intro h0
        apply hc
        apply Char.ext
        apply UInt32.ext
        exact h0
      rw [digitsValue_cons] at hv
      have ht := digitsValue_nonneg t (fun e he => hd e (List.mem_cons_of_mem _ he))
      have hp : (0 : Int) < 10 ^ t.length := by positivity
      have h1 : (1 : Int) ≤ (c.toNat : Int) - 48 := by omega
      have h2 : (10 : Int) ^ t.length ≤ ((c.toNat : Int) - 48) * 10 ^ t.length := by
        nlinarith
      have h3 : (10 : Int) ^ t.length < 10 ^ k := by omega
      have h4 : t.length < k := by
        by_contra hcon
        have : (10 : Int) ^ k ≤ 10 ^ t.length :=
          pow_le_pow_right₀ (by norm_num) (by omega)
        omega
      simp only [List.length_cons]
      omega

end BigInteger

namespace Rational
open BigInteger

/-! ## The decimal expansion `asDecimal`, with popped limbs kept in the storage -/

theorem asDecimal_kept_zero (r : Rational) (div mod : BigInteger)
    (h1 : div_mod_kept r.x r.y = some (div, mod)) :
    asDecimal_kept r 0 = some (BigInteger.toString div) := by
  unfold asDecimal_kept
  rw [h1]
  simp only [if_true]

theorem asDecimal_kept_steps (r : Rational) (k : Nat) (hk : k ≠ 0) (div mod mod3 : BigInteger)
    (h1 : div_mod_kept r.x r.y = some (div, mod))
    (h3 : operator_div_assign_kept (multiply_pow10 (applyAbs mod) k) r.y = some mod3) :
    asDecimal_kept r k = some
      ((if BigInteger.toString div = ['0'] ∧ operator_cmp r.x zero = Ordering.lt ∧
          operator_bool mod3 = true then ['-', '0'] else BigInteger.toString div) ++ ['.'] ++
        List.replicate ((k + 2 ^ 64 - (BigInteger.toString mod3).length) % 2 ^ 64) '0' ++
        BigInteger.toString mod3) := by
  unfold asDecimal_kept
  rw [h1]
  simp only [hk, if_false, h3]

/-- The decimal expansion of `x / y` for canonical `x` and canonical positive `y`: it always
returns; with precision 0 the text of the truncated quotient, and with a precision
`1 <= k < 2^64` a whole part, a point and exactly `k` decimal digits that write
`(|x| mod y) * 10^k / y`, padded with zeros on the left.  The whole part is the text of the
truncated quotient, or `-0` when that quotient is zero, `x` is negative and the digits are
not all zero. -/
theorem asDecimal_kept_spec (r : Rational) (k : Nat) (hx : canonical r.x) (hy : canonical r.y)
    (hy0 : 0 < toInt r.y) (hk : k < 2 ^ 64) :
    (k = 0 → ∃ s, asDecimal_kept r k = some s ∧
      decimalText s ((toInt r.x).tdiv (toInt r.y))) ∧
    (1 ≤ k → ∃ ip frac, asDecimal_kept r k = some (ip ++ '.' :: frac) ∧
      frac.length = k ∧ (∀ c ∈ frac, c.isDigit = true) ∧
      digitsValue frac = (|toInt r.x| % toInt r.y) * 10 ^ k / toInt r.y ∧
      (decimalText ip ((toInt r.x).tdiv (toInt r.y)) ∨
        (ip = ['-', '0'] ∧ (toInt r.x).tdiv (toInt r.y) = 0 ∧ toInt r.x < 0 ∧
          digitsValue frac ≠ 0))) := by
  have hyn := nonneg_of_toInt r.y hy (le_of_lt hy0)
  have hyY : toInt r.y = magnitude r.y.digits := toInt_nonneg_eq r.y hyn
  have hX : 0 < magnitude r.y.digits := by rw [← hyY]; exact hy0
  obtain ⟨div, mod, d1, d2, d3, d4, d5, d6, d7, -, -⟩ := div_mod_kept_spec r.x r.y hx hy hX
  have hdec := toString_decimal div d2
  rw [d6] at hdec
  constructor
  · intro hk0
    subst hk0
    exact ⟨_, asDecimal_kept_zero r div mod d1, hdec⟩
  · intro hk1
    have hk0 : k ≠ 0 := by omega
    obtain ⟨a1, a2, a3⟩ := applyAbs_spec mod d3
    obtain ⟨p1, p2, p3⟩ := multiply_pow10_spec (applyAbs mod) a1 a2 k
    rw [toInt_nonneg_eq (applyAbs mod) a2, a3] at p2
    obtain ⟨mod3, q0, q1, q2⟩ := div_kept_spec (multiply_pow10 (applyAbs mod) k) r.y p1 hy hX
    have hM0 := magnitude_nonneg mod.digits d3.2.1
    have hMlt : magnitude mod.digits < magnitude r.y.digits := by
      rw [d5]; exact Int.emod_lt_of_pos _ hX
    have h10 : (0 : Int) < 10 ^ k := by positivity
    have hnum0 : 0 ≤ magnitude mod.digits * 10 ^ k := mul_nonneg hM0 (le_of_lt h10)
    rw [p2, hyY, Int.tdiv_eq_ediv hnum0 (le_of_lt hX)] at q2
    have hF0 : 0 ≤ magnitude mod.digits * 10 ^ k / magnitude r.y.digits :=
      Int.ediv_nonneg hnum0 (le_of_lt hX)
    have hF1 : magnitude mod.digits * 10 ^ k / magnitude r.y.digits < 10 ^ k := by
      apply Int.ediv_lt_of_lt_mul hX
      nlinarith
    obtain ⟨ds, e1, e2, e3, e4, e5⟩ := toString_decimal mod3 q1
    rw [q2, if_neg (not_lt.mpr hF0), List.nil_append] at e1
    rw [q2, abs_of_nonneg hF0] at e5
    have hlen : ds.length ≤ k := digits_length_le ds k hk1 e2 e3 e4 (by rw [e5]; exact hF1)
    have hcount : (k + 2 ^ 64 - ds.length) % 2 ^ 64 = k - ds.length := by omega
    have hsteps := asDecimal_kept_steps r k hk0 div mod mod3 d1 q0
    rw [e1, hcount] at hsteps
    have habs : |toInt r.x| = magnitude r.x.digits := abs_toInt r.x hx
    have hfv : digitsValue (List.replicate (k - ds.length) '0' ++ ds)
        = (|toInt r.x| % toInt r.y) * 10 ^ k / toInt r.y := by
      rw [digitsValue_zeros, e5, habs, hyY, d5]
    have hfl : (List.replicate (k - ds.length) '0' ++ ds).length = k := by
      simp only [List.length_append, List.length_replicate]; omega
    have hfd : ∀ c ∈ List.replicate (k - ds.length) '0' ++ ds, c.isDigit = true := by
      intro c hc
      rcases List.mem_append.mp hc with h | h
      · rw [(List.mem_replicate.mp h).2]; rfl
      · exact e3 c h
    by_cases hcond : BigInteger.toString div = ['0'] ∧ operator_cmp r.x zero = Ordering.lt ∧
        operator_bool mod3 = true
    · rw [if_pos hcond] at hsteps
      refine ⟨['-', '0'], List.replicate (k - ds.length) '0' ++ ds, ?_, hfl, hfd, hfv,
        Or.inr ⟨rfl, ?_, (cmp_zero_lt_iff r.x hx).mp hcond.2.1, ?_⟩⟩
      · rw [hsteps]; simp only [List.append_assoc, List.cons_append, List.nil_append]
      · obtain ⟨es, f1, f2, f3, f4, f5⟩ := hdec
        rw [hcond.1] at f1
        by_cases hneg : (toInt r.x).tdiv (toInt r.y) < 0
        · rw [if_pos hneg] at f1
          simp at f1
        · rw [if_neg hneg, List.nil_append] at f1
          rw [← f1] at f5
          have hz : digitsValue ['0'] = 0 := by decide
          rw [hz] at f5
          exact abs_eq_zero.mp f5.symm
      · rw [digitsValue_zeros, e5]
        intro h0
        have hm3 : toInt mod3 = 0 := by
          rw [q2]; exact h0
        have : mod3 = zero := toInt_injective mod3 zero q1 canonical_zero (by
          rw [hm3]; decide)
        rw [this] at hcond
        exact absurd hcond.2.2 (by decide)
    · rw [if_neg hcond] at hsteps
      refine ⟨BigInteger.toString div, List.replicate (k - ds.length) '0' ++ ds, ?_, hfl, hfd,
        hfv, Or.inl hdec⟩
      rw [hsteps]; simp only [List.append_assoc, List.cons_append, List.nil_append]

theorem asDecimal_kept_of_some (r : Rational) (k : Nat) (s : List Char)
    (h : asDecimal r k = some s) : asDecimal_kept r k = some s := by
  unfold asDecimal at h
  unfold asDecimal_kept
  cases hd : div_mod r.x r.y with
  | none => rw [hd] at h; cases h
  | some p =>
    obtain ⟨div, mod⟩ := p
    rw [hd] at h
    rw [div_mod_kept_of_some r.x r.y (div, mod) hd]
    simp only at h ⊢
    by_cases hk : k = 0
    · rw [if_pos hk] at h ⊢; exact h
    · rw [if_neg hk] at h ⊢
      cases hq : BigInteger.operator_div_assign (multiply_pow10 (applyAbs mod) k) r.y with
      | none => rw [hq] at h; cases h
      | some mod3 =>
        rw [hq] at h
        rw [div_kept_of_some _ _ mod3 hq]
        exact h

/-- C18: for canonical `x` and a canonical positive `y`, `asDecimal(0)` is the decimal text
of the truncated quotient of `x` by `y`, and for a precision `k >= 1` the result is a whole
part, a point and exactly `k` decimal digits that write `floor((|x| mod y) * 10^k / y)`,
padded with zeros on the left; it is the text of the strict reading wherever that has
one. -/
theorem asDecimal_format (r : Rational) (k : Nat) (hx : canonical r.x) (hy : canonical r.y)
    (hy0 : 0 < toInt r.y) (hk : k < 2 ^ 64) :
    (k = 0 → ∃ s, asDecimal_kept r k = some s ∧
      decimalText s ((toInt r.x).tdiv (toInt r.y))) ∧
    (1 ≤ k → ∃ ip frac, asDecimal_kept r k = some (ip ++ '.' :: frac) ∧
      frac.length = k ∧ (∀ c ∈ frac, c.isDigit = true) ∧
      digitsValue frac = (|toInt r.x| % toInt r.y) * 10 ^ k / toInt r.y ∧
      (decimalText ip ((toInt r.x).tdiv (toInt r.y)) ∨
        (ip = ['-', '0'] ∧ (toInt r.x).tdiv (toInt r.y) = 0 ∧ toInt r.x < 0 ∧
          digitsValue frac ≠ 0))) ∧
    (∀ s, asDecimal r k = some s → asDecimal_kept r k = some s) :=
  ⟨(asDecimal_kept_spec r k hx hy hy0 hk).1, (asDecimal_kept_spec r k hx hy hy0 hk).2,
    fun s hs => asDecimal_kept_of_some r k s hs⟩

/-- The format theorem applied to `Rational(1, 2).asDecimal(3)`, whose division `1000 /= 2`
pops a limb: the text is `0.500`; the texts of the interface examples are listed with
it. -/
theorem asDecimal_format_witness :
    canonical ⟨[1], false⟩ ∧ canonical ⟨[2], false⟩ ∧ 0 < toInt ⟨[2], false⟩ ∧
    asDecimal_kept ⟨⟨[1], false⟩, ⟨[2], false⟩⟩ 3 = some ['0', '.', '5', '0', '0'] ∧
    asDecimal_kept ⟨⟨[1], false⟩, ⟨[2], false⟩⟩ 2 = some ['0', '.', '5', '0'] ∧
    asDecimal_kept ⟨⟨[7], false⟩, ⟨[5], false⟩⟩ 10
      = some ['1', '.', '4', '0', '0', '0', '0', '0', '0', '0', '0', '0'] ∧
    asDecimal_kept ⟨⟨[3], true⟩, ⟨[5], false⟩⟩ 2 = some ['-', '0', '.', '6', '0'] ∧
    asDecimal_kept ⟨⟨[7], true⟩, ⟨[2], false⟩⟩ 0 = some ['-', '3'] ∧
    ((3 = 0 → ∃ s, asDecimal_kept ⟨⟨[1], false⟩, ⟨[2], false⟩⟩ 3 = some s ∧
      decimalText s ((toInt ⟨[1], false⟩).tdiv (toInt ⟨[2], false⟩))) ∧
    (1 ≤ 3 → ∃ ip frac,
      asDecimal_kept ⟨⟨[1], false⟩, ⟨[2], false⟩⟩ 3 = some (ip ++ '.' :: frac) ∧
      frac.length = 3 ∧ (∀ c ∈ frac, c.isDigit = true) ∧
      digitsValue frac
        = (|toInt ⟨[1], false⟩| % toInt ⟨[2], false⟩) * 10 ^ 3 / toInt ⟨[2], false⟩ ∧
      (decimalText ip ((toInt ⟨[1], false⟩).tdiv (toInt ⟨[2], false⟩)) ∨
        (ip = ['-', '0'] ∧ (toInt ⟨[1], false⟩).tdiv (toInt ⟨[2], false⟩) = 0 ∧
          toInt ⟨[1], false⟩ < 0 ∧ digitsValue frac ≠ 0))) ∧
    (∀ s, asDecimal ⟨⟨[1], false⟩, ⟨[2], false⟩⟩ 3 = some s →
      asDecimal_kept ⟨⟨[1], false⟩, ⟨[2], false⟩⟩ 3 = some s)) :=
  ⟨by decide, by decide, by decide, by decide, by decide, by decide, by decide, by decide,
    asDecimal_format ⟨⟨[1], false⟩, ⟨[2], false⟩⟩ 3 (by decide) (by decide) (by decide)
      (by decide)⟩

end Rational

namespace BigInteger

/-! ## The product `operator*=` on operands of one limb each -/

end BigInteger

namespace Rational
open BigInteger

/-! ## `operator/=` by a rational whose numerator is zero -/

end Rational

namespace BigInteger

/-! ## The extraction `operator>>` on an arbitrary token -/

theorem fillLimbs_spec (s : List Char) :
    ∀ (k : Nat) (pre rest : List Int), rest.length = k →
      fillLimbs s k pre.length (pre ++ rest)
        = pre ++ (List.range k).map (fun j => readLimb s (pre.length + j) DIGIT_SIZE 0) := by
  intro k
  induction k with
  | zero =>
    intro pre rest h
    have : rest = [] := List.length_eq_zero.mp h
    subst this
    simp [fillLimbs]
  | succ k ih =>
    intro pre rest h
    cases rest with
    | nil => simp at h
    | cons t rest =>
      simp only [fillLimbs, set_append_length]
      have a1 : pre ++ readLimb s pre.length DIGIT_SIZE 0 :: rest
          = (pre ++ [readLimb s pre.length DIGIT_SIZE 0]) ++ rest := by simp
      have hl : pre.length + 1 = (pre ++ [readLimb s pre.length DIGIT_SIZE 0]).length := by
        simp
      rw [a1, hl, ih _ rest (by simpa using h)]
      rw [List.range_succ_eq_map]
      simp only [List.length_append, List.length_singleton, List.map_cons, List.map_map,
        List.append_assoc, List.singleton_append, Nat.add_zero]
      congr 2
      apply List.map_congr_left
      intro j _
      simp only [Function.comp]
      congr 1
      omega

/-- The loop of `operator>>` writes every limb of the resized destination, so the limbs it
leaves are those read from the token, whatever the destination held. -/
theorem fillLimbs_resize (s : List Char) (d : List Int) (n : Nat) :
    fillLimbs s n 0 (resize d n)
      = (List.range n).map (fun i => readLimb s i DIGIT_SIZE 0) := by
  have := fillLimbs_spec s n [] (resize d n) (resize_length d n)
  simpa using this

theorem operator_extract_eq_read (x : BigInteger) (s : List Char) :
    operator_extract x s = operator_read s := by
  unfold operator_extract operator_read
  cases hg : s.reverse.getLast? with
  | none => simp only [hg]
  | some c => simp only [hg, fillLimbs_resize]

theorem stripZeroes_magnitude :
    ∀ (k : Nat) (d : List Int), magnitude (stripZeroes k d) = magnitude d := by
  intro k
  induction k with
  | zero => intro d; rfl
  | succ k ih =>
    intro d
    simp only [stripZeroes]
    by_cases hc : 1 < d.length ∧ d.getLast? = some 0
    · rw [if_pos hc, ih]
      rcases List.eq_nil_or_concat d with h0 | ⟨L, b, h0⟩
      · subst h0; simp at hc
      rw [List.concat_eq_append] at h0
      subst h0
      have hb : b = 0 := by
        have := hc.2
        rw [List.getLast?_concat] at this
        simpa using this
      rw [List.dropLast_concat, magnitude_append, hb]
      simp [magnitude]
    · rw [if_neg hc]

theorem deleteZeroes_magnitude (d : List Int) (s : Bool) :
    magnitude (deleteZeroes ⟨d, s⟩).digits = magnitude d ∧
    (deleteZeroes ⟨d, s⟩).is_negative = (s && operator_bool (deleteZeroes ⟨d, s⟩)) := by
  unfold deleteZeroes
  simp only []
  cases hb : operator_bool ⟨stripZeroes d.length d, s⟩
  · simp only [Bool.false_eq_true, if_false]
    refine ⟨stripZeroes_magnitude _ _, ?_⟩
    have : operator_bool ⟨stripZeroes d.length d, false⟩ = false := hb
    rw [this]; simp
  · simp only [if_true]
    refine ⟨stripZeroes_magnitude _ _, ?_⟩
    rw [hb]; simp

/-- The limbs that `operator>>` reads from a padded, reversed run of characters, digits or
not: each character `c` counts as the digit `c - '0'`. -/
theorem readAll_any :
    ∀ (n : Nat) (r : List Char), r.length = 3 * n →
      magnitude ((List.range n).map (fun i => readLimb r i DIGIT_SIZE 0))
        = digitsValue r.reverse := by
  intro n
  induction n with
  | zero =>
    intro r hl
    have : r = [] := List.length_eq_zero.mp (by omega)
    subst this
    rfl
  | succ n ih =>
    intro r hl
    obtain ⟨c0, c1, c2, rest, hr⟩ : ∃ c0 c1 c2 rest, r = c0 :: c1 :: c2 :: rest := by
      match r, hl with
      | c0 :: c1 :: c2 :: rest, _ => exact ⟨c0, c1, c2, rest, rfl⟩
      | [], hl => simp at hl
      | [_], hl => simp at hl; omega
      | [_, _], hl => simp at hl; omega
    subst hr
    have g2 := ih rest (by simp at hl; omega)
    rw [readAll_cons]
    have hv : readLimb (c0 :: c1 :: c2 :: rest) 0 DIGIT_SIZE 0
        = 100 * ((c2.toNat : Int) - 48) + 10 * ((c1.toNat : Int) - 48)
          + ((c0.toNat : Int) - 48) := by
      simp only [readLimb, DIGIT_SIZE, USER_BASE, Nat.mul_zero, Nat.zero_add,
        List.getD_cons_zero, List.getD_cons_succ]
      ring
    rw [hv]
    simp only [magnitude, g2, REAL_BASE_eq, List.reverse_cons, digitsValue_concat]
    ring

/-- C12 (counterexample): the malformed token `+5` raises nothing and is applied: a
destination holding 7 is overwritten with the single limb `'+' - '0' = -5` times ten plus
5, that is `-45`. -/
theorem operator_extract_plus_five :
    ¬ validToken ['+', '5'] ∧
    operator_extract ⟨[7], false⟩ ['+', '5'] = some ⟨[-45], false⟩ ∧
    (⟨[-45], false⟩ : BigInteger) ≠ ⟨[7], false⟩ := by
  decide

/-- C12: for every non-empty token of ASCII characters, malformed or not, the parser raises
nothing and overwrites the destination.  Each character `c` after an optional leading `-`
is read as the digit `c - '0'`: the limbs stored add up to the number these digits write;
the sign flag is set exactly when the token starts with `-` and the stored limbs are not
the single limb 0; and what is stored does not depend on what the destination held. -/
theorem operator_extract_overwrites (x : BigInteger) (s : List Char) (h : s ≠ [])
    (_hascii : ∀ c ∈ s, c.toNat < 128) :
    ∃ v, operator_extract x s = some v ∧
      magnitude v.digits = digitsValue (if s.head? = some '-' then s.tail else s) ∧
      v.is_negative = (decide (s.head? = some '-') && operator_bool v) ∧
      (∀ x2, operator_extract x2 s = some v) := by
  obtain ⟨c, t, hs⟩ : ∃ c t, s = c :: t := by
    cases s with
    | nil => exact absurd rfl h
    | cons c t => exact ⟨c, t, rfl⟩
  subst hs
  have hl : (c :: t).reverse.getLast? = some c := by
    rw [List.reverse_cons, List.getLast?_concat]
  have hdl : (c :: t).reverse.dropLast = t.reverse := by
    rw [List.reverse_cons, List.dropLast_concat]
  have key : ∀ x2, operator_extract x2 (c :: t) = some (deleteZeroes
      ⟨(List.range ((padChars DIGIT_SIZE
          (if c = '-' then t.reverse else (c :: t).reverse)).length / DIGIT_SIZE)).map
        (fun i => readLimb (padChars DIGIT_SIZE
          (if c = '-' then t.reverse else (c :: t).reverse)) i DIGIT_SIZE 0),
        decide (c = '-')⟩) := by
    intro x2
    rw [operator_extract_eq_read]
    unfold operator_read
    simp only [hl, hdl]
  refine ⟨_, key x, ?_, ?_, key⟩
  · obtain ⟨d1, -⟩ := deleteZeroes_magnitude
      ((List.range ((padChars DIGIT_SIZE
          (if c = '-' then t.reverse else (c :: t).reverse)).length / DIGIT_SIZE)).map
        (fun i => readLimb (padChars DIGIT_SIZE
          (if c = '-' then t.reverse else (c :: t).reverse)) i DIGIT_SIZE 0))
      (decide (c = '-'))
    rw [d1]
    obtain ⟨j, hp, hj⟩ := padChars_eq (if c = '-' then t.reverse else (c :: t).reverse)
    rw [hp]
    obtain ⟨n, hn⟩ : ∃ n, ((if c = '-' then t.reverse else (c :: t).reverse)
        ++ List.replicate j '0').length = 3 * n :=
      ⟨((if c = '-' then t.reverse else (c :: t).reverse).length + j) / 3, by
        simp only [List.length_append, List.length_replicate]; omega⟩
    have hdiv : ((if c = '-' then t.reverse else (c :: t).reverse)
        ++ List.replicate j '0').length / DIGIT_SIZE = n := by
      rw [hn, DIGIT_SIZE]; omega
    rw [hdiv, readAll_any n _ hn, List.reverse_append, List.reverse_replicate,
      digitsValue_zeros]
    by_cases hc : c = '-'
    · simp [hc]
    · simp [hc]
  · obtain ⟨-, d2⟩ := deleteZeroes_magnitude
      ((List.range ((padChars DIGIT_SIZE
          (if c = '-' then t.reverse else (c :: t).reverse)).length / DIGIT_SIZE)).map
        (fun i => readLimb (padChars DIGIT_SIZE
          (if c = '-' then t.reverse else (c :: t).reverse)) i DIGIT_SIZE 0))
      (decide (c = '-'))
    rw [d2]
    by_cases hc : c = '-'
    · simp [hc]
    · simp [hc]

/-- The overwriting theorem applied to the token `12a` and a destination holding `-1005`:
the limb stored is `1 * 100 + 2 * 10 + ('a' - '0') = 169`; the token `-` alone stores an
empty limb vector with the sign flag set. -/
theorem operator_extract_overwrites_witness :
    ¬ validToken ['1', '2', 'a'] ∧
    operator_extract ⟨[5, 1], true⟩ ['1', '2', 'a'] = some ⟨[169], false⟩ ∧
    operator_extract ⟨[5, 1], true⟩ ['-'] = some ⟨[], true⟩ ∧
    (∃ v, operator_extract ⟨[5, 1], true⟩ ['1', '2', 'a'] = some v ∧
      magnitude v.digits = digitsValue
        (if (['1', '2', 'a'] : List Char).head? = some '-'
          then (['1', '2', 'a'] : List Char).tail else ['1', '2', 'a']) ∧
      v.is_negative
        = (decide ((['1', '2', 'a'] : List Char).head? = some '-') && operator_bool v) ∧
      (∀ x2, operator_extract x2 ['1', '2', 'a'] = some v)) :=
  ⟨by decide, by decide, by decide,
    operator_extract_overwrites ⟨[5, 1], true⟩ ['1', '2', 'a'] (by decide) (by decide)⟩

end BigInteger
